import Mathlib

/-!
# Contour stitching and grid bounds of `DPVisualizer::VizContourGraph`

A shallow embedding of the segment pipeline in
`src/Far_planner/src/far_planner/src/planner_visualizer.cpp` (lines 213-391):

* the loop that collects `contour_marker.points` pairwise into `All_data`,
  normalising the endpoint order of every segment (lines 216-239);
* the removal of repeated entries that yields `Simplified_data` (lines 240-261);
* the stitching loop that moves segments from `Simplified_data` into
  `Circle_data` (lines 262-317);
* the construction of `Points` (lines 318-332);
* the overall bounding box (lines 333-359);
* the allocation of the grid and its rasterisation (lines 362-391).

Coordinates are C++ `double`s.  The code up to line 359 only copies and compares
them (`==`, `!=`, `<`, `>`), so a coordinate is modelled by the rational number it
denotes; NaN and infinities are outside the model.  Lines 362-391 also compute with
them: there every operation is the exact operation followed by rounding to the nearest
`double`, and the integer conversions are those of 32-bit integers; see the section on
the grid.
-/

namespace FarGrid

/-! ## Data model -/

/-- A `geometry_msgs::Point` with the third coordinate dropped. -/
structure Point where
  x : ℚ
  y : ℚ
deriving DecidableEq, Repr

/-- A `std::vector<double>` of size 4 as stored in `All_data`, `Simplified_data` and
`Circle_data`: entries `[0],[1]` are the first endpoint, `[2],[3]` the second. -/
structure Seg where
  x1 : ℚ
  y1 : ℚ
  x2 : ℚ
  y2 : ℚ
deriving DecidableEq, Repr

instance : Inhabited Seg := ⟨⟨0, 0, 0, 0⟩⟩

/-- First endpoint `([0],[1])` of a segment. -/
def Seg.a (s : Seg) : Point := ⟨s.x1, s.y1⟩

/-- Second endpoint `([2],[3])` of a segment. -/
def Seg.b (s : Seg) : Point := ⟨s.x2, s.y2⟩

/-- The segment that runs from `p` to `q`. -/
def mkSeg (p q : Point) : Seg := ⟨p.x, p.y, q.x, q.y⟩

/-- Exchange of the two endpoints through `tem_var` (lines 228-234 and 285-291). -/
def Seg.swap (s : Seg) : Seg := ⟨s.x2, s.y2, s.x1, s.y1⟩

/-! ## Collecting and normalising segments (lines 216-239) -/

/-- Assignment `tem_vec[k] = d` for `k < 4`. -/
def Seg.set (v : Seg) (k : Nat) (d : ℚ) : Seg :=
  match k with
  | 0 => { v with x1 := d }
  | 1 => { v with y1 := d }
  | 2 => { v with x2 := d }
  | 3 => { v with y2 := d }
  | _ => v

/-- The test of line 226 followed by the exchange of lines 228-234. -/
def canon (v : Seg) : Seg :=
  if v.x1 > v.x2 ∨ (v.x1 = v.x2 ∧ v.y1 > v.y2) then v.swap else v

/-- Variables live across the iterations of the loop of line 218. -/
structure CollectState where
  tem_vec : Seg
  tem_h : Nat
  i : Nat
  All_data : List Seg

/-- One iteration of the loop of line 218, reading `contour_marker.points[i] = p`. -/
def collectStep (st : CollectState) (p : Point) : CollectState :=
  let v := (st.tem_vec.set st.tem_h p.x).set (st.tem_h + 1) p.y
  let h := st.tem_h + 2
  let i := st.i + 1
  if i % 2 = 0 then
    { tem_vec := canon v, tem_h := 0, i := i, All_data := st.All_data ++ [canon v] }
  else
    { tem_vec := v, tem_h := h, i := i, All_data := st.All_data }

/-- The loop of lines 216-239 over `contour_marker.points`; the result is `All_data`. -/
def collect (pts : List Point) : List Seg :=
  (pts.foldl collectStep ⟨⟨0, 0, 0, 0⟩, 0, 0, []⟩).All_data

/-- The marker points pushed for a list of raw segments: both endpoints of each
segment, in order (a `LINE_LIST` marker). -/
def markerPoints (raw : List Seg) : List Point :=
  raw.flatMap fun s => [s.a, s.b]

/-- Lexicographic order on endpoints: first by `x`, then by `y`. -/
def lexLe (p q : Point) : Prop := p.x < q.x ∨ (p.x = q.x ∧ p.y ≤ q.y)

instance (p q : Point) : Decidable (lexLe p q) := by unfold lexLe; infer_instance

/-- Both segments have the same two endpoints, in the same or in exchanged order. -/
def sameEndpoints (s c : Seg) : Prop :=
  (c.a = s.a ∧ c.b = s.b) ∨ (c.a = s.b ∧ c.b = s.a)

instance (s c : Seg) : Decidable (sameEndpoints s c) := by unfold sameEndpoints; infer_instance

/-! ## Removing repeated entries (lines 240-261) -/

/-- The loop over `k` of lines 247-254: `tem_flag` after comparing all four entries. -/
def sameEntries (u v : Seg) : Bool :=
  decide (u.x1 = v.x1) && decide (u.y1 = v.y1) && decide (u.x2 = v.x2) && decide (u.y2 = v.y2)

/-- The loop over `h` of lines 244-260 for a fixed `i`, entered with the given `h`.
An erased entry is followed by `h--` and the loop's `h++`, so `h` stays in place. -/
def dedupInner (i h : Nat) (S : List Seg) : List Seg :=
  if hlt : h < S.length then
    if sameEntries (S.getD i default) (S.getD h default) then
      dedupInner i h (S.eraseIdx h)
    else
      dedupInner i (h + 1) S
  else S
termination_by S.length - h
decreasing_by
  all_goals simp_wf
  · rw [List.length_eraseIdx]
    split <;> omega
  · omega

/-- The loop over `h` never lengthens the list (needed for the loop over `i` to end). -/
theorem dedupInner_length_le (i h : Nat) (S : List Seg) :
    (dedupInner i h S).length ≤ S.length := by
  induction h, S using dedupInner.induct i with
  | case1 h S hlt hsame ih =>
    rw [dedupInner, dif_pos hlt, if_pos hsame]
    have := List.length_eraseIdx_le S h
    omega
  | case2 h S hlt hsame ih =>
    rw [dedupInner, dif_pos hlt, if_neg hsame]
    exact ih
  | case3 h S hlt =>
    rw [dedupInner, dif_neg hlt]

/-- The loop over `i` of lines 242-261, entered with the given `i`. -/
def dedupOuter (i : Nat) (S : List Seg) : List Seg :=
  if hlt : i < S.length then
    dedupOuter (i + 1) (dedupInner i (i + 1) S)
  else S
termination_by S.length - i
decreasing_by
  simp_wf
  have := dedupInner_length_le i (i + 1) S
  omega

/-- `Simplified_data` after line 261, from `All_data`. -/
def dedup (All_data : List Seg) : List Seg := dedupOuter 0 All_data

/-- `Simplified_data` after line 261, from the raw segments behind the marker. -/
def simplify (raw : List Seg) : List Seg := dedup (collect (markerPoints raw))

/-! ## Stitching segments into cycles (lines 262-317) -/

/-- The variables of the stitching loop. -/
structure StitchState where
  Simplified_data : List Seg
  Circle_data : List (List Seg)
  tem_current_count : Nat
  tem_current_count_inner : Nat
deriving DecidableEq, Repr

/-- The entry `Circle_data[k][j]`. -/
def entry (C : List (List Seg)) (k j : Nat) : Seg := (C.getD k []).getD j default

/-- The call `Circle_data[k].push_back(s)`. -/
def pushBackAt : List (List Seg) → Nat → Seg → List (List Seg)
  | [], _, _ => []
  | c :: cs, 0, s => (c ++ [s]) :: cs
  | c :: cs, k + 1, s => c :: pushBackAt cs k s

/-- Lines 262-267: the first entry of `Simplified_data` is removed and seeds the first
cycle.  On the empty list line 265 reads past the end; the model returns `none`. -/
def stitchInit (S : List Seg) : Option StitchState :=
  match S with
  | [] => none
  | s :: rest =>
    some { Simplified_data := rest, Circle_data := [[s]],
           tem_current_count := 0, tem_current_count_inner := 0 }

/-- The `for` loop of lines 270-316, entered with the given `i`.  A segment one of whose
endpoints equals the second endpoint of the last entry of the current cycle is turned
so that this endpoint comes first, erased from `Simplified_data` and appended to the
cycle; if that closes the cycle and segments remain, the first of them seeds the next
cycle and the loop is left (`break`).  After an erase the loop still advances `i`. -/
def scanFor (i : Nat) (st : StitchState) : StitchState :=
  if hlt : i < st.Simplified_data.length then
    let cur := entry st.Circle_data st.tem_current_count st.tem_current_count_inner
    let s := st.Simplified_data[i]
    let first : Bool := decide (cur.x2 = s.x1) && decide (cur.y2 = s.y1)
    let second : Bool := decide (cur.x2 = s.x2) && decide (cur.y2 = s.y2)
    let tem_vec := if second then s.swap else s
    if first || second then
      let S := st.Simplified_data.eraseIdx i
      let C := pushBackAt st.Circle_data st.tem_current_count tem_vec
      let inner := st.tem_current_count_inner + 1
      if (entry C st.tem_current_count inner).x2 = (entry C st.tem_current_count 0).x1
          ∧ (entry C st.tem_current_count inner).y2 = (entry C st.tem_current_count 0).y1
          ∧ S ≠ [] then
        { Simplified_data := S.eraseIdx 0, Circle_data := C ++ [[S.getD 0 default]],
          tem_current_count := st.tem_current_count + 1, tem_current_count_inner := 0 }
      else
        scanFor (i + 1)
          { Simplified_data := S, Circle_data := C,
            tem_current_count := st.tem_current_count, tem_current_count_inner := inner }
    else
      scanFor (i + 1) st
  else st
termination_by st.Simplified_data.length - i
decreasing_by
  all_goals simp_wf
  · rw [List.length_eraseIdx]
    split <;> omega
  · omega

/-- The `while` loop of lines 268-317, with a bound on the number of `for` scans:
`none` when the bound is used up before `Simplified_data` is empty. -/
def stitchWhile : Nat → StitchState → Option StitchState
  | 0, st => if st.Simplified_data.length ≠ 0 then none else some st
  | fuel + 1, st =>
    if st.Simplified_data.length ≠ 0 then stitchWhile fuel (scanFor 0 st) else some st

/-- Lines 262-317: `Circle_data` after the stitching loop, from `Simplified_data`. -/
def assemble (fuel : Nat) (S : List Seg) : Option (List (List Seg)) :=
  match stitchInit S with
  | none => none
  | some st =>
    match stitchWhile fuel st with
    | none => none
    | some st1 => some st1.Circle_data

/-! ## Polygon points (lines 318-332) -/

/-- The inner loop of lines 323-328 and the closing point of lines 329-331: `Points[i]`
from `Circle_data[i]`. -/
def toPoints (cycle : List Seg) : List Point :=
  cycle.map (fun s => (⟨s.x1, s.y1⟩ : Point))
    ++ [⟨(cycle.getD 0 default).x1, (cycle.getD 0 default).y1⟩]

/-- `Points` after line 332. -/
def allPoints (Circle_data : List (List Seg)) : List (List Point) :=
  Circle_data.map toPoints

/-! ## Overall bounding box (lines 333-359) -/

/-- The `bbox` member of a `MY_Polygon`. -/
structure BBox where
  xmin : ℚ
  xmax : ℚ
  ymin : ℚ
  ymax : ℚ
deriving DecidableEq, Repr

/-- The value of `std::numeric_limits<double>::max()`: `(2^53 - 1) * 2^971`. -/
def DBL_MAX : ℚ := (2 ^ 53 - 1) * 2 ^ 971

/-- The value of `std::numeric_limits<double>::min()`, the least positive normal
`double`: `2^(-1022)`. -/
def DBL_MIN : ℚ := 1 / 2 ^ 1022

/-- The running `xmin, xmax, ymin, ymax` before the loop of line 339 (lines 335-338). -/
def boundsInit : BBox :=
  { xmin := DBL_MAX, xmax := DBL_MIN, ymin := DBL_MAX, ymax := DBL_MIN }

/-- One iteration of the loop of lines 339-359 for a polygon with bounding box `b`. -/
def boundsStep (acc b : BBox) : BBox :=
  { xmin := if b.xmin < acc.xmin then b.xmin else acc.xmin
    xmax := if b.xmax > acc.xmax then b.xmax else acc.xmax
    ymin := if b.ymin < acc.ymin then b.ymin else acc.ymin
    ymax := if b.ymax > acc.ymax then b.ymax else acc.ymax }

/-- The overall bounding box after line 359, from the polygons' bounding boxes in
the order of `Points`. -/
def overallBounds (boxes : List BBox) : BBox :=
  boxes.foldl boundsStep boundsInit

/-! ## Grid allocation and rasterisation (lines 362-391)

These lines compute with machine numbers.  A `double` is modelled by the rational number
it denotes and an operation on `double`s by the exact operation followed by rounding to
the nearest `double`, ties to even (`roundDouble`: 53 binary digits, least normal exponent
`-1022`, subnormal numbers included).  Infinities and NaN are outside the model: they
need a coordinate or an intermediate result beyond `2^1023`.

`grid_map` is a `nav_msgs::OccupancyGrid`: `info.resolution` is a `float` (24 binary
digits), `info.width` and `info.height` are unsigned 32-bit integers, `data` is a vector
of 8-bit cells, and the coordinates of `info.origin.position` are `double`s.  `int` has
32 bits.  A conversion of a `double` to `int` whose result does not fit and a write
outside the vector have no defined behaviour; a scan loop whose variable is not advanced
by the addition of the resolution is never left.  The type `Run` tells these apart from a
run that goes through.

The members `bbox` and `inPolygon` of `MY_Polygon` and the type `Point2d` of `test_point`
are declared in `far_planner/polygon.h`, which is not part of the sources at hand: a
polygon is taken as given by its bounding box and its point test, and the point test as a
function of the values of `x_lo` and `y_lo`.  The counters `___coutn` and `_coutn` of
lines 372-373 are printed at line 392 and used for nothing else; they are `int`s, and the
model covers runs with fewer than `2^31` test points, in which they do not overflow. -/

/-- The integer nearest to `t`; the even one of the two when `t` lies half way between
two integers. -/
def roundNE (t : ℚ) : Int :=
  if t - ⌊t⌋ < 1 / 2 then ⌊t⌋
  else if 1 / 2 < t - ⌊t⌋ then ⌊t⌋ + 1
  else if ⌊t⌋ % 2 = 0 then ⌊t⌋ else ⌊t⌋ + 1

/-- The binary exponent of the last digit of `q` in a binary format with `p` digits and
least normal exponent `emin`. -/
def ulpExp (p : Nat) (emin : Int) (q : ℚ) : Int := max (Int.log 2 |q|) emin - ((p : Int) - 1)

/-- The number of the format nearest to `q`, ties to even. -/
def roundTo (p : Nat) (emin : Int) (q : ℚ) : ℚ :=
  roundNE (q / 2 ^ ulpExp p emin q) * 2 ^ ulpExp p emin q

/-- The `double` nearest to `q`. -/
def roundDouble (q : ℚ) : ℚ := roundTo 53 (-1022) q

/-- The `float` nearest to `q`. -/
def roundFloat (q : ℚ) : ℚ := roundTo 24 (-126) q

/-- The sum of two `double`s. -/
def fadd (a b : ℚ) : ℚ := roundDouble (a + b)

/-- The difference of two `double`s. -/
def fsub (a b : ℚ) : ℚ := roundDouble (a - b)

/-- The product of two `double`s. -/
def fmul (a b : ℚ) : ℚ := roundDouble (a * b)

/-- The quotient of two `double`s. -/
def fdiv (a b : ℚ) : ℚ := roundDouble (a / b)

/-- The value of `grid_map.info.resolution` after line 364: the literal `0.05` is a
`double` and the field is a `float`, so the field holds `roundFloat (roundDouble (5/100))`,
which is `13421773 / 2^28`, a little more than `0.05`. -/
def resolution : ℚ := 13421773 / 268435456

/-- The literal `1.2` of lines 365-366: the `double` nearest to `12/10`, which is
`5404319552844595 / 2^52`, a little less than `1.2`. -/
def margin : ℚ := 5404319552844595 / 4503599627370496

/-- A `MY_Polygon` as far as lines 333-391 use it: the member `bbox` and the method
`inPolygon`. -/
structure MY_Polygon where
  bbox : BBox
  inPolygon : Point → Bool

/-- The fields of the `nav_msgs::OccupancyGrid` that lines 362-369 set. -/
structure OccupancyGrid where
  resolution : ℚ
  width : Nat
  height : Nat
  data : List Int
  origin : Point
deriving DecidableEq, Repr

/-- What a run of a piece of code comes to: it goes through with a value, it has no
defined behaviour, or it stays in a loop for ever. -/
inductive Run (α : Type) where
  | done (a : α)
  | undefined
  | stuck
deriving DecidableEq, Repr

/-- Sequencing: what follows is run only when the first piece has gone through. -/
def Run.bind {α β : Type} (r : Run α) (f : α → Run β) : Run β :=
  match r with
  | .done a => f a
  | .undefined => .undefined
  | .stuck => .stuck

/-- The integer part of `q`: the fractional part is discarded. -/
def truncate (q : ℚ) : Int := if 0 ≤ q then ⌊q⌋ else ⌈q⌉

/-- Conversion of a `double` to `int`: the fractional part is discarded; the behaviour
is undefined when the result does not fit in 32 bits. -/
def toInt (q : ℚ) : Run Int :=
  if -2 ^ 31 ≤ truncate q ∧ truncate q < 2 ^ 31 then .done (truncate q) else .undefined

/-- Conversion of an `int` to an unsigned 32-bit integer. -/
def toUInt32 (i : Int) : Nat := (i % 2 ^ 32).toNat

/-- The right-hand sides of lines 365 and 366 as stored in `info.width` and
`info.height`: `int((hi-lo)*1.2/grid_map.info.resolution)` for the bounds `lo`, `hi`. -/
def gridSize (lo hi : ℚ) : Run Nat :=
  (toInt (fdiv (fmul (fsub hi lo) margin) resolution)).bind fun i => .done (toUInt32 i)

/-- Lines 362-369: the grid allocated for the overall bounding box `b`.  The product
`info.width * info.height` of line 367 is a product of unsigned 32-bit integers. -/
def allocGrid (b : BBox) : Run OccupancyGrid :=
  (gridSize b.xmin b.xmax).bind fun width =>
  (gridSize b.ymin b.ymax).bind fun height =>
  .done { resolution := resolution
          width := width
          height := height
          data := List.replicate ((width * height) % 2 ^ 32) 0
          origin := ⟨b.xmin, b.ymin⟩ }

/-- Line 384: the index computed for the test point `(x_lo, y_lo)`.  Both quotients and
their sum are `double`s; the sum is converted to `int` once, by the initialisation of
`index`. -/
def cellIndex (g : OccupancyGrid) (x_lo y_lo : ℚ) : Run Int :=
  toInt (fadd (fdiv (fsub x_lo g.origin.x) g.resolution)
    (fdiv (fmul g.width (fsub y_lo g.origin.y)) g.resolution))

/-- Line 385, `grid_map.data[index]=100`.  The code does not compare `index` with the
size of the vector; a write outside the vector has no defined behaviour. -/
def writeCell (data : List Int) (index : Int) : Run (List Int) :=
  if 0 ≤ index ∧ index < data.length then .done (data.set index.toNat 100) else .undefined

/-- Lines 380-387 for the test point `(x_lo, y_lo)`: the cell is written when the point
lies in the polygon. -/
def markCell (g : OccupancyGrid) (P : MY_Polygon) (x_lo y_lo : ℚ) (data : List Int) :
    Run (List Int) :=
  if P.inPolygon ⟨x_lo, y_lo⟩ = true then (cellIndex g x_lo y_lo).bind (writeCell data)
  else .done data

theorem ulpExp_ge (p : Nat) (emin : Int) (q : ℚ) :
    emin - ((p : Int) - 1) ≤ ulpExp p emin q := by
  unfold ulpExp
  have := le_max_right (Int.log 2 |q|) emin
  omega

/-- Every `double` is a whole multiple of `2^(-1074)`. -/
theorem roundDouble_grid (q : ℚ) : ∃ n : Int, roundDouble q = n / 2 ^ 1074 := by
  have hu := ulpExp_ge 53 (-1022) q
  obtain ⟨m, hm⟩ : ∃ m : Nat, ulpExp 53 (-1022) q = -1074 + m :=
    ⟨(ulpExp 53 (-1022) q + 1074).toNat, by omega⟩
  refine ⟨roundNE (q / 2 ^ ulpExp 53 (-1022) q) * 2 ^ m, ?_⟩
  unfold roundDouble roundTo
  rw [hm, zpow_add₀ (by norm_num), zpow_neg, zpow_natCast]
  push_cast
  ring

/-- A step of a scan loop that advances the loop variable brings it closer to the bound by
at least one multiple of `2^(-1074)` (needed for the scan loops to end). -/
theorem scan_measure_lt (hi lo s : ℚ) (h : lo < hi) (hs : lo < fadd lo s) :
    (⌈hi * 2 ^ 1074⌉ - ⌊fadd lo s * 2 ^ 1074⌋).toNat
      < (⌈hi * 2 ^ 1074⌉ - ⌊lo * 2 ^ 1074⌋).toNat := by
  obtain ⟨n, hn⟩ := roundDouble_grid (lo + s)
  unfold fadd at hs ⊢
  rw [hn] at hs ⊢
  have hG : (0 : ℚ) < 2 ^ 1074 := by positivity
  have e : (n : ℚ) / 2 ^ 1074 * 2 ^ 1074 = n := by field_simp
  rw [e, Int.floor_intCast]
  have h1 : ⌊lo * 2 ^ 1074⌋ < n := by
    rw [Int.floor_lt, ← e]
    exact mul_lt_mul_of_pos_right hs hG
  have h2 : ⌊lo * 2 ^ 1074⌋ < ⌈hi * 2 ^ 1074⌉ := by
    rw [Int.floor_lt]
    exact lt_of_lt_of_le (mul_lt_mul_of_pos_right h hG) (Int.le_ceil _)
  omega

/-- The number of multiples of `2^(-1074)` between the loop variable `lo` and the bound
`hi` of a scan loop. -/
def stepsLeft (hi lo : ℚ) : Nat := (⌈hi * 2 ^ 1074⌉ - ⌊lo * 2 ^ 1074⌋).toNat

/-- The loop of line 378 over `y_lo` for a fixed `x_lo`, entered with the given `y_lo`.
When `y_lo=y_lo+grid_map.info.resolution` does not advance `y_lo`, the loop is never left
once its body has run. -/
def scanY (g : OccupancyGrid) (P : MY_Polygon) (x_lo y_lo : ℚ) (data : Run (List Int)) :
    Run (List Int) :=
  if _h : y_lo < P.bbox.ymax then
    if _a : y_lo < fadd y_lo g.resolution then
      scanY g P x_lo (fadd y_lo g.resolution) (data.bind (markCell g P x_lo y_lo))
    else (data.bind (markCell g P x_lo y_lo)).bind fun _ => .stuck
  else data
termination_by stepsLeft P.bbox.ymax y_lo
decreasing_by
  exact scan_measure_lt _ _ _ (by assumption) (by assumption)

/-- The loop of line 376 over `x_lo`, entered with the given `x_lo`. -/
def scanX (g : OccupancyGrid) (P : MY_Polygon) (x_lo : ℚ) (data : Run (List Int)) :
    Run (List Int) :=
  if _h : x_lo < P.bbox.xmax then
    if _a : x_lo < fadd x_lo g.resolution then
      scanX g P (fadd x_lo g.resolution)
        (scanY g P x_lo (fadd P.bbox.ymin g.resolution) data)
    else (scanY g P x_lo (fadd P.bbox.ymin g.resolution) data).bind fun _ => .stuck
  else data
termination_by stepsLeft P.bbox.xmax x_lo
decreasing_by
  exact scan_measure_lt _ _ _ (by assumption) (by assumption)

/-- The loop of line 374 over the polygons. -/
def rasterize (g : OccupancyGrid) (polys : List MY_Polygon) (data : Run (List Int)) :
    Run (List Int) :=
  polys.foldl (fun d P => scanX g P P.bbox.xmin d) data

/-- Lines 333-393: the grid published for the polygons. -/
def publishedGrid (polys : List MY_Polygon) : Run OccupancyGrid :=
  (allocGrid (overallBounds (polys.map fun P => P.bbox))).bind fun g =>
  (rasterize g polys (.done g.data)).bind fun d => .done { g with data := d }

/-- The value of the loop variable of a scan loop after `n` steps from `x`. -/
def stepN (s : ℚ) (n : Nat) (x : ℚ) : ℚ := Nat.iterate (fun t => fadd t s) n x

/-- The value of `x_lo` in the iteration `i` of the loop of line 376 for the polygon
`P`. -/
def testX (g : OccupancyGrid) (P : MY_Polygon) (i : Nat) : ℚ :=
  stepN g.resolution i P.bbox.xmin

/-- The value of `y_lo` in the iteration `j` of the loop of line 378 for the polygon
`P`. -/
def testY (g : OccupancyGrid) (P : MY_Polygon) (j : Nat) : ℚ :=
  stepN g.resolution j (fadd P.bbox.ymin g.resolution)

/-! ## The pieces of one iteration of the `for` loop of lines 270-316 -/

/-- The second endpoint of the last entry of the current cycle. -/
def StitchState.curEnd (st : StitchState) : Point :=
  (entry st.Circle_data st.tem_current_count st.tem_current_count_inner).b

/-- The value of `tem_find_flag` at line 295 for the candidate `s`. -/
def StitchState.found (st : StitchState) (s : Seg) : Bool :=
  (decide ((entry st.Circle_data st.tem_current_count st.tem_current_count_inner).x2 = s.x1)
      && decide ((entry st.Circle_data st.tem_current_count st.tem_current_count_inner).y2 = s.y1))
    || (decide ((entry st.Circle_data st.tem_current_count st.tem_current_count_inner).x2 = s.x2)
      && decide ((entry st.Circle_data st.tem_current_count st.tem_current_count_inner).y2 = s.y2))

/-- The candidate `s` as it is appended: exchanged when its second endpoint matched. -/
def StitchState.turned (st : StitchState) (s : Seg) : Seg :=
  if (decide ((entry st.Circle_data st.tem_current_count st.tem_current_count_inner).x2 = s.x2)
      && decide ((entry st.Circle_data st.tem_current_count st.tem_current_count_inner).y2 = s.y2))
      = true
  then s.swap else s

/-- The state after lines 297-300 for the candidate at index `i`. -/
def StitchState.appended (st : StitchState) (i : Nat) : StitchState :=
  { Simplified_data := st.Simplified_data.eraseIdx i
    Circle_data := pushBackAt st.Circle_data st.tem_current_count
      (st.turned (st.Simplified_data.getD i default))
    tem_current_count := st.tem_current_count
    tem_current_count_inner := st.tem_current_count_inner + 1 }

/-- The condition of lines 301-303. -/
def StitchState.closes (st : StitchState) : Prop :=
  (entry st.Circle_data st.tem_current_count st.tem_current_count_inner).x2
      = (entry st.Circle_data st.tem_current_count 0).x1
    ∧ (entry st.Circle_data st.tem_current_count st.tem_current_count_inner).y2
      = (entry st.Circle_data st.tem_current_count 0).y1
    ∧ st.Simplified_data ≠ []

instance (st : StitchState) : Decidable st.closes := by
  unfold StitchState.closes; infer_instance

/-- The state after lines 305-311. -/
def StitchState.reseeded (st : StitchState) : StitchState :=
  { Simplified_data := st.Simplified_data.eraseIdx 0
    Circle_data := st.Circle_data ++ [[st.Simplified_data.getD 0 default]]
    tem_current_count := st.tem_current_count + 1
    tem_current_count_inner := 0 }

/-! ## Closed cycles of points -/

/-- The segments along a path of points, each running from a point to the next. -/
def pathEdges : List Point → List Seg
  | p :: q :: rest => mkSeg p q :: pathEdges (q :: rest)
  | _ => []

/-- The sides of the closed polygon through the points `c`, in the order of the points
and closing from the last point to the first. -/
def cycleEdges (c : List Point) : List Seg := pathEdges (c ++ c.take 1)

/-- The normalised sides of the closed polygon through the points `c`. -/
def cycleSegs (c : List Point) : List Seg := (cycleEdges c).map canon

/-- A non-empty family of simple closed cycles, each through at least three points, no
point occurring twice in a cycle or in two cycles. -/
def DisjointCycles (cs : List (List Point)) : Prop :=
  cs ≠ [] ∧ (∀ c, c ∈ cs → 3 ≤ c.length) ∧ cs.flatten.Nodup

instance (cs : List (List Point)) : Decidable (DisjointCycles cs) := by
  unfold DisjointCycles; infer_instance

/-- The produced cycle `o` consists of all and only the sides of the input cycle `c`, up
to the order of the endpoints of each side. -/
def CycleOf (o : List Seg) (c : List Point) : Prop := (o.map canon).Perm (cycleSegs c)

/-! ## Loop invariants -/

/-- The invariant of the loop over `i`: the first `i` entries are pairwise different and
none of them occurs again later. -/
def PrefixClean (i : Nat) (S : List Seg) : Prop :=
  (S.take i).Nodup ∧ ∀ x ∈ S.take i, x ∉ S.drop i

/-- The invariant of the stitching loop for the conservation of segments: the current
index is inside `Circle_data`, and the segments in `Circle_data` and `Simplified_data`
together are the segments of `S0` up to the order of endpoints. -/
def Conserves (S0 : List Seg) (st : StitchState) : Prop :=
  st.tem_current_count < st.Circle_data.length
    ∧ ((st.Circle_data.flatten ++ st.Simplified_data).map canon).Perm (S0.map canon)

/-- The state of the stitching loop while a cycle is being followed.  `Dout` are the
finished cycles, built from the input cycles `Dcs`; `chain` is the current cycle so far,
started at the point `a` and arrived at the point `v`; `rem` are the points of the
current input cycle `c` still ahead, in the order of the walk; `R` are the input cycles
not yet touched. -/
structure OpenData (cs : List (List Point)) (st : StitchState)
    (Dout : List (List Seg)) (Dcs : List (List Point)) (c : List Point)
    (R : List (List Point)) (chain : List Seg) (a v : Point) (rem : List Point) : Prop where
  perm : (Dcs ++ c :: R).Perm cs
  done : List.Forall₂ CycleOf Dout Dcs
  big : ∀ r, r ∈ R → 3 ≤ r.length
  circle : st.Circle_data = Dout ++ [chain]
  count : st.tem_current_count = Dout.length
  inner : st.tem_current_count_inner + 1 = chain.length
  last_b : (chain.getD st.tem_current_count_inner default).b = v
  first_a : (chain.getD 0 default).a = a
  soup : st.Simplified_data.Perm
    ((pathEdges (v :: rem ++ [a])).map canon ++ (R.map cycleSegs).flatten)
  nodup : (a :: v :: rem ++ R.flatten).Nodup
  walk : (chain.map canon ++ (pathEdges (v :: rem ++ [a])).map canon).Perm (cycleSegs c)

/-- A cycle is being followed. -/
def Open (cs : List (List Point)) (st : StitchState) : Prop :=
  ∃ Dout Dcs c R chain a v rem, OpenData cs st Dout Dcs c R chain a v rem

/-- All segments are consumed and `Circle_data` holds one cycle per input cycle. -/
def Done (cs : List (List Point)) (st : StitchState) : Prop :=
  st.Simplified_data = [] ∧ ∃ cs1, cs1.Perm cs ∧ List.Forall₂ CycleOf st.Circle_data cs1

/-! ## Concrete inputs -/

/-- The deduplicated sides of the square `(0,0),(2,0),(2,2),(0,2)`. -/
def squareSoup : List Seg := [⟨0, 0, 2, 0⟩, ⟨2, 0, 2, 2⟩, ⟨0, 2, 2, 2⟩, ⟨0, 0, 0, 2⟩]

/-- The cycle stitched from `squareSoup`. -/
def squareCycle : List Seg := [⟨0, 0, 2, 0⟩, ⟨2, 0, 2, 2⟩, ⟨2, 2, 0, 2⟩, ⟨0, 2, 0, 0⟩]

/-- A segment that touches no side of the square, followed by the sides of the square. -/
def loneThenSquare : List Seg := ⟨7, 7, 8, 8⟩ :: squareSoup

/-- The state in which the `while` loop is entered for `loneThenSquare`. -/
def loneSeedState : StitchState :=
  { Simplified_data := squareSoup, Circle_data := [[⟨7, 7, 8, 8⟩]],
    tem_current_count := 0, tem_current_count_inner := 0 }

/-- The corners of the square `(0,0),(2,0),(2,2),(0,2)`. -/
def squarePoints : List Point := [⟨0, 0⟩, ⟨2, 0⟩, ⟨2, 2⟩, ⟨0, 2⟩]

/-- The corners of two disjoint triangles. -/
def twoTrianglePoints : List (List Point) :=
  [[⟨0, 0⟩, ⟨1, 0⟩, ⟨0, 1⟩], [⟨5, 5⟩, ⟨6, 5⟩, ⟨5, 6⟩]]

/-- The normalised sides of the two triangles, interleaved. -/
def twoTriangleSoup : List Seg :=
  [⟨0, 0, 1, 0⟩, ⟨5, 5, 6, 5⟩, ⟨0, 0, 0, 1⟩, ⟨5, 5, 5, 6⟩, ⟨0, 1, 1, 0⟩, ⟨5, 6, 6, 5⟩]

/-- The two cycles stitched from `twoTriangleSoup`. -/
def twoTriangleCycles : List (List Seg) :=
  [[⟨0, 0, 1, 0⟩, ⟨1, 0, 0, 1⟩, ⟨0, 1, 0, 0⟩], [⟨5, 5, 6, 5⟩, ⟨6, 5, 5, 6⟩, ⟨5, 6, 5, 5⟩]]

/-- The points strictly inside the box `b`: for a polygon that is the rectangle `b`, a
point test agrees with this away from the sides. -/
def insideBox (b : BBox) (p : Point) : Bool :=
  decide (b.xmin < p.x ∧ p.x < b.xmax ∧ b.ymin < p.y ∧ p.y < b.ymax)

/-- The rectangle with bounding box `b` as a polygon. -/
def boxPolygon (b : BBox) : MY_Polygon := ⟨b, insideBox b⟩

/-- The square `(0,0),(0.09375,0),(0.09375,0.09375),(0,0.09375)`: two cells wide and two
cells high. -/
def smallSquare : MY_Polygon := boxPolygon ⟨0, 3 / 32, 0, 3 / 32⟩

/-- The grid published for `smallSquare`. -/
def smallGrid : OccupancyGrid := ⟨resolution, 2, 2, [0, 0, 0, 100], ⟨0, 0⟩⟩

/-- The centre of the cell in column `col` and row `row` of the grid. -/
def cellCenter (g : OccupancyGrid) (col row : Nat) : Point :=
  ⟨g.origin.x + (col + 1 / 2) * g.resolution, g.origin.y + (row + 1 / 2) * g.resolution⟩

/-- A polygon without extent: all its points are `(1,1)`. -/
def pointPolygon : MY_Polygon := boxPolygon ⟨1, 1, 1, 1⟩

/-- A flat polygon along the `x` axis: `(0,0),(0.13,0),(0.13,0.01),(0,0.01)`, with the
`double`s nearest to `0.13` and `0.01`. -/
def sliver : MY_Polygon := boxPolygon ⟨0, roundDouble (13 / 100), 0, roundDouble (1 / 100)⟩

/-- A rectangle whose lower left corner `(0.01, 0.025)` is half a cell above a grid line
through the origin: `(0.01,0.025),(0.1,0.025),(0.1,0.12),(0.01,0.12)`, with the `double`s
nearest to these decimal numbers. -/
def offsetBox : MY_Polygon :=
  boxPolygon ⟨roundDouble (1 / 100), roundDouble (1 / 10), roundDouble (25 / 1000),
    roundDouble (12 / 100)⟩

/-- The grid allocated for `sliver` and `offsetBox`: 3 cells wide, 2 cells high. -/
def offsetGrid : OccupancyGrid := ⟨resolution, 3, 2, [0, 0, 0, 0, 0, 0], ⟨0, 0⟩⟩

/-- The bounding box of the rectangle `(0,0),(1,0),(1,0.075),(0,0.075)`, with the `double`
nearest to `0.075`. -/
def lowBox : BBox := ⟨0, 1, 0, roundDouble (3 / 40)⟩

/-- The grid allocated for `lowBox`: 23 cells wide, 1 cell high. -/
def lowGrid : OccupancyGrid := ⟨resolution, 23, 1, List.replicate 23 0, ⟨0, 0⟩⟩

/-- The bounding box of the square `(0,0),(2,0),(2,2),(0,2)`. -/
def squareBox : BBox := ⟨0, 2, 0, 2⟩

/-- A square of side `1/64` with its lower left corner at `(0, 4096)`. -/
def farSquareA : MY_Polygon := boxPolygon ⟨0, 1 / 64, 4096, 4096 + 1 / 64⟩

/-- A square of side `1/64` with its lower left corner at `(4096, 0)`. -/
def farSquareB : MY_Polygon := boxPolygon ⟨4096, 4096 + 1 / 64, 0, 1 / 64⟩

/-- The grid published for `farSquareA` and `farSquareB`. -/
def farGrid : OccupancyGrid :=
  ⟨resolution, 98304, 98304, List.replicate 1073741824 0, ⟨0, 0⟩⟩

/-! ## Collecting and normalising: properties -/

theorem collectStep_pair (st : CollectState) (s : Seg) (h0 : st.tem_h = 0)
    (hi : st.i % 2 = 0) :
    collectStep (collectStep st s.a) s.b
      = { tem_vec := canon s, tem_h := 0, i := st.i + 2,
          All_data := st.All_data ++ [canon s] } := by
  have h1 : (st.i + 1) % 2 ≠ 0 := by omega
  have h2 : (st.i + 1 + 1) % 2 = 0 := by omega
  simp [collectStep, h0, h1, h2, Seg.set, Seg.a, Seg.b]

theorem collect_foldl (raw : List Seg) :
    ∀ st : CollectState, st.tem_h = 0 → st.i % 2 = 0 →
      ((markerPoints raw).foldl collectStep st).All_data = st.All_data ++ raw.map canon := by
  induction raw with
  | nil => intro st _ _; simp [markerPoints]
  | cons s raw ih =>
    intro st h0 hi
    have hm : markerPoints (s :: raw) = s.a :: s.b :: markerPoints raw := by
      simp [markerPoints]
    rw [hm, List.foldl_cons, List.foldl_cons, collectStep_pair st s h0 hi]
    rw [ih _ rfl (by simp; omega)]
    simp

/-- `All_data` holds the normalised raw segments, in their order. -/
theorem collect_markerPoints (raw : List Seg) :
    collect (markerPoints raw) = raw.map canon := by
  unfold collect
  rw [collect_foldl raw ⟨⟨0, 0, 0, 0⟩, 0, 0, []⟩ rfl rfl]
  simp

theorem canon_sameEndpoints (s : Seg) : sameEndpoints s (canon s) := by
  unfold canon sameEndpoints
  split
  · right; simp [Seg.swap, Seg.a, Seg.b]
  · left; simp

theorem canon_lexLe (s : Seg) : lexLe (canon s).a (canon s).b := by
  unfold canon lexLe
  split
  · rename_i h
    simp only [Seg.swap, Seg.a, Seg.b]
    rcases h with h | ⟨h1, h2⟩
    · left; exact h
    · right; exact ⟨h1.symm, le_of_lt h2⟩
  · rename_i h
    simp only [Seg.a, Seg.b]
    push_neg at h
    rcases lt_or_eq_of_le h.1 with h1 | h1
    · left; exact h1
    · right; exact ⟨h1, h.2 h1⟩

theorem canon_of_lexLe (s : Seg) (h : lexLe s.a s.b) : canon s = s := by
  unfold canon
  rw [if_neg]
  unfold lexLe at h
  simp only [Seg.a, Seg.b] at h
  rintro (h1 | ⟨h1, h2⟩)
  · rcases h with h | ⟨h, _⟩
    · exact absurd h1 (not_lt.mpr (le_of_lt h))
    · rw [h] at h1; exact lt_irrefl _ h1
  · rcases h with h | ⟨_, h⟩
    · rw [h1] at h; exact lt_irrefl _ h
    · exact absurd h2 (not_lt.mpr h)

theorem canon_idem (s : Seg) : canon (canon s) = canon s :=
  canon_of_lexLe _ (canon_lexLe s)

theorem canon_swap (s : Seg) : canon s.swap = canon s := by
  obtain ⟨x1, y1, x2, y2⟩ := s
  unfold canon
  simp only [Seg.swap]
  by_cases h : x1 > x2 ∨ (x1 = x2 ∧ y1 > y2)
  · rw [if_pos h, if_neg]
    rintro (h1 | ⟨h1, h2⟩)
    · rcases h with h | ⟨h, _⟩
      · exact lt_asymm h h1
      · rw [h] at h1; exact lt_irrefl _ h1
    · rcases h with h | ⟨_, h⟩
      · rw [h1] at h; exact lt_irrefl _ h
      · exact lt_asymm h h2
  · rw [if_neg h]
    push_neg at h
    by_cases h' : x2 > x1 ∨ (x2 = x1 ∧ y2 > y1)
    · rw [if_pos h']
    · rw [if_neg h']
      push_neg at h'
      have hx : x1 = x2 := le_antisymm h.1 h'.1
      have hy : y1 = y2 := le_antisymm (h.2 hx) (h'.2 hx.symm)
      simp [hx, hy]

/-- C5. For every list of raw segments, the entries of `All_data` correspond one to one,
in order, to the raw segments; each entry has the same two endpoints as its raw segment
and its first endpoint is lexicographically less than or equal to its second. -/
theorem C5_canonical_order (raw : List Seg) :
    List.Forall₂ (fun s c => sameEndpoints s c ∧ lexLe c.a c.b)
      raw (collect (markerPoints raw)) := by
  rw [collect_markerPoints]
  induction raw with
  | nil => exact List.Forall₂.nil
  | cons s raw ih =>
    exact List.Forall₂.cons ⟨canon_sameEndpoints s, canon_lexLe s⟩ ih

/-! ## Removing repeated entries: properties -/

theorem sameEntries_iff (u v : Seg) : sameEntries u v = true ↔ u = v := by
  obtain ⟨a, b, c, d⟩ := u
  obtain ⟨a', b', c', d'⟩ := v
  simp [sameEntries, and_assoc]

/-- The loop over `h`, entered at the end of a prefix `A`, keeps `A` and drops from the
rest every entry equal to `A[i]`. -/
theorem dedupInner_append (i : Nat) (B : List Seg) :
    ∀ A : List Seg, i < A.length →
      dedupInner i A.length (A ++ B) = A ++ B.filter (fun y => decide (y ≠ A.getD i default)) := by
  induction B with
  | nil =>
    intro A _
    rw [dedupInner, dif_neg (by simp)]
    simp
  | cons y B ih =>
    intro A hi
    have hlt : A.length < (A ++ y :: B).length := by simp
    have hgi : (A ++ y :: B).getD i default = A.getD i default := by
      simp [List.getD_eq_getElem?_getD, List.getElem?_append_left hi]
    have hgh : (A ++ y :: B).getD A.length default = y := by
      rw [List.getD_eq_getElem?_getD, List.getElem?_append_right (le_refl _)]
      simp
    rw [dedupInner, dif_pos hlt, hgi, hgh]
    by_cases hs : sameEntries (A.getD i default) y = true
    · rw [if_pos hs]
      have he : (A ++ y :: B).eraseIdx A.length = A ++ B := by
        rw [List.eraseIdx_append_of_length_le (le_refl _)]
        simp
      rw [he, ih A hi]
      have : y = A.getD i default := ((sameEntries_iff _ _).mp hs).symm
      rw [List.filter_cons, if_neg (by simp [this])]
    · rw [if_neg hs]
      have hne : y ≠ A.getD i default := fun h => hs ((sameEntries_iff _ _).mpr h.symm)
      have hA : A ++ y :: B = (A ++ [y]) ++ B := by simp
      have hl : A.length + 1 = (A ++ [y]).length := by simp
      rw [hA, hl, ih (A ++ [y]) (by simp; omega)]
      have hg : (A ++ [y]).getD i default = A.getD i default := by
        simp [List.getD_eq_getElem?_getD, List.getElem?_append_left hi]
      rw [hg, List.filter_cons, if_pos (by simpa using hne)]
      simp

/-- One pass of the loop over `h` for an `i` inside the list, in terms of the split of
the list after position `i`. -/
theorem dedupInner_split (i : Nat) (S : List Seg) (hi : i < S.length) :
    dedupInner i (i + 1) S
      = S.take (i + 1) ++ (S.drop (i + 1)).filter (fun y => decide (y ≠ S.getD i default)) := by
  have hlen : (S.take (i + 1)).length = i + 1 := by
    rw [List.length_take]; omega
  have h := dedupInner_append i (S.drop (i + 1)) (S.take (i + 1)) (by omega)
  rw [hlen, List.take_append_drop] at h
  rw [h]
  congr 2
  funext y
  have : (S.take (i + 1)).getD i default = S.getD i default := by
    simp [List.getD_eq_getElem?_getD, List.getElem?_take]
  rw [this]

theorem mem_dedupInner (i : Nat) (S : List Seg) (hi : i < S.length) (c : Seg) :
    c ∈ dedupInner i (i + 1) S ↔ c ∈ S := by
  rw [dedupInner_split i S hi]
  constructor
  · intro h
    rcases List.mem_append.mp h with h | h
    · exact List.mem_of_mem_take h
    · exact List.mem_of_mem_drop (List.mem_filter.mp h).1
  · intro h
    rw [← List.take_append_drop (i + 1) S] at h
    rcases List.mem_append.mp h with h | h
    · exact List.mem_append_left _ h
    · by_cases hc : c = S.getD i default
      · apply List.mem_append_left
        rw [hc, List.getD_eq_getElem?_getD, List.getElem?_eq_getElem hi]
        simp only [Option.getD_some]
        rw [List.mem_take_iff_getElem]
        exact ⟨i, by simp; omega, rfl⟩
      · apply List.mem_append_right
        exact List.mem_filter.mpr ⟨h, by simpa using hc⟩

theorem mem_dedupOuter (i : Nat) (S : List Seg) (c : Seg) :
    c ∈ dedupOuter i S ↔ c ∈ S := by
  induction i, S using dedupOuter.induct with
  | case1 i S hlt ih =>
    rw [dedupOuter, dif_pos hlt, ih, mem_dedupInner i S hlt]
  | case2 i S hlt =>
    rw [dedupOuter, dif_neg hlt]

theorem prefixClean_step (i : Nat) (S : List Seg) (hi : i < S.length)
    (h : PrefixClean i S) : PrefixClean (i + 1) (dedupInner i (i + 1) S) := by
  obtain ⟨hnd, hsep⟩ := h
  rw [dedupInner_split i S hi]
  have hlen : (S.take (i + 1)).length = i + 1 := by
    rw [List.length_take]; omega
  have hx : S.getD i default = S[i] := by
    rw [List.getD_eq_getElem?_getD, List.getElem?_eq_getElem hi]; rfl
  have htk : S.take (i + 1) = S.take i ++ [S[i]] := by
    rw [List.take_succ, List.getElem?_eq_getElem hi]; rfl
  have hdr : S.drop i = S[i] :: S.drop (i + 1) := by
    rw [List.drop_eq_getElem_cons hi]
  unfold PrefixClean
  rw [List.take_left' hlen, List.drop_left' hlen, hx]
  refine ⟨?_, ?_⟩
  · rw [htk]
    apply List.Nodup.append hnd (List.nodup_singleton _)
    intro a ha hb
    rw [List.mem_singleton] at hb
    subst hb
    exact hsep _ ha (by rw [hdr]; exact List.mem_cons_self _ _)
  · intro x hx' hmem
    have hm := List.mem_filter.mp hmem
    rw [htk] at hx'
    rcases List.mem_append.mp hx' with h1 | h1
    · exact hsep x h1 (by rw [hdr]; exact List.mem_cons_of_mem _ hm.1)
    · rw [List.mem_singleton] at h1
      simpa [h1] using hm.2

theorem nodup_dedupOuter (i : Nat) (S : List Seg) (h : PrefixClean i S) :
    (dedupOuter i S).Nodup := by
  induction i, S using dedupOuter.induct with
  | case1 i S hlt ih =>
    rw [dedupOuter, dif_pos hlt]
    exact ih (prefixClean_step i S hlt h)
  | case2 i S hlt =>
    rw [dedupOuter, dif_neg hlt]
    have := h.1
    rwa [List.take_of_length_le (by omega)] at this

theorem nodup_dedup (S : List Seg) : (dedup S).Nodup :=
  nodup_dedupOuter 0 S ⟨by simp, by simp⟩

theorem mem_dedup (S : List Seg) (c : Seg) : c ∈ dedup S ↔ c ∈ S :=
  mem_dedupOuter 0 S c

theorem dedupInner_of_nodup (i : Nat) (S : List Seg) (hi : i < S.length) (hnd : S.Nodup) :
    dedupInner i (i + 1) S = S := by
  rw [dedupInner_split i S hi]
  have hx : S.getD i default = S[i] := by
    rw [List.getD_eq_getElem?_getD, List.getElem?_eq_getElem hi]; rfl
  have hf : (S.drop (i + 1)).filter (fun y => decide (y ≠ S.getD i default)) = S.drop (i + 1) := by
    rw [List.filter_eq_self]
    intro y hy
    rw [hx]
    simp only [ne_eq, decide_not, Bool.not_eq_true', decide_eq_false_iff_not]
    intro hyi
    obtain ⟨k, hk, hk'⟩ := List.mem_iff_getElem.mp hy
    rw [List.getElem_drop] at hk'
    have hk2 : i + 1 + k < S.length := by simp at hk; omega
    have := (@List.Nodup.getElem_inj_iff _ S hnd (i + 1 + k) hk2 i hi).mp (hk'.trans hyi)
    omega
  rw [hf, List.take_append_drop]

theorem dedupOuter_of_nodup (i : Nat) (S : List Seg) (hnd : S.Nodup) :
    dedupOuter i S = S := by
  induction i, S using dedupOuter.induct with
  | case1 i S hlt ih =>
    rw [dedupOuter, dif_pos hlt, dedupInner_of_nodup i S hlt hnd]
    rw [dedupInner_of_nodup i S hlt hnd] at ih
    exact ih hnd
  | case2 i S hlt =>
    rw [dedupOuter, dif_neg hlt]

theorem simplify_eq (raw : List Seg) : simplify raw = dedup (raw.map canon) := by
  unfold simplify
  rw [collect_markerPoints]

/-- C4. For every raw list of segments, `Simplified_data` (normalisation followed by the
removal of repeated entries) has no two equal entries, and a segment is in it exactly
when it is the normal form of some raw segment; a raw segment and the same segment with
its endpoints exchanged have the same normal form, which occurs exactly once. -/
theorem C4_dedup_exactly_once (raw : List Seg) :
    (simplify raw).Nodup
      ∧ (∀ c, c ∈ simplify raw ↔ ∃ s, s ∈ raw ∧ c = canon s)
      ∧ (∀ s, s ∈ raw →
          canon s.swap = canon s ∧ (simplify raw).count (canon s) = 1) := by
  rw [simplify_eq]
  have hmem : ∀ c, c ∈ dedup (raw.map canon) ↔ ∃ s, s ∈ raw ∧ c = canon s := by
    intro c
    rw [mem_dedup, List.mem_map]
    constructor
    · rintro ⟨s, hs, rfl⟩; exact ⟨s, hs, rfl⟩
    · rintro ⟨s, hs, rfl⟩; exact ⟨s, hs, rfl⟩
  refine ⟨nodup_dedup _, hmem, ?_⟩
  intro s hs
  refine ⟨canon_swap s, ?_⟩
  exact List.count_eq_one_of_mem (nodup_dedup _) ((hmem _).mpr ⟨s, hs, rfl⟩)

/-- C4 (witness). The segment `(0,0)-(2,0)`, given three times in both orders of its
endpoints, occurs exactly once in `Simplified_data`. -/
theorem C4_dedup_exactly_once_witness :
    canon (Seg.swap ⟨2, 0, 0, 0⟩) = canon ⟨2, 0, 0, 0⟩
      ∧ (simplify [⟨2, 0, 0, 0⟩, ⟨0, 0, 2, 0⟩, ⟨2, 0, 0, 0⟩]).count (canon ⟨2, 0, 0, 0⟩) = 1 :=
  (C4_dedup_exactly_once [⟨2, 0, 0, 0⟩, ⟨0, 0, 2, 0⟩, ⟨2, 0, 0, 0⟩]).2.2 ⟨2, 0, 0, 0⟩
    (by decide)

/-- C6. Normalisation with removal of repeated entries is idempotent: run on its own
output it returns that output unchanged as a list. -/
theorem C6_simplify_idempotent (raw : List Seg) :
    simplify (simplify raw) = simplify raw := by
  rw [simplify_eq (simplify raw)]
  have hcan : (simplify raw).map canon = simplify raw := by
    conv_rhs => rw [← List.map_id (simplify raw)]
    apply List.map_congr_left
    intro c hc
    rw [simplify_eq, mem_dedup, List.mem_map] at hc
    obtain ⟨s, _, rfl⟩ := hc
    simpa using canon_idem s
  rw [hcan]
  refine dedupOuter_of_nodup 0 _ ?_
  rw [simplify_eq]
  exact nodup_dedup _

/-! ## Polygon points and bounds: properties -/

theorem assemble_squareSoup : assemble 4 squareSoup = some [squareCycle] := by
  simp [assemble, stitchInit, stitchWhile, squareSoup, squareCycle, scanFor, entry,
    pushBackAt, Seg.swap]

/-- C8 (as stated, refuted). The four sides of the square are stitched into one cycle of
4 segments, and the point list built from it has 5 points, not 4. -/
theorem C8_square_points_counterexample :
    assemble 4 squareSoup = some [squareCycle]
      ∧ squareCycle.length = 4
      ∧ toPoints squareCycle = [⟨0, 0⟩, ⟨2, 0⟩, ⟨2, 2⟩, ⟨0, 2⟩, ⟨0, 0⟩]
      ∧ ¬ (toPoints squareCycle).length = squareCycle.length := by
  refine ⟨assemble_squareSoup, rfl, ?_, ?_⟩
  · simp [toPoints, squareCycle]
  · simp [toPoints, squareCycle]

/-- C8 (amended). The point list built from a cycle has one point per segment of the
cycle (the segment's first endpoint, in order) followed by one closing point, the first
endpoint of the cycle's first segment: its length is the number of segments plus one. -/
theorem C8_points_length (cycle : List Seg) :
    (toPoints cycle).length = cycle.length + 1
      ∧ (toPoints cycle).take cycle.length = cycle.map Seg.a
      ∧ (toPoints cycle).getLast? = some (cycle.getD 0 default).a := by
  refine ⟨by simp [toPoints], ?_, by simp [toPoints, Seg.a]⟩
  unfold toPoints
  rw [List.take_left' (by simp)]
  rfl

/-- C9 (failing input). For a single polygon whose bounding box is
`xmin = -3, xmax = -1, ymin = -3, ymax = -1` the computed overall box keeps the initial
value `DBL_MIN > 0` as `xmax` and `ymax` instead of `-1`: it is not the union of the
polygons' boxes. -/
theorem C9_negative_bounds_failing_input :
    overallBounds [⟨-3, -1, -3, -1⟩] = ⟨-3, DBL_MIN, -3, DBL_MIN⟩
      ∧ (0 : ℚ) < DBL_MIN
      ∧ overallBounds [⟨-3, -1, -3, -1⟩] ≠ ⟨-3, -1, -3, -1⟩ := by
  have hpos : (0 : ℚ) < DBL_MIN := by unfold DBL_MIN; positivity
  have hmax : (-3 : ℚ) < DBL_MAX := by
    have : (0 : ℚ) < DBL_MAX := by unfold DBL_MAX; norm_num
    linarith
  have hmin : ¬ (-1 : ℚ) > DBL_MIN := by
    intro h; linarith
  have heq : overallBounds [⟨-3, -1, -3, -1⟩] = ⟨-3, DBL_MIN, -3, DBL_MIN⟩ := by
    simp [overallBounds, boundsInit, boundsStep, hmax, hmin]
  refine ⟨heq, hpos, ?_⟩
  rw [heq]
  intro h
  have h1 : DBL_MIN = -1 := by
    have := congrArg BBox.xmax h
    simpa using this
  linarith

/-! ## The stitching loop: one iteration at a time -/

/-- One unfolding of the `for` loop in terms of the pieces above. -/
theorem scanFor_eq (i : Nat) (st : StitchState) :
    scanFor i st =
      if i < st.Simplified_data.length then
        if st.found (st.Simplified_data.getD i default) = true then
          if (st.appended i).closes then (st.appended i).reseeded
          else scanFor (i + 1) (st.appended i)
        else scanFor (i + 1) st
      else st := by
  rw [scanFor]
  by_cases hlt : i < st.Simplified_data.length
  · have hg : st.Simplified_data.getD i default = st.Simplified_data[i] := by
      rw [List.getD_eq_getElem?_getD, List.getElem?_eq_getElem hlt]; rfl
    rw [dif_pos hlt, if_pos hlt]
    simp only [StitchState.found, StitchState.appended, StitchState.closes,
      StitchState.reseeded, StitchState.turned, hg]
  · rw [dif_neg hlt, if_neg hlt]

/-- Induction over the iterations of the `for` loop: a property of the state that
survives an append which does not close the cycle, and an append followed by the
seeding of the next cycle, holds after the loop. -/
theorem scanFor_induction (P : StitchState → Prop)
    (happ : ∀ st i, P st → i < st.Simplified_data.length →
      st.found (st.Simplified_data.getD i default) = true →
      ¬ (st.appended i).closes → P (st.appended i))
    (hseed : ∀ st i, P st → i < st.Simplified_data.length →
      st.found (st.Simplified_data.getD i default) = true →
      (st.appended i).closes → P (st.appended i).reseeded) :
    ∀ n i st, st.Simplified_data.length - i ≤ n → P st → P (scanFor i st) := by
  intro n
  induction n with
  | zero =>
    intro i st hn hP
    rw [scanFor_eq, if_neg (by omega)]
    exact hP
  | succ n ih =>
    intro i st hn hP
    rw [scanFor_eq]
    by_cases hlt : i < st.Simplified_data.length
    · rw [if_pos hlt]
      by_cases hf : st.found (st.Simplified_data.getD i default) = true
      · rw [if_pos hf]
        by_cases hc : (st.appended i).closes
        · rw [if_pos hc]
          exact hseed st i hP hlt hf hc
        · rw [if_neg hc]
          apply ih _ _ _ (happ st i hP hlt hf hc)
          simp only [StitchState.appended, List.length_eraseIdx, if_pos hlt]
          omega
      · rw [if_neg hf]
        exact ih _ _ (by omega) hP
    · rw [if_neg hlt]
      exact hP

/-! ## The stitching loop: unmatched segments -/

theorem stitchWhile_empty (fuel : Nat) (st : StitchState) (h : st.Simplified_data = []) :
    stitchWhile fuel st = some st := by
  cases fuel <;> simp [stitchWhile, h]

/-- C3 (as stated, refuted). The soup consisting of the single segment `(0,0)-(1,0)`, which
has no partner, is returned as a one-segment cycle, and a polygon of two equal points is
built from it; no failure is reported. -/
theorem C3_single_segment_counterexample :
    assemble 1 [⟨0, 0, 1, 0⟩] = some [[⟨0, 0, 1, 0⟩]]
      ∧ allPoints [[⟨0, 0, 1, 0⟩]] = [[⟨0, 0⟩, ⟨0, 0⟩]] := by
  constructor
  · simp [assemble, stitchInit, stitchWhile]
  · simp [allPoints, toPoints]

/-- C3 (amended). For the soup consisting of one single segment the stitching returns,
whatever the bound on the number of scans, that segment as one cycle of one segment. -/
theorem C3_single_segment_returned (s : Seg) (fuel : Nat) :
    assemble fuel [s] = some [[s]] := by
  simp [assemble, stitchInit, stitchWhile_empty]

theorem scanFor_loneSeedState : scanFor 0 loneSeedState = loneSeedState := by
  simp [loneSeedState, squareSoup, scanFor, entry]

theorem stitchWhile_loneSeedState (fuel : Nat) : stitchWhile fuel loneSeedState = none := by
  induction fuel with
  | zero => simp [stitchWhile, loneSeedState, squareSoup]
  | succ n ih =>
    have hne : loneSeedState.Simplified_data.length ≠ 0 := by
      simp [loneSeedState, squareSoup]
    rw [stitchWhile, if_pos hne, scanFor_loneSeedState]
    exact ih

/-- C2 (failing input). With the lone segment `(7,7)-(8,8)` as the seed and the four sides
of a square remaining, a full scan finds no match and leaves the state unchanged with
`Simplified_data` non-empty, so the `while` loop never ends: no bound on the number of
scans is enough. -/
theorem C2_lone_seed_never_terminates :
    loneThenSquare.Nodup
      ∧ stitchInit loneThenSquare = some loneSeedState
      ∧ loneSeedState.Simplified_data ≠ []
      ∧ scanFor 0 loneSeedState = loneSeedState
      ∧ ∀ fuel, assemble fuel loneThenSquare = none := by
  refine ⟨by decide, rfl, by simp [loneSeedState, squareSoup], scanFor_loneSeedState, ?_⟩
  intro fuel
  have h : stitchInit loneThenSquare = some loneSeedState := rfl
  simp [assemble, h, stitchWhile_loneSeedState]

/-! ## The stitching loop: every segment is consumed once -/

theorem pushBackAt_length (C : List (List Seg)) (k : Nat) (s : Seg) :
    (pushBackAt C k s).length = C.length := by
  induction C generalizing k with
  | nil => rfl
  | cons c cs ih =>
    cases k with
    | zero => rfl
    | succ k => simp [pushBackAt, ih]

theorem pushBackAt_append_last (D : List (List Seg)) (ch : List Seg) (s : Seg) :
    pushBackAt (D ++ [ch]) D.length s = D ++ [ch ++ [s]] := by
  induction D with
  | nil => rfl
  | cons d D ih => simp [pushBackAt, ih]

theorem pushBackAt_flatten_perm (C : List (List Seg)) (k : Nat) (s : Seg)
    (hk : k < C.length) : (pushBackAt C k s).flatten.Perm (s :: C.flatten) := by
  induction C generalizing k with
  | nil => simp at hk
  | cons c cs ih =>
    cases k with
    | zero =>
      simp only [pushBackAt, List.flatten_cons, List.append_assoc, List.singleton_append]
      exact List.perm_middle
    | succ k =>
      simp only [pushBackAt, List.flatten_cons]
      have h := ih k (by simpa using hk)
      exact (List.Perm.append_left c h).trans List.perm_middle

theorem perm_cons_eraseIdx (S : List Seg) (i : Nat) (hi : i < S.length) :
    S.Perm (S.getD i default :: S.eraseIdx i) := by
  have hg : S.getD i default = S[i] := by
    rw [List.getD_eq_getElem?_getD, List.getElem?_eq_getElem hi]; rfl
  rw [hg, List.eraseIdx_eq_take_drop_succ]
  conv_lhs => rw [← List.take_append_drop i S, List.drop_eq_getElem_cons hi]
  exact List.perm_middle

theorem canon_turned (st : StitchState) (s : Seg) : canon (st.turned s) = canon s := by
  unfold StitchState.turned
  split
  · exact canon_swap s
  · rfl

theorem conserves_appended (S0 : List Seg) (st : StitchState) (i : Nat)
    (h : Conserves S0 st) (hi : i < st.Simplified_data.length) :
    Conserves S0 (st.appended i) := by
  obtain ⟨hk, hp⟩ := h
  refine ⟨by simpa [StitchState.appended, pushBackAt_length] using hk, ?_⟩
  refine List.Perm.trans ?_ hp
  simp only [StitchState.appended, List.map_append]
  have h1 := (pushBackAt_flatten_perm st.Circle_data st.tem_current_count
    (st.turned (st.Simplified_data.getD i default)) hk).map canon
  have h2 := (perm_cons_eraseIdx st.Simplified_data i hi).map canon
  rw [List.map_cons, canon_turned] at h1
  rw [List.map_cons] at h2
  refine (List.Perm.append_right _ h1).trans ?_
  rw [List.cons_append]
  refine List.perm_middle.symm.trans ?_
  exact List.Perm.append_left _ h2.symm

theorem conserves_reseeded (S0 : List Seg) (st : StitchState)
    (h : Conserves S0 st) (hne : st.Simplified_data ≠ []) :
    Conserves S0 st.reseeded := by
  obtain ⟨hk, hp⟩ := h
  refine ⟨by simp [StitchState.reseeded]; omega, ?_⟩
  refine List.Perm.trans ?_ hp
  obtain ⟨s, rest, hS⟩ := List.exists_cons_of_ne_nil hne
  simp [StitchState.reseeded, hS]

theorem conserves_scanFor (S0 : List Seg) (i : Nat) (st : StitchState)
    (h : Conserves S0 st) : Conserves S0 (scanFor i st) := by
  refine scanFor_induction (Conserves S0) ?_ ?_ _ i st (le_refl _) h
  · intro st i hP hi _ _
    exact conserves_appended S0 st i hP hi
  · intro st i hP hi _ hc
    exact conserves_reseeded S0 _ (conserves_appended S0 st i hP hi) hc.2.2

theorem conserves_stitchWhile (S0 : List Seg) (fuel : Nat) :
    ∀ st st1, Conserves S0 st → stitchWhile fuel st = some st1 →
      Conserves S0 st1 ∧ st1.Simplified_data = [] := by
  induction fuel with
  | zero =>
    intro st st1 h hw
    by_cases hne : st.Simplified_data.length ≠ 0
    · simp [stitchWhile, hne] at hw
    · rw [stitchWhile, if_neg hne] at hw
      cases hw
      exact ⟨h, List.eq_nil_of_length_eq_zero (not_not.mp hne)⟩
  | succ n ih =>
    intro st st1 h hw
    by_cases hne : st.Simplified_data.length ≠ 0
    · rw [stitchWhile, if_pos hne] at hw
      exact ih _ _ (conserves_scanFor S0 0 st h) hw
    · rw [stitchWhile, if_neg hne] at hw
      cases hw
      exact ⟨h, List.eq_nil_of_length_eq_zero (not_not.mp hne)⟩

/-- C7. Whenever the stitching loop finishes on a segment list `S` (which is then
non-empty), the segments of all produced cycles together are, up to the order of the two
endpoints of each segment, a permutation of the segments of `S`: none is lost, used
twice or invented. -/
theorem C7_segments_consumed_once (S : List Seg) (fuel : Nat) (out : List (List Seg))
    (h : assemble fuel S = some out) :
    S ≠ [] ∧ (out.flatten.map canon).Perm (S.map canon) := by
  cases S with
  | nil => simp [assemble, stitchInit] at h
  | cons s rest =>
    refine ⟨List.cons_ne_nil _ _, ?_⟩
    simp only [assemble, stitchInit] at h
    split at h
    · cases h
    · rename_i st1 hw
      cases h
      have h0 : Conserves (s :: rest)
          { Simplified_data := rest, Circle_data := [[s]],
            tem_current_count := 0, tem_current_count_inner := 0 } :=
        ⟨by simp, by simp⟩
      obtain ⟨⟨_, hp⟩, he⟩ := conserves_stitchWhile (s :: rest) fuel _ _ h0 hw
      rw [he, List.append_nil] at hp
      exact hp

/-- C7 (witness). The four sides of the square, stitched with a bound of 4 scans. -/
theorem C7_segments_consumed_once_witness :
    squareSoup ≠ [] ∧ (([squareCycle] : List (List Seg)).flatten.map canon).Perm
      (squareSoup.map canon) :=
  C7_segments_consumed_once squareSoup 4 [squareCycle] assemble_squareSoup

/-! ## Closed cycles of points: properties -/

theorem pathEdges_cons_cons (p q : Point) (l : List Point) :
    pathEdges (p :: q :: l) = mkSeg p q :: pathEdges (q :: l) := rfl

theorem pathEdges_split (A : List Point) (x : Point) (B : List Point) :
    pathEdges (A ++ x :: B) = pathEdges (A ++ [x]) ++ pathEdges (x :: B) := by
  induction A with
  | nil => simp [pathEdges]
  | cons a A ih =>
    cases A with
    | nil => simp [pathEdges]
    | cons a' A' =>
      simp only [List.cons_append, pathEdges_cons_cons] at ih ⊢
      rw [ih]

theorem length_pathEdges (L : List Point) : (pathEdges L).length = L.length - 1 := by
  induction L with
  | nil => rfl
  | cons p L ih =>
    cases L with
    | nil => rfl
    | cons q L' =>
      rw [pathEdges_cons_cons, List.length_cons, ih]
      simp

theorem mem_pathEdges {e : Seg} {L : List Point} (h : e ∈ pathEdges L) :
    ∃ A p q B, L = A ++ p :: q :: B ∧ e = mkSeg p q := by
  induction L with
  | nil => simp [pathEdges] at h
  | cons x L ih =>
    cases L with
    | nil => simp [pathEdges] at h
    | cons y L' =>
      rw [pathEdges_cons_cons, List.mem_cons] at h
      rcases h with h | h
      · exact ⟨[], x, y, L', rfl, h⟩
      · obtain ⟨A, p, q, B, hL, he⟩ := ih h
        exact ⟨x :: A, p, q, B, by rw [hL]; rfl, he⟩

theorem endpoints_mem_pathEdges {e : Seg} {L : List Point} (h : e ∈ pathEdges L) :
    e.a ∈ L ∧ e.b ∈ L := by
  obtain ⟨A, p, q, B, hL, he⟩ := mem_pathEdges h
  subst hL he
  simp [mkSeg, Seg.a, Seg.b]

theorem mkSeg_a (p q : Point) : (mkSeg p q).a = p := rfl

theorem mkSeg_b (p q : Point) : (mkSeg p q).b = q := rfl

theorem mkSeg_swap (p q : Point) : (mkSeg p q).swap = mkSeg q p := rfl

theorem mkSeg_a_b (s : Seg) : mkSeg s.a s.b = s := rfl

theorem canon_mkSeg (p q : Point) :
    canon (mkSeg p q) = mkSeg p q ∨ canon (mkSeg p q) = mkSeg q p := by
  unfold canon
  split
  · right; rfl
  · left; rfl

theorem pathEdges_reverse (L : List Point) :
    pathEdges L.reverse = ((pathEdges L).reverse).map Seg.swap := by
  induction L with
  | nil => rfl
  | cons x L ih =>
    cases L with
    | nil => rfl
    | cons y L' =>
      rw [List.reverse_cons, List.reverse_cons, List.append_assoc]
      have h1 : L'.reverse ++ ([y] ++ [x]) = L'.reverse ++ y :: [x] := rfl
      rw [h1, pathEdges_split, ← List.reverse_cons, ih, pathEdges_cons_cons x y,
        List.reverse_cons (mkSeg x y), List.map_append]
      rfl

theorem map_canon_swap (l : List Seg) : (l.map Seg.swap).map canon = l.map canon := by
  rw [List.map_map]
  apply List.map_congr_left
  intro s _
  exact canon_swap s

/-- Traversing a path backwards gives the same normalised segments. -/
theorem pathEdges_reverse_perm (L : List Point) :
    ((pathEdges L.reverse).map canon).Perm ((pathEdges L).map canon) := by
  rw [pathEdges_reverse, map_canon_swap]
  exact (List.reverse_perm _).map canon

/-- Starting a closed cycle at another of its points gives the same sides. -/
theorem cycleEdges_rotate (l1 l2 : List Point) :
    (cycleEdges (l1 ++ l2)).Perm (cycleEdges (l2 ++ l1)) := by
  cases l1 with
  | nil => simp
  | cons h1 t1 =>
    cases l2 with
    | nil => simp
    | cons h2 t2 =>
      have e1 : cycleEdges (h1 :: t1 ++ h2 :: t2)
          = pathEdges (h1 :: t1 ++ [h2]) ++ pathEdges (h2 :: t2 ++ [h1]) := by
        unfold cycleEdges
        rw [show (h1 :: t1 ++ h2 :: t2) ++ List.take 1 (h1 :: t1 ++ h2 :: t2)
            = (h1 :: t1) ++ h2 :: (t2 ++ [h1]) by simp]
        rw [pathEdges_split]
        rfl
      have e2 : cycleEdges (h2 :: t2 ++ h1 :: t1)
          = pathEdges (h2 :: t2 ++ [h1]) ++ pathEdges (h1 :: t1 ++ [h2]) := by
        unfold cycleEdges
        rw [show (h2 :: t2 ++ h1 :: t1) ++ List.take 1 (h2 :: t2 ++ h1 :: t1)
            = (h2 :: t2) ++ h1 :: (t1 ++ [h2]) by simp]
        rw [pathEdges_split]
        rfl
      rw [e1, e2]
      exact List.perm_append_comm

/-- A side of a closed cycle is the first side of the cycle started at a suitable point. -/
theorem mem_cycleEdges_rotation (c : List Point) (hc : 2 ≤ c.length) (e : Seg)
    (he : e ∈ cycleEdges c) :
    ∃ l1 l2 p q t, c = l1 ++ l2 ∧ l2 ++ l1 = p :: q :: t ∧ e = mkSeg p q := by
  cases c with
  | nil => simp at hc
  | cons h tl =>
    have hce : cycleEdges (h :: tl) = pathEdges (h :: tl ++ [h]) := by
      unfold cycleEdges; simp
    rw [hce] at he
    obtain ⟨A, p, q, B, hL, hpq⟩ := mem_pathEdges he
    rcases List.eq_nil_or_concat B with hB | ⟨B', b, hB⟩
    · subst hB
      have h1 : (h :: tl) ++ [h] = (A ++ [p]) ++ [q] := by rw [hL]; simp
      obtain ⟨h2, h3⟩ := List.append_inj' h1 rfl
      have hq : q = h := by simpa using h3.symm
      cases A with
      | nil =>
        have := congrArg List.length h2
        simp only [List.length_cons, List.nil_append, List.length_singleton,
          List.length_nil] at this hc
        omega
      | cons a0 A' =>
        have ha : a0 = h := by
          have := congrArg List.head? h2
          simpa using this.symm
        exact ⟨a0 :: A', [p], p, q, A', h2, by rw [hq, ← ha]; rfl, hpq⟩
    · rw [List.concat_eq_append] at hB
      subst hB
      have h1 : (h :: tl) ++ [h] = (A ++ p :: q :: B') ++ [b] := by rw [hL]; simp
      obtain ⟨h2, _⟩ := List.append_inj' h1 rfl
      exact ⟨A, p :: q :: B', p, q, B' ++ A, h2, rfl, hpq⟩

theorem cycleSegs_cons_cons (p q : Point) (t : List Point) :
    cycleSegs (p :: q :: t) = canon (mkSeg p q) :: (pathEdges (q :: t ++ [p])).map canon := by
  unfold cycleSegs cycleEdges
  simp [pathEdges_cons_cons]

/-- A normalised side `s` of a closed cycle `c` is the first step of a walk once around
the cycle: the walk visits the points of `c`, starts along `s` from its first endpoint,
and its steps are the sides of `c`. -/
theorem seed_walk (c : List Point) (hc : 2 ≤ c.length) (s : Seg) (hs : s ∈ cycleSegs c) :
    ∃ w0 w1 tl, (w0 :: w1 :: tl).Perm c ∧ s = mkSeg w0 w1
      ∧ (s :: (pathEdges (w1 :: tl ++ [w0])).map canon).Perm (cycleSegs c) := by
  unfold cycleSegs at hs
  obtain ⟨e, he, rfl⟩ := List.mem_map.mp hs
  obtain ⟨l1, l2, p, q, t, hcl, hrot, hpq⟩ := mem_cycleEdges_rotation c hc e he
  have hperm : (p :: q :: t).Perm c := by
    rw [hcl, ← hrot]; exact List.perm_append_comm
  have hsegs : (cycleSegs (p :: q :: t)).Perm (cycleSegs c) := by
    rw [hcl, ← hrot]
    exact (cycleEdges_rotate l2 l1).map canon
  rw [cycleSegs_cons_cons] at hsegs
  subst hpq
  rcases canon_mkSeg p q with h | h
  · exact ⟨p, q, t, hperm, h, by rw [h] at hsegs ⊢; exact hsegs⟩
  · refine ⟨q, p, t.reverse, ?_, h, ?_⟩
    · refine List.Perm.trans ?_ hperm
      refine (List.Perm.swap p q _).trans ?_
      exact ((List.reverse_perm t).cons q).cons p
    · rw [h] at hsegs ⊢
      refine List.Perm.trans ?_ hsegs
      refine List.Perm.cons _ ?_
      have hr : p :: t.reverse ++ [q] = (q :: t ++ [p]).reverse := by simp
      rw [hr]
      exact pathEdges_reverse_perm _

/-! ## The stitching loop on disjoint closed cycles -/

theorem entry_append_last (D : List (List Seg)) (ch : List Seg) (j : Nat) :
    entry (D ++ [ch]) D.length j = ch.getD j default := by
  unfold entry
  have : (D ++ [ch]).getD D.length [] = ch := by
    rw [List.getD_eq_getElem?_getD, List.getElem?_append_right (le_refl _)]
    simp
  rw [this]

theorem found_iff (st : StitchState) (s : Seg) :
    st.found s = true ↔ st.curEnd = s.a ∨ st.curEnd = s.b := by
  simp [StitchState.found, StitchState.curEnd, Seg.a, Seg.b]

theorem turned_eq (st : StitchState) (s : Seg) :
    st.turned s = if st.curEnd = s.b then s.swap else s := by
  simp [StitchState.turned, StitchState.curEnd, Seg.a, Seg.b]

theorem mem_cycleSegs_endpoints {s : Seg} {c : List Point} (h : s ∈ cycleSegs c) :
    s.a ∈ c ∧ s.b ∈ c := by
  unfold cycleSegs cycleEdges at h
  obtain ⟨e, he, rfl⟩ := List.mem_map.mp h
  obtain ⟨ha, hb⟩ := endpoints_mem_pathEdges he
  have hsub : ∀ p, p ∈ c ++ c.take 1 → p ∈ c := by
    intro p hp
    rcases List.mem_append.mp hp with h1 | h1
    · exact h1
    · exact List.mem_of_mem_take h1
  rcases canon_sameEndpoints e with ⟨h1, h2⟩ | ⟨h1, h2⟩
  · rw [h1, h2]; exact ⟨hsub _ ha, hsub _ hb⟩
  · rw [h1, h2]; exact ⟨hsub _ hb, hsub _ ha⟩

theorem length_cycleSegs (c : List Point) (hc : 1 ≤ c.length) :
    (cycleSegs c).length = c.length := by
  unfold cycleSegs cycleEdges
  rw [List.length_map, length_pathEdges, List.length_append, List.length_take]
  omega

theorem OpenData.curEnd_eq {cs st Dout Dcs c R chain a v rem}
    (h : OpenData cs st Dout Dcs c R chain a v rem) : st.curEnd = v := by
  unfold StitchState.curEnd
  rw [h.circle, h.count, entry_append_last]
  exact h.last_b

/-- While a cycle is followed, a remaining segment that touches the current end point is
the next side of the walk, and it is appended as the step from the current end point. -/
theorem OpenData.match_next {cs st Dout Dcs c R chain a v rem}
    (h : OpenData cs st Dout Dcs c R chain a v rem) (s : Seg)
    (hs : s ∈ st.Simplified_data) (hf : st.found s = true) :
    ∃ u rest, rem ++ [a] = u :: rest ∧ u ≠ v ∧ s = canon (mkSeg v u)
      ∧ st.turned s = mkSeg v u := by
  have hnd := h.nodup
  rw [List.cons_append, List.cons_append, List.nodup_cons, List.nodup_cons] at hnd
  obtain ⟨ha, hv, _⟩ := hnd
  have hva : v ≠ a := by
    intro e; apply ha; rw [e.symm]; simp
  have hv1 : v ∉ rem ++ [a] := by
    intro hm
    rcases List.mem_append.mp hm with h1 | h1
    · exact hv (List.mem_append_left _ h1)
    · exact hva (by simpa using h1)
  have hv2 : v ∉ R.flatten := fun hm => hv (List.mem_append_right _ hm)
  have hcur := h.curEnd_eq
  rw [found_iff, hcur] at hf
  have htouch : s.a = v ∨ s.b = v := by
    rcases hf with e | e
    · left; exact e.symm
    · right; exact e.symm
  obtain ⟨u, rest, hur⟩ : ∃ u rest, rem ++ [a] = u :: rest := by
    cases rem with
    | nil => exact ⟨a, [], rfl⟩
    | cons r rem' => exact ⟨r, rem' ++ [a], rfl⟩
  have huv : u ≠ v := by
    intro e
    apply hv1
    rw [hur, e]
    exact List.mem_cons_self _ _
  have hmem := (h.soup.mem_iff (a := s)).mp hs
  have hs_eq : s = canon (mkSeg v u) := by
    rcases List.mem_append.mp hmem with h1 | h1
    · rw [List.cons_append, hur, pathEdges_cons_cons, List.map_cons, List.mem_cons] at h1
      rcases h1 with h1 | h1
      · exact h1
      · exfalso
        obtain ⟨e, he, rfl⟩ := List.mem_map.mp h1
        obtain ⟨hea, heb⟩ := endpoints_mem_pathEdges he
        rw [← hur] at hea heb
        rcases canon_sameEndpoints e with ⟨e1, e2⟩ | ⟨e1, e2⟩
        · rcases htouch with t | t
          · rw [e1] at t; exact hv1 (t ▸ hea)
          · rw [e2] at t; exact hv1 (t ▸ heb)
        · rcases htouch with t | t
          · rw [e1] at t; exact hv1 (t ▸ heb)
          · rw [e2] at t; exact hv1 (t ▸ hea)
    · exfalso
      obtain ⟨l, hl, hsl⟩ := List.mem_flatten.mp h1
      obtain ⟨r, hr, rfl⟩ := List.mem_map.mp hl
      obtain ⟨hea, heb⟩ := mem_cycleSegs_endpoints hsl
      rcases htouch with t | t
      · exact hv2 (List.mem_flatten.mpr ⟨r, hr, t ▸ hea⟩)
      · exact hv2 (List.mem_flatten.mpr ⟨r, hr, t ▸ heb⟩)
  refine ⟨u, rest, hur, huv, hs_eq, ?_⟩
  rw [turned_eq, hcur]
  rcases canon_mkSeg v u with e | e
  · rw [e] at hs_eq
    rw [hs_eq, mkSeg_b, if_neg (fun t => huv t.symm)]
  · rw [e] at hs_eq
    rw [hs_eq, mkSeg_b, if_pos rfl, mkSeg_swap]

theorem canon_of_mem_cycleSegs {s : Seg} {c : List Point} (h : s ∈ cycleSegs c) :
    canon s = s := by
  unfold cycleSegs at h
  obtain ⟨e, _, rfl⟩ := List.mem_map.mp h
  exact canon_idem e

/-- Seeding a cycle with a remaining segment `s` starts the walk around the input cycle
that `s` is a side of. -/
theorem open_of_seed (cs : List (List Point)) (Dout : List (List Seg))
    (Dcs R : List (List Point)) (s : Seg) (S1 : List Seg)
    (hperm : (Dcs ++ R).Perm cs) (hdone : List.Forall₂ CycleOf Dout Dcs)
    (hbig : ∀ r, r ∈ R → 3 ≤ r.length) (hnd : R.flatten.Nodup)
    (hsoup : (s :: S1).Perm (R.map cycleSegs).flatten) :
    Open cs { Simplified_data := S1, Circle_data := Dout ++ [[s]],
              tem_current_count := Dout.length, tem_current_count_inner := 0 } := by
  have hs : s ∈ (R.map cycleSegs).flatten := (hsoup.mem_iff).mp (List.mem_cons_self _ _)
  obtain ⟨l, hl, hsl⟩ := List.mem_flatten.mp hs
  obtain ⟨c1, hc1, rfl⟩ := List.mem_map.mp hl
  obtain ⟨R1, R2, hsplit⟩ := List.append_of_mem hc1
  have hR : R.Perm (c1 :: (R1 ++ R2)) := by
    rw [hsplit]; exact List.perm_middle
  obtain ⟨w0, w1, tl, hw, hsw, hseg⟩ := seed_walk c1 (by have := hbig c1 hc1; omega) s hsl
  have hflat : (R.map cycleSegs).flatten.Perm
      (cycleSegs c1 ++ ((R1 ++ R2).map cycleSegs).flatten) := by
    have := (hR.map cycleSegs).flatten
    simpa using this
  refine ⟨Dout, Dcs, c1, R1 ++ R2, [s], w0, w1, tl, ?_⟩
  refine
    { perm := ?_, done := hdone, big := ?_, circle := rfl, count := rfl, inner := rfl,
      last_b := ?_, first_a := ?_, soup := ?_, nodup := ?_, walk := ?_ }
  · exact (List.Perm.append_left Dcs hR.symm).trans hperm
  · intro r hr
    apply hbig r
    rw [hsplit]
    rcases List.mem_append.mp hr with h1 | h1
    · exact List.mem_append_left _ h1
    · exact List.mem_append_right _ (List.mem_cons_of_mem _ h1)
  · rw [hsw]; rfl
  · rw [hsw]; rfl
  · have h1 : (s :: S1).Perm
        (s :: ((pathEdges (w1 :: tl ++ [w0])).map canon
          ++ ((R1 ++ R2).map cycleSegs).flatten)) := by
      refine hsoup.trans (hflat.trans ?_)
      rw [← List.cons_append]
      exact List.Perm.append_right _ hseg.symm
    exact h1.cons_inv
  · have h1 : R.flatten.Perm ((w0 :: w1 :: tl) ++ (R1 ++ R2).flatten) := by
      have := hR.flatten
      rw [List.flatten_cons] at this
      exact this.trans (List.Perm.append_right _ hw.symm)
    exact (h1.nodup_iff).mp hnd
  · rw [List.map_singleton, canon_of_mem_cycleSegs hsl]
    exact hseg

theorem getD_append_length (chain : List Seg) (e : Seg) :
    (chain ++ [e]).getD chain.length default = e := by
  rw [List.getD_eq_getElem?_getD, List.getElem?_append_right (le_refl _)]
  simp

theorem getD_append_zero (chain : List Seg) (e : Seg) (h : 0 < chain.length) :
    (chain ++ [e]).getD 0 default = chain.getD 0 default := by
  cases chain with
  | nil => simp at h
  | cons x xs => rfl

theorem point_eq_iff (p q : Point) : p = q ↔ p.x = q.x ∧ p.y = q.y := by
  cases p; cases q; simp

/-- What an append does while a cycle is followed: the step from the current end point
`v` to the next point `u` of the walk is moved from `Simplified_data` to the current
cycle, and the test of lines 301-303 holds exactly when `u` is the start point and
segments remain. -/
theorem OpenData.appended_facts {cs st Dout Dcs c R chain a v rem}
    (h : OpenData cs st Dout Dcs c R chain a v rem) (i : Nat)
    (hi : i < st.Simplified_data.length)
    (hf : st.found (st.Simplified_data.getD i default) = true) :
    ∃ u rest, rem ++ [a] = u :: rest ∧ u ≠ v
      ∧ (st.appended i).Circle_data = Dout ++ [chain ++ [mkSeg v u]]
      ∧ (st.appended i).Simplified_data.Perm
          ((pathEdges (u :: rest)).map canon ++ (R.map cycleSegs).flatten)
      ∧ ((st.appended i).closes ↔ u = a ∧ (st.appended i).Simplified_data ≠ []) := by
  have hmem : st.Simplified_data.getD i default ∈ st.Simplified_data := by
    rw [List.getD_eq_getElem?_getD, List.getElem?_eq_getElem hi]
    exact List.getElem_mem _
  obtain ⟨u, rest, hur, huv, hs_eq, hturn⟩ := h.match_next _ hmem hf
  have hC : (st.appended i).Circle_data = Dout ++ [chain ++ [mkSeg v u]] := by
    simp only [StitchState.appended]
    rw [hturn, h.circle, h.count, pushBackAt_append_last]
  have hS : (st.appended i).Simplified_data.Perm
      ((pathEdges (u :: rest)).map canon ++ (R.map cycleSegs).flatten) := by
    have h1 := (perm_cons_eraseIdx st.Simplified_data i hi).symm.trans h.soup
    rw [List.cons_append, hur, pathEdges_cons_cons, List.map_cons, List.cons_append,
      ← hs_eq] at h1
    exact h1.cons_inv
  refine ⟨u, rest, hur, huv, hC, hS, ?_⟩
  have hlen : 0 < chain.length := by have := h.inner; omega
  have hcc : (st.appended i).tem_current_count = Dout.length := h.count
  have hci : (st.appended i).tem_current_count_inner = chain.length := h.inner
  unfold StitchState.closes
  rw [hC, hcc, hci, entry_append_last, entry_append_last, getD_append_length,
    getD_append_zero _ _ hlen]
  have hfa := h.first_a
  rw [point_eq_iff] at hfa
  simp only [Seg.a] at hfa
  rw [point_eq_iff, ← hfa.1, ← hfa.2]
  simp only [mkSeg, and_assoc]

theorem flatten_cycleSegs_eq_nil (R : List (List Point))
    (hbig : ∀ r, r ∈ R → 3 ≤ r.length) (h : (R.map cycleSegs).flatten = []) : R = [] := by
  cases R with
  | nil => rfl
  | cons r R' =>
    exfalso
    have h3 := hbig r (List.mem_cons_self _ _)
    have hl := length_cycleSegs r (by omega)
    have := congrArg List.length h
    simp only [List.map_cons, List.flatten_cons, List.length_append, List.length_nil] at this
    omega

/-- An append that does not meet the test of lines 301-303 either continues the walk or
completes the last cycle with nothing left. -/
theorem OpenData.step_continue {cs st Dout Dcs c R chain a v rem}
    (h : OpenData cs st Dout Dcs c R chain a v rem) (i : Nat)
    (hi : i < st.Simplified_data.length)
    (hf : st.found (st.Simplified_data.getD i default) = true)
    (hc : ¬ (st.appended i).closes) :
    Open cs (st.appended i) ∨ Done cs (st.appended i) := by
  obtain ⟨u, rest, hur, huv, hC, hS, hcl⟩ := h.appended_facts i hi hf
  have hcc : (st.appended i).tem_current_count = Dout.length := h.count
  have hci : (st.appended i).tem_current_count_inner = chain.length := h.inner
  have hlen : 0 < chain.length := by have := h.inner; omega
  cases rem with
  | nil =>
    right
    simp only [List.nil_append, List.cons.injEq] at hur
    obtain ⟨hua, hrest⟩ := hur
    subst hua hrest
    have hnil : (st.appended i).Simplified_data = [] := by
      by_contra hne
      exact hc (hcl.mpr ⟨rfl, hne⟩)
    rw [hnil] at hS
    have hR : R = [] := by
      apply flatten_cycleSegs_eq_nil R h.big
      have := hS.symm.eq_nil
      simpa [pathEdges] using this
    refine ⟨hnil, Dcs ++ [c], ?_, ?_⟩
    · have := h.perm
      rwa [hR] at this
    · rw [hC]
      refine List.rel_append h.done (List.Forall₂.cons ?_ List.Forall₂.nil)
      have := h.walk
      simp only [List.cons_append, List.nil_append, pathEdges, List.map_cons,
        List.map_nil] at this
      unfold CycleOf
      rw [List.map_append]
      exact this
  | cons r rem1 =>
    left
    simp only [List.cons_append, List.cons.injEq] at hur
    obtain ⟨hur1, hrest⟩ := hur
    subst hur1 hrest
    refine ⟨Dout, Dcs, c, R, chain ++ [mkSeg v r], a, r, rem1, ?_⟩
    refine
      { perm := h.perm, done := h.done, big := h.big, circle := hC, count := hcc,
        inner := ?_, last_b := ?_, first_a := ?_, soup := hS, nodup := ?_, walk := ?_ }
    · rw [hci]; simp
    · rw [hci, getD_append_length]; rfl
    · rw [getD_append_zero _ _ hlen]; exact h.first_a
    · have := h.nodup
      simp only [List.cons_append, List.nodup_cons, List.mem_cons, List.mem_append,
        not_or] at this ⊢
      tauto
    · have := h.walk
      simp only [List.cons_append, pathEdges_cons_cons, List.map_cons, List.map_append,
        List.map_nil, List.append_assoc, List.singleton_append] at this ⊢
      exact this

/-- An append that meets the test of lines 301-303 completes a cycle, and the seed taken
next starts the walk around another input cycle. -/
theorem OpenData.step_reseed {cs st Dout Dcs c R chain a v rem}
    (h : OpenData cs st Dout Dcs c R chain a v rem) (i : Nat)
    (hi : i < st.Simplified_data.length)
    (hf : st.found (st.Simplified_data.getD i default) = true)
    (hc : (st.appended i).closes) :
    Open cs (st.appended i).reseeded := by
  obtain ⟨u, rest, hur, huv, hC, hS, hcl⟩ := h.appended_facts i hi hf
  have hcc : (st.appended i).tem_current_count = Dout.length := h.count
  obtain ⟨hua, hne⟩ := hcl.mp hc
  subst hua
  have hrem : rem = [] := by
    cases rem with
    | nil => rfl
    | cons r rem1 =>
      exfalso
      simp only [List.cons_append, List.cons.injEq] at hur
      have := h.nodup
      simp only [List.cons_append, List.nodup_cons, List.mem_cons, List.mem_append,
        not_or] at this
      exact this.1.2.1 hur.1.symm
  subst hrem
  simp only [List.nil_append, List.cons.injEq, true_and] at hur
  subst hur
  obtain ⟨s1, S1, hS1⟩ := List.exists_cons_of_ne_nil hne
  have hstate : (st.appended i).reseeded
      = { Simplified_data := S1, Circle_data := (Dout ++ [chain ++ [mkSeg v u]]) ++ [[s1]],
          tem_current_count := (Dout ++ [chain ++ [mkSeg v u]]).length,
          tem_current_count_inner := 0 } := by
    unfold StitchState.reseeded
    rw [hC, hcc, hS1]
    simp
  rw [hstate]
  apply open_of_seed cs (Dout ++ [chain ++ [mkSeg v u]]) (Dcs ++ [c]) R s1 S1
  · have := h.perm
    simpa using this
  · refine List.rel_append h.done (List.Forall₂.cons ?_ List.Forall₂.nil)
    have := h.walk
    simp only [List.cons_append, List.nil_append, pathEdges, List.map_cons,
      List.map_nil] at this
    unfold CycleOf
    rw [List.map_append]
    exact this
  · exact h.big
  · have := h.nodup
    rw [List.nodup_append] at this
    exact this.2.1
  · rw [← hS1]
    simpa [pathEdges] using hS

/-- The invariant of the stitching loop on disjoint closed cycles. -/
theorem stitching_scanFor (cs : List (List Point)) (i : Nat) (st : StitchState)
    (h : Open cs st ∨ Done cs st) :
    Open cs (scanFor i st) ∨ Done cs (scanFor i st) := by
  refine scanFor_induction (fun st => Open cs st ∨ Done cs st) ?_ ?_ _ i st (le_refl _) h
  · intro st i hP hi hf hc
    rcases hP with ⟨Dout, Dcs, c, R, chain, a, v, rem, hO⟩ | hD
    · exact hO.step_continue i hi hf hc
    · rw [hD.1] at hi; simp at hi
  · intro st i hP hi hf hc
    rcases hP with ⟨Dout, Dcs, c, R, chain, a, v, rem, hO⟩ | hD
    · exact Or.inl (hO.step_reseed i hi hf hc)
    · rw [hD.1] at hi; simp at hi

theorem length_appended (st : StitchState) (i : Nat) (hi : i < st.Simplified_data.length) :
    (st.appended i).Simplified_data.length + 1 = st.Simplified_data.length := by
  simp only [StitchState.appended, List.length_eraseIdx, if_pos hi]
  omega

theorem length_reseeded_le (st : StitchState) :
    st.reseeded.Simplified_data.length ≤ st.Simplified_data.length := by
  simp only [StitchState.reseeded]
  exact List.length_eraseIdx_le _ _

/-- The `for` loop never lengthens `Simplified_data`. -/
theorem scanFor_length_le (i : Nat) (st : StitchState) :
    (scanFor i st).Simplified_data.length ≤ st.Simplified_data.length := by
  refine scanFor_induction
    (fun st1 => st1.Simplified_data.length ≤ st.Simplified_data.length) ?_ ?_ _ i st
    (le_refl _) (le_refl _)
  · intro st1 j hP hj _ _
    have := length_appended st1 j hj
    omega
  · intro st1 j hP hj _ _
    have := length_appended st1 j hj
    have := length_reseeded_le (st1.appended j)
    omega

/-- A scan that meets a matching candidate at or after its start index shortens
`Simplified_data`. -/
theorem scanFor_progress (n : Nat) :
    ∀ (i p : Nat) (st : StitchState), p - i ≤ n → i ≤ p → p < st.Simplified_data.length →
      st.found (st.Simplified_data.getD p default) = true →
      (scanFor i st).Simplified_data.length < st.Simplified_data.length := by
  induction n with
  | zero =>
    intro i p st hn hip hp hf
    have hpi : p = i := by omega
    subst hpi
    rw [scanFor_eq, if_pos hp, if_pos hf]
    have h1 := length_appended st p hp
    split
    · have := length_reseeded_le (st.appended p)
      omega
    · have := scanFor_length_le (p + 1) (st.appended p)
      omega
  | succ n ih =>
    intro i p st hn hip hp hf
    rw [scanFor_eq, if_pos (by omega)]
    by_cases hfi : st.found (st.Simplified_data.getD i default) = true
    · rw [if_pos hfi]
      have h1 := length_appended st i (by omega)
      split
      · have := length_reseeded_le (st.appended i)
        omega
      · have := scanFor_length_le (i + 1) (st.appended i)
        omega
    · rw [if_neg hfi]
      have hne : p ≠ i := by
        intro e; subst e; exact hfi hf
      exact ih (i + 1) p st (by omega) (by omega) hp hf

/-- While a cycle is followed, the next side of the walk is among the remaining segments
and matches the current end point. -/
theorem Open.exists_match {cs : List (List Point)} {st : StitchState} (h : Open cs st) :
    ∃ p, p < st.Simplified_data.length
      ∧ st.found (st.Simplified_data.getD p default) = true := by
  obtain ⟨Dout, Dcs, c, R, chain, a, v, rem, hO⟩ := h
  obtain ⟨u, rest, hur⟩ : ∃ u rest, rem ++ [a] = u :: rest := by
    cases rem with
    | nil => exact ⟨a, [], rfl⟩
    | cons r rem' => exact ⟨r, rem' ++ [a], rfl⟩
  have hmem : canon (mkSeg v u) ∈ st.Simplified_data := by
    rw [hO.soup.mem_iff, List.cons_append, hur, pathEdges_cons_cons]
    simp
  obtain ⟨p, hp, hpe⟩ := List.getElem_of_mem hmem
  refine ⟨p, hp, ?_⟩
  have hg : st.Simplified_data.getD p default = canon (mkSeg v u) := by
    rw [List.getD_eq_getElem?_getD, List.getElem?_eq_getElem hp]; exact hpe
  rw [hg, found_iff, hO.curEnd_eq]
  rcases canon_mkSeg v u with e | e
  · left; rw [e]; rfl
  · right; rw [e]; rfl

theorem Open.soup_ne_nil {cs : List (List Point)} {st : StitchState} (h : Open cs st) :
    st.Simplified_data ≠ [] := by
  obtain ⟨p, hp, _⟩ := h.exists_match
  intro e
  rw [e] at hp
  simp at hp

/-- On disjoint closed cycles the `while` loop ends within as many scans as there are
segments left, with one cycle per input cycle. -/
theorem stitchWhile_done (cs : List (List Point)) (n : Nat) :
    ∀ (fuel : Nat) (st : StitchState), st.Simplified_data.length ≤ n → n ≤ fuel →
      Open cs st ∨ Done cs st → ∃ st1, stitchWhile fuel st = some st1 ∧ Done cs st1 := by
  induction n with
  | zero =>
    intro fuel st hn _ h
    have hnil : st.Simplified_data = [] := List.eq_nil_of_length_eq_zero (by omega)
    refine ⟨st, stitchWhile_empty fuel st hnil, ?_⟩
    rcases h with hO | hD
    · exact absurd hnil hO.soup_ne_nil
    · exact hD
  | succ n ih =>
    intro fuel st hn hfuel h
    rcases h with hO | hD
    · obtain ⟨f, rfl⟩ : ∃ f, fuel = f + 1 := ⟨fuel - 1, by omega⟩
      have hne : st.Simplified_data.length ≠ 0 := by
        intro e
        exact hO.soup_ne_nil (List.eq_nil_of_length_eq_zero e)
      rw [stitchWhile, if_pos hne]
      obtain ⟨p, hp, hf⟩ := hO.exists_match
      have hlt := scanFor_progress p 0 p st (by omega) (Nat.zero_le _) hp hf
      exact ih f (scanFor 0 st) (by omega) (by omega)
        (stitching_scanFor cs 0 st (Or.inl hO))
    · exact ⟨st, stitchWhile_empty fuel st hD.1, hD⟩

theorem stitchWhile_mono (fuel : Nat) :
    ∀ (st st1 : StitchState), stitchWhile fuel st = some st1 →
      ∀ k, stitchWhile (fuel + k) st = some st1 := by
  induction fuel with
  | zero =>
    intro st st1 h k
    by_cases hne : st.Simplified_data.length ≠ 0
    · simp [stitchWhile, hne] at h
    · rw [stitchWhile, if_neg hne] at h
      rw [stitchWhile_empty _ st (List.eq_nil_of_length_eq_zero (not_not.mp hne))]
      exact h
  | succ f ih =>
    intro st st1 h k
    have e : f + 1 + k = (f + k) + 1 := by omega
    rw [e]
    by_cases hne : st.Simplified_data.length ≠ 0
    · rw [stitchWhile, if_pos hne] at h ⊢
      exact ih _ _ h k
    · rw [stitchWhile, if_neg hne] at h ⊢
      exact h

theorem stitchInit_cons (s : Seg) (rest : List Seg) :
    stitchInit (s :: rest) = some ⟨rest, [[s]], 0, 0⟩ := rfl

/-- C1. Let `cs` be a non-empty family of simple closed cycles, each through at least
three points and no point on two of them, and let `S` be their normalised sides in any
list order.  Then the stitching loop ends (with any bound of at least `S.length` scans,
and with the same result), it produces as many cycles as `cs` has, and the produced
cycles correspond one to one to the input cycles, each consisting of all and only the
sides of its input cycle up to the order of the endpoints of each side. -/
theorem C1_disjoint_cycles_stitched (cs : List (List Point)) (S : List Seg)
    (hcs : DisjointCycles cs) (hS : S.Perm (cs.map cycleSegs).flatten) :
    ∃ out, (∀ fuel, S.length ≤ fuel → assemble fuel S = some out)
      ∧ out.length = cs.length
      ∧ ∃ cs1, cs1.Perm cs ∧ List.Forall₂ CycleOf out cs1 := by
  obtain ⟨hne, hbig, hnd⟩ := hcs
  cases S with
  | nil =>
    exfalso
    exact hne (flatten_cycleSegs_eq_nil cs hbig hS.symm.eq_nil)
  | cons s rest =>
    have hO : Open cs ⟨rest, [[s]], 0, 0⟩ :=
      open_of_seed cs [] [] cs s rest (List.Perm.refl _) List.Forall₂.nil hbig hnd hS
    have hall : ∀ fuel, (s :: rest).length ≤ fuel →
        ∃ st1, stitchWhile fuel ⟨rest, [[s]], 0, 0⟩ = some st1 ∧ Done cs st1 := by
      intro fuel hfuel
      refine stitchWhile_done cs rest.length fuel _ (le_refl _) ?_ (Or.inl hO)
      simp only [List.length_cons] at hfuel
      omega
    obtain ⟨st0, hw0, -, cs1, hp1, hf1⟩ := hall (s :: rest).length (le_refl _)
    refine ⟨st0.Circle_data, ?_, ?_, cs1, hp1, hf1⟩
    · intro fuel hfuel
      obtain ⟨k, rfl⟩ : ∃ k, fuel = (s :: rest).length + k := ⟨fuel - (s :: rest).length, by omega⟩
      simp only [assemble, stitchInit_cons]
      rw [stitchWhile_mono _ _ _ hw0 k]
    · rw [hf1.length_eq, hp1.length_eq]

theorem assemble_twoTriangleSoup : assemble 6 twoTriangleSoup = some twoTriangleCycles := by
  simp [assemble, stitchInit, stitchWhile, twoTriangleSoup, twoTriangleCycles, scanFor,
    entry, pushBackAt, Seg.swap]

/-- C1 (witness). The four sides of the square are stitched into one cycle of 4 segments,
and the six sides of two disjoint triangles into two cycles. -/
theorem C1_disjoint_cycles_stitched_witness :
    (DisjointCycles [squarePoints]
      ∧ squareSoup.Perm (([squarePoints].map cycleSegs).flatten)
      ∧ assemble 4 squareSoup = some [squareCycle]
      ∧ ∃ out, (∀ fuel, squareSoup.length ≤ fuel → assemble fuel squareSoup = some out)
          ∧ out.length = [squarePoints].length
          ∧ ∃ cs1, cs1.Perm [squarePoints] ∧ List.Forall₂ CycleOf out cs1)
    ∧ (DisjointCycles twoTrianglePoints
      ∧ twoTriangleSoup.Perm ((twoTrianglePoints.map cycleSegs).flatten)
      ∧ assemble 6 twoTriangleSoup = some twoTriangleCycles
      ∧ ∃ out, (∀ fuel, twoTriangleSoup.length ≤ fuel →
            assemble fuel twoTriangleSoup = some out)
          ∧ out.length = twoTrianglePoints.length
          ∧ ∃ cs1, cs1.Perm twoTrianglePoints ∧ List.Forall₂ CycleOf out cs1) :=
  ⟨⟨by decide, by decide, assemble_squareSoup,
      C1_disjoint_cycles_stitched [squarePoints] squareSoup (by decide) (by decide)⟩,
    ⟨by decide, by decide, assemble_twoTriangleSoup,
      C1_disjoint_cycles_stitched twoTrianglePoints twoTriangleSoup (by decide) (by decide)⟩⟩

/-! ## Machine numbers: properties -/

theorem roundNE_near (t : ℚ) : |(roundNE t : ℚ) - t| ≤ 1 / 2 := by
  have h1 := Int.floor_le t
  have h2 := Int.lt_floor_add_one t
  unfold roundNE
  rw [abs_le]
  split_ifs with a b c
  · constructor <;> linarith
  · push_cast; constructor <;> linarith
  · constructor <;> linarith
  · push_cast; constructor <;> linarith

theorem roundNE_intCast (n : Int) : roundNE (n : ℚ) = n := by
  unfold roundNE
  rw [Int.floor_intCast, sub_self, if_pos (by norm_num)]

theorem roundNE_nonneg (t : ℚ) (h : 0 ≤ t) : 0 ≤ roundNE t := by
  have h1 : 0 ≤ ⌊t⌋ := Int.floor_nonneg.mpr h
  unfold roundNE
  split_ifs <;> omega

/-- A number less than one half away from an integer is rounded to that integer. -/
theorem roundNE_eq (t : ℚ) (N : Int) (h : |t - N| < 1 / 2) : roundNE t = N := by
  rw [abs_lt] at h
  unfold roundNE
  by_cases hN : (N : ℚ) ≤ t
  · have hf : ⌊t⌋ = N := by
      rw [Int.floor_eq_iff]
      constructor <;> linarith
    rw [hf, if_pos (by linarith)]
  · have hf : ⌊t⌋ = N - 1 := by
      rw [Int.floor_eq_iff]
      push_cast
      constructor <;> linarith
    rw [hf, if_neg (by push_cast; linarith), if_pos (by push_cast; linarith)]
    ring

/-- The number of the format nearest to `q`, from the binary exponent `e` of `q` and an
integer `N` less than one half away from `q` counted in units of the last digit (for
positive `q`). -/
theorem roundTo_eq (p : Nat) (emin : Int) (q : ℚ) (e N : Int) (he : emin ≤ e)
    (h1 : 2 ^ e ≤ q) (h2 : q < 2 ^ (e + 1))
    (hN : |q / 2 ^ (e - ((p : Int) - 1)) - N| < 1 / 2) :
    roundTo p emin q = N * 2 ^ (e - ((p : Int) - 1)) := by
  have hq : 0 < q := lt_of_lt_of_le (by positivity) h1
  have hpos : 0 < |q| := abs_pos.mpr (ne_of_gt hq)
  rw [← abs_of_pos hq] at h1 h2
  have hl : Int.log 2 |q| = e := by
    apply le_antisymm
    · have : Int.log 2 |q| < e + 1 := by
        rw [← Int.lt_zpow_iff_log_lt (by norm_num) hpos]
        exact_mod_cast h2
      omega
    · rw [← Int.zpow_le_iff_le_log (by norm_num) hpos]
      exact_mod_cast h1
  unfold roundTo ulpExp
  rw [hl, max_eq_left he, roundNE_eq _ N hN]

/-- The literal `1.2` as a `double`. -/
theorem roundDouble_margin : roundDouble (12 / 10) = margin := by
  unfold roundDouble margin
  rw [roundTo_eq 53 (-1022) (12 / 10) 0 5404319552844595 (by norm_num) (by norm_num)
    (by norm_num) (by norm_num [abs_lt])]
  norm_num

/-- The literal `0.05` as a `double`, stored in a `float`. -/
theorem roundFloat_resolution : roundFloat (roundDouble (5 / 100)) = resolution := by
  have h : roundDouble (5 / 100) = 3602879701896397 / 72057594037927936 := by
    unfold roundDouble
    rw [roundTo_eq 53 (-1022) (5 / 100) (-5) 7205759403792794 (by norm_num) (by norm_num)
      (by norm_num) (by norm_num [abs_lt])]
    norm_num
  rw [h]
  unfold roundFloat resolution
  rw [roundTo_eq 24 (-126) _ (-5) 13421773 (by norm_num) (by norm_num)
    (by norm_num) (by norm_num [abs_lt])]
  norm_num

theorem roundDouble_zero : roundDouble 0 = 0 := by
  unfold roundDouble roundTo
  rw [zero_div]
  have := roundNE_intCast 0
  rw [Int.cast_zero] at this
  rw [this, Int.cast_zero, zero_mul]

theorem ulpExp_le (q : ℚ) (hq : q ≠ 0) (k : Int) (hk : -1022 ≤ k) (h : |q| < 2 ^ (k + 1)) :
    ulpExp 53 (-1022) q ≤ k - 52 := by
  have hpos : 0 < |q| := abs_pos.mpr hq
  have hl : Int.log 2 |q| < k + 1 := by
    rw [← Int.lt_zpow_iff_log_lt (by norm_num) hpos]
    exact_mod_cast h
  unfold ulpExp
  have := max_le (Int.le_of_lt_add_one hl) hk
  omega

/-- The rounding error of a `double` operation whose exact result is below `2^(k+1)` in
absolute value is at most half a unit of the last digit, `2^(k-53)`. -/
theorem roundDouble_err (q : ℚ) (k : Int) (hk : -1022 ≤ k) (h : |q| < 2 ^ (k + 1)) :
    |roundDouble q - q| ≤ 2 ^ (k - 53) := by
  by_cases hq : q = 0
  · rw [hq, roundDouble_zero, sub_self, abs_zero]
    positivity
  have hu := ulpExp_le q hq k hk h
  unfold roundDouble roundTo
  generalize ulpExp 53 (-1022) q = u at hu
  have hpos : (0 : ℚ) < 2 ^ u := by positivity
  have e : (roundNE (q / 2 ^ u) : ℚ) * 2 ^ u - q = ((roundNE (q / 2 ^ u) : ℚ) - q / 2 ^ u) * 2 ^ u := by
    field_simp
  rw [e, abs_mul, abs_of_pos hpos]
  have h1 := roundNE_near (q / 2 ^ u)
  have h2 : (2 : ℚ) ^ u ≤ 2 ^ (k - 52) := zpow_le_zpow_right₀ (by norm_num) hu
  have h3 : (2 : ℚ) ^ (k - 52) = 2 * 2 ^ (k - 53) := by
    rw [show k - 52 = (k - 53) + 1 by ring, zpow_add_one₀ (by norm_num)]
    ring
  calc |(roundNE (q / 2 ^ u) : ℚ) - q / 2 ^ u| * 2 ^ u ≤ 1 / 2 * 2 ^ u :=
        mul_le_mul_of_nonneg_right h1 (le_of_lt hpos)
    _ ≤ 1 / 2 * 2 ^ (k - 52) := by linarith
    _ = 2 ^ (k - 53) := by rw [h3]; ring

/-- A number with at most 53 binary digits above the least exponent is a `double`:
rounding leaves it as it is. -/
theorem roundDouble_exact (q : ℚ) (n : Int) (m : Nat) (hq : q = n / 2 ^ m)
    (hn : |n| < 2 ^ 53) (hm : m ≤ 1074) : roundDouble q = q := by
  by_cases h0 : q = 0
  · rw [h0, roundDouble_zero]
  have hlt : |q| < 2 ^ ((52 - (m : Int)) + 1) := by
    rw [hq, abs_div, abs_of_pos (by positivity : (0 : ℚ) < 2 ^ m)]
    rw [show (52 - (m : Int)) + 1 = 53 - m by ring, zpow_sub₀ (by norm_num), zpow_natCast]
    apply div_lt_div_of_pos_right _ (by positivity)
    have : ((|n| : Int) : ℚ) < ((2 ^ 53 : Int) : ℚ) := Int.cast_lt.mpr hn
    push_cast at this
    exact_mod_cast this
  have hu := ulpExp_le q h0 (52 - (m : Int)) (by omega) hlt
  have hg := ulpExp_ge 53 (-1022) q
  unfold roundDouble roundTo
  generalize ulpExp 53 (-1022) q = u at hu hg
  obtain ⟨j, hj⟩ : ∃ j : Nat, (-(m : Int)) = u + j := ⟨(-(m : Int) - u).toNat, by omega⟩
  have e : q / 2 ^ u = ((n * 2 ^ j : Int) : ℚ) := by
    rw [hq]
    have : (n : ℚ) / 2 ^ m = n * 2 ^ (-(m : Int)) := by
      rw [zpow_neg, zpow_natCast]; ring
    rw [this, hj, zpow_add₀ (by norm_num), zpow_natCast]
    push_cast
    field_simp
    ring
  rw [e, roundNE_intCast]
  rw [hq]
  have : (n : ℚ) / 2 ^ m = n * 2 ^ (-(m : Int)) := by
    rw [zpow_neg, zpow_natCast]; ring
  rw [this, hj, zpow_add₀ (by norm_num), zpow_natCast]
  push_cast
  ring

theorem roundDouble_nonneg (q : ℚ) (h : 0 ≤ q) : 0 ≤ roundDouble q := by
  unfold roundDouble roundTo
  have hpos : (0 : ℚ) < 2 ^ ulpExp 53 (-1022) q := by positivity
  have := roundNE_nonneg (q / 2 ^ ulpExp 53 (-1022) q) (div_nonneg h (le_of_lt hpos))
  exact mul_nonneg (by exact_mod_cast this) (le_of_lt hpos)

/-- The rounding error of a `double` operation with an exact result below `2^20`. -/
theorem roundDouble_close (q : ℚ) (h : |q| < 2 ^ 20) : |roundDouble q - q| ≤ 1 / 2 ^ 34 := by
  have := roundDouble_err q 19 (by norm_num) (by norm_num; exact h)
  norm_num at this ⊢
  exact this

/-! ## Rasterisation: properties -/

theorem resolution_pos : (0 : ℚ) < resolution := by unfold resolution; norm_num

theorem margin_pos : (0 : ℚ) < margin := by unfold margin; norm_num

theorem Run.bind_done {α β : Type} (a : α) (f : α → Run β) : (Run.done a).bind f = f a := rfl

theorem Run.bind_eq_done {α β : Type} {r : Run α} {f : α → Run β} {b : β}
    (h : r.bind f = .done b) : ∃ a, r = .done a ∧ f a = .done b := by
  cases r with
  | done a => exact ⟨a, rfl, h⟩
  | undefined => cases h
  | stuck => cases h

theorem scanY_eq (g : OccupancyGrid) (P : MY_Polygon) (x_lo y_lo : ℚ)
    (data : Run (List Int)) :
    scanY g P x_lo y_lo data =
      if y_lo < P.bbox.ymax then
        if y_lo < fadd y_lo g.resolution then
          scanY g P x_lo (fadd y_lo g.resolution) (data.bind (markCell g P x_lo y_lo))
        else (data.bind (markCell g P x_lo y_lo)).bind fun _ => .stuck
      else data := by
  rw [scanY]
  split <;> rfl

theorem scanX_eq (g : OccupancyGrid) (P : MY_Polygon) (x_lo : ℚ) (data : Run (List Int)) :
    scanX g P x_lo data =
      if x_lo < P.bbox.xmax then
        if x_lo < fadd x_lo g.resolution then
          scanX g P (fadd x_lo g.resolution)
            (scanY g P x_lo (fadd P.bbox.ymin g.resolution) data)
        else (scanY g P x_lo (fadd P.bbox.ymin g.resolution) data).bind fun _ => .stuck
      else data := by
  rw [scanX]
  split <;> rfl

/-- Induction over the iterations of a scan loop: a property of the state that one pass
of the loop body preserves, and that holds for a run caught in a loop, holds after the
loop. -/
theorem scan_induction (R : Run (List Int) → Prop) (hi s : ℚ)
    (loop : ℚ → Run (List Int) → Run (List Int))
    (body : ℚ → Run (List Int) → Run (List Int))
    (heq : ∀ lo d, loop lo d =
      if lo < hi then
        if lo < fadd lo s then loop (fadd lo s) (body lo d)
        else (body lo d).bind fun _ => .stuck
      else d)
    (hbody : ∀ lo d, R d → R (body lo d))
    (hstuck : ∀ d, R d → R (d.bind fun _ => .stuck)) :
    ∀ n lo d, stepsLeft hi lo ≤ n → R d → R (loop lo d) := by
  intro n
  induction n with
  | zero =>
    intro lo d hn hR
    rw [heq]
    by_cases h : lo < hi
    · rw [if_pos h]
      by_cases a : lo < fadd lo s
      · have := scan_measure_lt hi lo s h a
        unfold stepsLeft at hn
        omega
      · rw [if_neg a]
        exact hstuck _ (hbody _ _ hR)
    · rw [if_neg h]
      exact hR
  | succ n ih =>
    intro lo d hn hR
    rw [heq]
    by_cases h : lo < hi
    · rw [if_pos h]
      by_cases a : lo < fadd lo s
      · have hlt := scan_measure_lt hi lo s h a
        rw [if_pos a]
        refine ih _ _ ?_ (hbody _ _ hR)
        unfold stepsLeft at hn ⊢
        omega
      · rw [if_neg a]
        exact hstuck _ (hbody _ _ hR)
    · rw [if_neg h]
      exact hR

theorem scanY_induction (R : Run (List Int) → Prop) (g : OccupancyGrid) (P : MY_Polygon)
    (x_lo : ℚ) (hbody : ∀ y d, R d → R (d.bind (markCell g P x_lo y)))
    (hstuck : ∀ d, R d → R (d.bind fun _ => .stuck))
    (y_lo : ℚ) (d : Run (List Int)) (hR : R d) : R (scanY g P x_lo y_lo d) :=
  scan_induction R P.bbox.ymax g.resolution (scanY g P x_lo)
    (fun y d => d.bind (markCell g P x_lo y))
    (scanY_eq g P x_lo) hbody hstuck _ y_lo d (le_refl _) hR

theorem scanX_induction (R : Run (List Int) → Prop) (g : OccupancyGrid) (P : MY_Polygon)
    (hbody : ∀ x y d, R d → R (d.bind (markCell g P x y)))
    (hstuck : ∀ d, R d → R (d.bind fun _ => .stuck))
    (x_lo : ℚ) (d : Run (List Int)) (hR : R d) : R (scanX g P x_lo d) :=
  scan_induction R P.bbox.xmax g.resolution (scanX g P)
    (fun x d => scanY g P x (fadd P.bbox.ymin g.resolution) d)
    (scanX_eq g P) (fun x d h => scanY_induction R g P x (hbody x) hstuck _ d h) hstuck
    _ x_lo d (le_refl _) hR

theorem rasterize_induction (R : Run (List Int) → Prop) (g : OccupancyGrid)
    (hbody : ∀ (P : MY_Polygon) x y d, R d → R (d.bind (markCell g P x y)))
    (hstuck : ∀ d, R d → R (d.bind fun _ => .stuck))
    (polys : List MY_Polygon) :
    ∀ d, R d → R (rasterize g polys d) := by
  induction polys with
  | nil => intro d hR; exact hR
  | cons P rest ih =>
    intro d hR
    exact ih _ (scanX_induction R g P (hbody P) hstuck _ d hR)

theorem writeCell_done {d d1 : List Int} {i : Int} (h : writeCell d i = .done d1) :
    0 ≤ i ∧ i < d.length ∧ d1 = d.set i.toNat 100 := by
  unfold writeCell at h
  split at h
  · rename_i hc
    cases h
    exact ⟨hc.1, hc.2, rfl⟩
  · cases h

theorem markCell_done {g : OccupancyGrid} {P : MY_Polygon} {x y : ℚ} {d d1 : List Int}
    (h : markCell g P x y d = .done d1) :
    (P.inPolygon ⟨x, y⟩ = true ∧ ∃ i : Int, cellIndex g x y = .done i ∧ 0 ≤ i
        ∧ i < d.length ∧ d1 = d.set i.toNat 100)
      ∨ (¬ P.inPolygon ⟨x, y⟩ = true ∧ d1 = d) := by
  unfold markCell at h
  split at h
  · rename_i hin
    obtain ⟨i, hi, hw⟩ := Run.bind_eq_done h
    obtain ⟨h0, h1, e⟩ := writeCell_done hw
    exact Or.inl ⟨hin, i, hi, h0, h1, e⟩
  · rename_i hin
    cases h
    exact Or.inr ⟨hin, rfl⟩

/-- A property of the cells that every write of line 385 inside the buffer preserves is
preserved by the test of one point. -/
theorem markCell_preserves (Q : List Int → Prop)
    (hw : ∀ d (k : Nat), k < d.length → Q d → Q (d.set k 100))
    (g : OccupancyGrid) (P : MY_Polygon) (x y : ℚ) (d : Run (List Int))
    (h : ∀ l, d = .done l → Q l) :
    ∀ l, d.bind (markCell g P x y) = .done l → Q l := by
  intro l hl
  obtain ⟨l0, rfl, hm⟩ := Run.bind_eq_done hl
  rcases markCell_done hm with ⟨_, i, _, h0, h1, rfl⟩ | ⟨_, rfl⟩
  · refine hw _ _ ?_ (h l0 rfl)
    omega
  · exact h _ rfl

theorem stuck_preserves (Q : List Int → Prop) (d : Run (List Int)) :
    ∀ l, (d.bind fun _ => (.stuck : Run (List Int))) = .done l → Q l := by
  intro l hl
  obtain ⟨_, _, h⟩ := Run.bind_eq_done hl
  cases h

/-- A property of the cells that every write inside the buffer preserves holds for the
rasterised buffer if it holds before. -/
theorem rasterize_preserves (Q : List Int → Prop)
    (hw : ∀ d (k : Nat), k < d.length → Q d → Q (d.set k 100))
    (g : OccupancyGrid) (polys : List MY_Polygon) (d0 d1 : List Int) (h0 : Q d0)
    (h : rasterize g polys (.done d0) = .done d1) : Q d1 := by
  have := rasterize_induction (fun d => ∀ l, d = .done l → Q l) g
    (fun P x y d hd => markCell_preserves Q hw g P x y d hd)
    (fun d _ => stuck_preserves Q d) polys (.done d0)
    (fun l hl => by cases hl; exact h0)
  exact this d1 h

theorem scanY_step (g : OccupancyGrid) (P : MY_Polygon) (x_lo y_lo : ℚ)
    (data : Run (List Int)) (h : y_lo < P.bbox.ymax) (a : y_lo < fadd y_lo g.resolution) :
    scanY g P x_lo y_lo data
      = scanY g P x_lo (fadd y_lo g.resolution) (data.bind (markCell g P x_lo y_lo)) := by
  rw [scanY_eq, if_pos h, if_pos a]

theorem scanY_stop (g : OccupancyGrid) (P : MY_Polygon) (x_lo y_lo : ℚ)
    (data : Run (List Int)) (h : ¬ y_lo < P.bbox.ymax) :
    scanY g P x_lo y_lo data = data := by
  rw [scanY_eq, if_neg h]

theorem scanX_step (g : OccupancyGrid) (P : MY_Polygon) (x_lo : ℚ)
    (data : Run (List Int)) (h : x_lo < P.bbox.xmax) (a : x_lo < fadd x_lo g.resolution) :
    scanX g P x_lo data
      = scanX g P (fadd x_lo g.resolution)
          (scanY g P x_lo (fadd P.bbox.ymin g.resolution) data) := by
  rw [scanX_eq, if_pos h, if_pos a]

theorem scanX_stop (g : OccupancyGrid) (P : MY_Polygon) (x_lo : ℚ)
    (data : Run (List Int)) (h : ¬ x_lo < P.bbox.xmax) :
    scanX g P x_lo data = data := by
  rw [scanX_eq, if_neg h]

theorem markCell_inside (g : OccupancyGrid) (P : MY_Polygon) (x y : ℚ) (d : List Int)
    (h : P.inPolygon ⟨x, y⟩ = true) :
    markCell g P x y d = (cellIndex g x y).bind (writeCell d) := by
  unfold markCell
  rw [if_pos h]

theorem markCell_outside (g : OccupancyGrid) (P : MY_Polygon) (x y : ℚ) (d : List Int)
    (h : ¬ P.inPolygon ⟨x, y⟩ = true) : markCell g P x y d = .done d := by
  unfold markCell
  rw [if_neg h]

theorem getElem?_set_hundred (d : List Int) (k j : Nat) :
    (d.set k 100)[j]? = d[j]? ∨ (d.set k 100)[j]? = some 100 := by
  by_cases hkj : k = j
  · subst hkj
    by_cases hk : k < d.length
    · right; simp [hk]
    · left
      rw [List.getElem?_eq_none (by simp; omega), List.getElem?_eq_none (by omega)]
  · left
    exact List.getElem?_set_ne hkj

/-- What rasterisation does to a buffer: the length stays, and every cell either keeps
its value or becomes 100. -/
theorem rasterize_cells (g : OccupancyGrid) (polys : List MY_Polygon) (d0 d1 : List Int)
    (h : rasterize g polys (.done d0) = .done d1) :
    d1.length = d0.length ∧ ∀ k : Nat, d1[k]? = d0[k]? ∨ d1[k]? = some 100 := by
  refine rasterize_preserves
    (fun d => d.length = d0.length ∧ ∀ k : Nat, d[k]? = d0[k]? ∨ d[k]? = some 100) ?_
    g polys d0 d1 ⟨rfl, fun k => Or.inl rfl⟩ h
  intro d k _ hd
  refine ⟨by rw [List.length_set]; exact hd.1, ?_⟩
  intro j
  rcases getElem?_set_hundred d k j with e | e
  · rw [e]; exact hd.2 j
  · right; exact e

theorem allocGrid_done {b : BBox} {g : OccupancyGrid} (h : allocGrid b = .done g) :
    ∃ w h : Nat, gridSize b.xmin b.xmax = .done w ∧ gridSize b.ymin b.ymax = .done h
      ∧ g = ⟨resolution, w, h, List.replicate ((w * h) % 2 ^ 32) 0, ⟨b.xmin, b.ymin⟩⟩ := by
  unfold allocGrid at h
  obtain ⟨w, hw, h⟩ := Run.bind_eq_done h
  obtain ⟨h', hh, h⟩ := Run.bind_eq_done h
  cases h
  exact ⟨w, h', hw, hh, rfl⟩

theorem publishedGrid_done {polys : List MY_Polygon} {g : OccupancyGrid}
    (h : publishedGrid polys = .done g) :
    ∃ g0 d1, allocGrid (overallBounds (polys.map fun P => P.bbox)) = .done g0
      ∧ rasterize g0 polys (.done g0.data) = .done d1
      ∧ g = { g0 with data := d1 } := by
  unfold publishedGrid at h
  obtain ⟨g0, hg0, h⟩ := Run.bind_eq_done h
  obtain ⟨d1, hd1, h⟩ := Run.bind_eq_done h
  cases h
  exact ⟨g0, d1, hg0, hd1, rfl⟩

theorem scanY_undefined (g : OccupancyGrid) (P : MY_Polygon) (x_lo y_lo : ℚ) :
    scanY g P x_lo y_lo .undefined = .undefined :=
  scanY_induction (fun d => d = .undefined) g P x_lo (fun _ d h => by rw [h]; rfl)
    (fun d h => by rw [h]; rfl) y_lo .undefined rfl

theorem scanX_undefined (g : OccupancyGrid) (P : MY_Polygon) (x_lo : ℚ) :
    scanX g P x_lo .undefined = .undefined :=
  scanX_induction (fun d => d = .undefined) g P (fun _ _ d h => by rw [h]; rfl)
    (fun d h => by rw [h]; rfl) x_lo .undefined rfl

theorem rasterize_undefined (g : OccupancyGrid) (polys : List MY_Polygon) :
    rasterize g polys .undefined = .undefined :=
  rasterize_induction (fun d => d = .undefined) g (fun _ _ _ d h => by rw [h]; rfl)
    (fun d h => by rw [h]; rfl) polys .undefined rfl

/-- A run that has not gone through before a loop has not gone through after it. -/
theorem not_done_bind {d : Run (List Int)} (f : List Int → Run (List Int))
    (h : ∀ l, d ≠ .done l) : ∀ l, d.bind f ≠ .done l := by
  intro l hl
  obtain ⟨a, ha, _⟩ := Run.bind_eq_done hl
  exact h a ha

theorem scanY_of_done {g : OccupancyGrid} {P : MY_Polygon} {x_lo y_lo : ℚ}
    {d : Run (List Int)} {l1 : List Int} (h : scanY g P x_lo y_lo d = .done l1) :
    ∃ l, d = .done l := by
  by_contra hc
  have hn : ∀ l, d ≠ .done l := fun l hl => hc ⟨l, hl⟩
  exact scanY_induction (fun d => ∀ l, d ≠ .done l) g P x_lo
    (fun y d hd => not_done_bind _ hd) (fun d hd => not_done_bind _ hd) y_lo d hn l1 h

theorem scanX_of_done {g : OccupancyGrid} {P : MY_Polygon} {x_lo : ℚ}
    {d : Run (List Int)} {l1 : List Int} (h : scanX g P x_lo d = .done l1) :
    ∃ l, d = .done l := by
  by_contra hc
  have hn : ∀ l, d ≠ .done l := fun l hl => hc ⟨l, hl⟩
  exact scanX_induction (fun d => ∀ l, d ≠ .done l) g P
    (fun x y d hd => not_done_bind _ hd) (fun d hd => not_done_bind _ hd) x_lo d hn l1 h

theorem rasterize_of_done {g : OccupancyGrid} {polys : List MY_Polygon}
    {d : Run (List Int)} {l1 : List Int} (h : rasterize g polys d = .done l1) :
    ∃ l, d = .done l := by
  by_contra hc
  have hn : ∀ l, d ≠ .done l := fun l hl => hc ⟨l, hl⟩
  exact rasterize_induction (fun d => ∀ l, d ≠ .done l) g
    (fun P x y d hd => not_done_bind _ hd) (fun d hd => not_done_bind _ hd) polys d hn l1 h

theorem set_hundred_keeps (d : List Int) (k j : Nat) (h : d[j]? = some 100) :
    (d.set k 100)[j]? = some 100 := by
  rcases getElem?_set_hundred d k j with e | e
  · rw [e]; exact h
  · exact e

/-- A cell at 100 stays at 100 through the test of one point. -/
theorem markCell_keeps (k : Nat) (g : OccupancyGrid) (P : MY_Polygon) (x y : ℚ)
    (d : Run (List Int)) (h : ∀ l, d = .done l → l[k]? = some 100) :
    ∀ l, d.bind (markCell g P x y) = .done l → l[k]? = some 100 :=
  markCell_preserves (fun l => l[k]? = some 100)
    (fun l j _ hl => set_hundred_keeps l j k hl) g P x y d h

theorem scanY_keeps (k : Nat) (g : OccupancyGrid) (P : MY_Polygon) (x_lo y_lo : ℚ)
    (l l1 : List Int) (h : l[k]? = some 100)
    (hs : scanY g P x_lo y_lo (.done l) = .done l1) : l1[k]? = some 100 :=
  scanY_induction (fun d => ∀ l, d = .done l → l[k]? = some 100) g P x_lo
    (fun y d hd => markCell_keeps k g P x_lo y d hd)
    (fun d _ => stuck_preserves _ d) y_lo (.done l)
    (fun l0 e => by cases e; exact h) l1 hs

theorem scanX_keeps (k : Nat) (g : OccupancyGrid) (P : MY_Polygon) (x_lo : ℚ)
    (l l1 : List Int) (h : l[k]? = some 100)
    (hs : scanX g P x_lo (.done l) = .done l1) : l1[k]? = some 100 :=
  scanX_induction (fun d => ∀ l, d = .done l → l[k]? = some 100) g P
    (fun x y d hd => markCell_keeps k g P x y d hd)
    (fun d _ => stuck_preserves _ d) x_lo (.done l)
    (fun l0 e => by cases e; exact h) l1 hs

theorem rasterize_keeps (k : Nat) (g : OccupancyGrid) (polys : List MY_Polygon)
    (l l1 : List Int) (h : l[k]? = some 100)
    (hs : rasterize g polys (.done l) = .done l1) : l1[k]? = some 100 :=
  rasterize_induction (fun d => ∀ l, d = .done l → l[k]? = some 100) g
    (fun P x y d hd => markCell_keeps k g P x y d hd)
    (fun d _ => stuck_preserves _ d) polys (.done l)
    (fun l0 e => by cases e; exact h) l1 hs

/-- The test of a point inside the polygon, when it goes through, leaves 100 in the cell
with the computed index. -/
theorem markCell_marks (g : OccupancyGrid) (P : MY_Polygon) (x y : ℚ) (l l1 : List Int)
    (hin : P.inPolygon ⟨x, y⟩ = true) (h : markCell g P x y l = .done l1) :
    ∃ k : Nat, cellIndex g x y = .done (k : Int) ∧ k < l1.length ∧ l1[k]? = some 100 := by
  rcases markCell_done h with ⟨_, i, hi, h0, h1, rfl⟩ | ⟨hout, _⟩
  · refine ⟨i.toNat, ?_, ?_, ?_⟩
    · rw [Int.toNat_of_nonneg h0]; exact hi
    · rw [List.length_set]; omega
    · exact List.getElem?_set_self (by omega)
  · exact absurd hin hout

theorem stepN_zero (s x : ℚ) : stepN s 0 x = x := rfl

theorem stepN_succ (s : ℚ) (n : Nat) (x : ℚ) : stepN s (n + 1) x = stepN s n (fadd x s) := by
  unfold stepN
  exact Function.iterate_succ_apply _ n x

/-- A loop over `y_lo` that goes through came to an end by reaching the bound: at a
test point below the bound it advanced. -/
theorem scanY_done_step {g : OccupancyGrid} {P : MY_Polygon} {x_lo y_lo : ℚ}
    {d : Run (List Int)} {l1 : List Int} (hs : scanY g P x_lo y_lo d = .done l1)
    (hy : y_lo < P.bbox.ymax) :
    scanY g P x_lo (fadd y_lo g.resolution) (d.bind (markCell g P x_lo y_lo)) = .done l1 := by
  rw [scanY_eq, if_pos hy] at hs
  by_cases a : y_lo < fadd y_lo g.resolution
  · rw [if_pos a] at hs
    exact hs
  · rw [if_neg a] at hs
    exact absurd hs (by
      intro h
      obtain ⟨_, _, h⟩ := Run.bind_eq_done h
      cases h)

theorem scanX_done_step {g : OccupancyGrid} {P : MY_Polygon} {x_lo : ℚ}
    {d : Run (List Int)} {l1 : List Int} (hs : scanX g P x_lo d = .done l1)
    (hx : x_lo < P.bbox.xmax) :
    scanX g P (fadd x_lo g.resolution)
      (scanY g P x_lo (fadd P.bbox.ymin g.resolution) d) = .done l1 := by
  rw [scanX_eq, if_pos hx] at hs
  by_cases a : x_lo < fadd x_lo g.resolution
  · rw [if_pos a] at hs
    exact hs
  · rw [if_neg a] at hs
    exact absurd hs (by
      intro h
      obtain ⟨_, _, h⟩ := Run.bind_eq_done h
      cases h)

/-- The loop over `y_lo` marks the cell computed for each of its test points that lies in
the polygon. -/
theorem scanY_marks (g : OccupancyGrid) (P : MY_Polygon) (x_lo : ℚ) (j : Nat) :
    ∀ (y_lo : ℚ) (d : Run (List Int)) (l1 : List Int),
      scanY g P x_lo y_lo d = .done l1 →
      (∀ n, n ≤ j → stepN g.resolution n y_lo < P.bbox.ymax) →
      P.inPolygon ⟨x_lo, stepN g.resolution j y_lo⟩ = true →
      ∃ k : Nat, cellIndex g x_lo (stepN g.resolution j y_lo) = .done (k : Int)
        ∧ k < l1.length ∧ l1[k]? = some 100 := by
  induction j with
  | zero =>
    intro y_lo d l1 hs hy hin
    have hy0 := hy 0 (le_refl _)
    rw [stepN_zero] at hy0 hin ⊢
    have hs1 := scanY_done_step hs hy0
    obtain ⟨l, hl⟩ := scanY_of_done hs1
    rw [hl] at hs1
    obtain ⟨l0, rfl, hm⟩ := Run.bind_eq_done hl
    obtain ⟨k, hk, hlen, hget⟩ := markCell_marks g P x_lo y_lo l0 l hin hm
    have := scanY_keeps k g P x_lo _ l l1 hget hs1
    refine ⟨k, hk, ?_, this⟩
    by_contra hcon
    rw [List.getElem?_eq_none (by omega)] at this
    cases this
  | succ j ih =>
    intro y_lo d l1 hs hy hin
    have hy0 := hy 0 (Nat.zero_le _)
    rw [stepN_zero] at hy0
    rw [stepN_succ] at hin ⊢
    refine ih _ _ _ (scanY_done_step hs hy0) ?_ hin
    intro n hn
    have := hy (n + 1) (by omega)
    rw [stepN_succ] at this
    exact this

/-- The loop over `x_lo` marks the cell computed for each test point that lies in the
polygon. -/
theorem scanX_marks (g : OccupancyGrid) (P : MY_Polygon) (j : Nat) (i : Nat) :
    ∀ (x_lo : ℚ) (d : Run (List Int)) (l1 : List Int),
      scanX g P x_lo d = .done l1 →
      (∀ n, n ≤ i → stepN g.resolution n x_lo < P.bbox.xmax) →
      (∀ n, n ≤ j → testY g P n < P.bbox.ymax) →
      P.inPolygon ⟨stepN g.resolution i x_lo, testY g P j⟩ = true →
      ∃ k : Nat, cellIndex g (stepN g.resolution i x_lo) (testY g P j) = .done (k : Int)
        ∧ k < l1.length ∧ l1[k]? = some 100 := by
  induction i with
  | zero =>
    intro x_lo d l1 hs hx hy hin
    have hx0 := hx 0 (le_refl _)
    rw [stepN_zero] at hx0 hin ⊢
    have hs1 := scanX_done_step hs hx0
    obtain ⟨l, hl⟩ := scanX_of_done hs1
    rw [hl] at hs1
    obtain ⟨k, hk, hlen, hget⟩ := scanY_marks g P x_lo j _ d l hl hy hin
    have := scanX_keeps k g P _ l l1 hget hs1
    refine ⟨k, hk, ?_, this⟩
    by_contra hcon
    rw [List.getElem?_eq_none (by omega)] at this
    cases this
  | succ i ih =>
    intro x_lo d l1 hs hx hy hin
    have hx0 := hx 0 (Nat.zero_le _)
    rw [stepN_zero] at hx0
    rw [stepN_succ] at hin ⊢
    refine ih _ _ _ (scanX_done_step hs hx0) ?_ hy hin
    intro n hn
    have := hx (n + 1) (by omega)
    rw [stepN_succ] at this
    exact this

theorem rasterize_nil (g : OccupancyGrid) (d : Run (List Int)) : rasterize g [] d = d := rfl

theorem rasterize_cons (g : OccupancyGrid) (P : MY_Polygon) (rest : List MY_Polygon)
    (d : Run (List Int)) :
    rasterize g (P :: rest) d = rasterize g rest (scanX g P P.bbox.xmin d) := rfl

/-- Rasterisation marks the cell computed for each test point of each polygon that lies
in that polygon. -/
theorem rasterize_marks (g : OccupancyGrid) (P : MY_Polygon) (i j : Nat)
    (hx : ∀ n, n ≤ i → testX g P n < P.bbox.xmax)
    (hy : ∀ n, n ≤ j → testY g P n < P.bbox.ymax)
    (hin : P.inPolygon ⟨testX g P i, testY g P j⟩ = true)
    (polys : List MY_Polygon) :
    ∀ (d : Run (List Int)) (l1 : List Int), P ∈ polys → rasterize g polys d = .done l1 →
      ∃ k : Nat, cellIndex g (testX g P i) (testY g P j) = .done (k : Int)
        ∧ k < l1.length ∧ l1[k]? = some 100 := by
  induction polys with
  | nil => intro d l1 hP; simp at hP
  | cons P0 rest ih =>
    intro d l1 hP hs
    rw [rasterize_cons] at hs
    rcases List.mem_cons.mp hP with rfl | hP
    · obtain ⟨l, hl⟩ := rasterize_of_done hs
      rw [hl] at hs
      obtain ⟨k, hk, hlen, hget⟩ := scanX_marks g P j i _ d l hl hx hy hin
      have := rasterize_keeps k g rest l l1 hget hs
      refine ⟨k, hk, ?_, this⟩
      by_contra hcon
      rw [List.getElem?_eq_none (by omega)] at this
      cases this
    · exact ih _ _ hP hs

/-! ## Evaluation at given numbers -/

/-- Bounds for a rounded result from bounds for the exact result. -/
theorem roundDouble_between (q lo hi : ℚ) (hlo : -(2 ^ 20) < lo) (hhi : hi < 2 ^ 20)
    (h1 : lo + 1 / 2 ^ 34 ≤ q) (h2 : q + 1 / 2 ^ 34 ≤ hi) :
    lo ≤ roundDouble q ∧ roundDouble q ≤ hi := by
  have hq : |q| < 2 ^ 20 := by
    rw [abs_lt]
    constructor <;> nlinarith
  have := roundDouble_close q hq
  rw [abs_le] at this
  constructor <;> linarith

theorem truncate_of_nonneg (q : ℚ) (h : 0 ≤ q) : truncate q = ⌊q⌋ := by
  unfold truncate
  rw [if_pos h]

/-- Conversion to `int` of a `double` between the integer `n` and `n + 1`. -/
theorem toInt_floor (q : ℚ) (n : Int) (h0 : 0 ≤ n) (hn : n < 2 ^ 31) (h1 : (n : ℚ) ≤ q)
    (h2 : q < n + 1) : toInt q = .done n := by
  have hq : (0 : ℚ) ≤ q := le_trans (by exact_mod_cast h0) h1
  have hf : ⌊q⌋ = n := by
    rw [Int.floor_eq_iff]
    exact ⟨h1, h2⟩
  unfold toInt
  rw [truncate_of_nonneg q hq, hf, if_pos ⟨by omega, hn⟩]

theorem toUInt32_natCast (n : Nat) (hn : n < 2 ^ 32) : toUInt32 (n : Int) = n := by
  unfold toUInt32
  omega

theorem gridSize_eq (lo hi : ℚ) (n : Nat) (hn : n < 2 ^ 32)
    (h : toInt (fdiv (fmul (fsub hi lo) margin) resolution) = .done (n : Int)) :
    gridSize lo hi = .done n := by
  unfold gridSize
  rw [h]
  show Run.done (toUInt32 (n : Int)) = Run.done n
  rw [toUInt32_natCast n hn]

theorem fadd_exact (a b : ℚ) (n : Int) (m : Nat) (hq : a + b = n / 2 ^ m)
    (hn : |n| < 2 ^ 53) (hm : m ≤ 1074) : fadd a b = a + b :=
  roundDouble_exact (a + b) n m hq hn hm

theorem fsub_exact (a b : ℚ) (n : Int) (m : Nat) (hq : a - b = n / 2 ^ m)
    (hn : |n| < 2 ^ 53) (hm : m ≤ 1074) : fsub a b = a - b :=
  roundDouble_exact (a - b) n m hq hn hm

theorem fmul_exact (a b : ℚ) (n : Int) (m : Nat) (hq : a * b = n / 2 ^ m)
    (hn : |n| < 2 ^ 53) (hm : m ≤ 1074) : fmul a b = a * b :=
  roundDouble_exact (a * b) n m hq hn hm

theorem fdiv_exact (a b : ℚ) (n : Int) (m : Nat) (hq : a / b = n / 2 ^ m)
    (hn : |n| < 2 ^ 53) (hm : m ≤ 1074) : fdiv a b = a / b :=
  roundDouble_exact (a / b) n m hq hn hm

theorem fsub_zero (a : ℚ) (n : Int) (m : Nat) (hq : a = n / 2 ^ m)
    (hn : |n| < 2 ^ 53) (hm : m ≤ 1074) : fsub a 0 = a := by
  rw [fsub_exact a 0 n m (by rw [sub_zero]; exact hq) hn hm, sub_zero]

theorem overallBounds_single (b : BBox) (hx : b.xmin < DBL_MAX) (hy : b.ymin < DBL_MAX)
    (hX : b.xmax > DBL_MIN) (hY : b.ymax > DBL_MIN) : overallBounds [b] = b := by
  simp [overallBounds, boundsInit, boundsStep, hx, hy, hX, hY]

theorem DBL_MAX_gt : (4097 : ℚ) < DBL_MAX := by unfold DBL_MAX; norm_num

theorem DBL_MIN_lt : DBL_MIN < 1 / 1000 := by unfold DBL_MIN; norm_num

theorem div_resolution (c : ℚ) : c / resolution = c * (268435456 / 13421773) := by
  unfold resolution
  field_simp

/-- The `double` nearest to a number below `2^19` in absolute value lies within `2^(-34)`
of it. -/
theorem roundDouble_decimal (q : ℚ) (h1 : -(2 ^ 19) < q) (h2 : q < 2 ^ 19) :
    q - 1 / 2 ^ 34 ≤ roundDouble q ∧ roundDouble q ≤ q + 1 / 2 ^ 34 :=
  roundDouble_between q _ _ (by norm_num at h1 ⊢; linarith) (by norm_num at h2 ⊢; linarith)
    (by linarith) (by linarith)

/-- Conversion to `int` of a rounded result whose exact value lies between the integers
`n` and `n + 1`, away from both. -/
theorem toInt_roundDouble (q : ℚ) (n : Int) (h0 : 0 ≤ n) (hn : n < 2 ^ 19)
    (h1 : (n : ℚ) + 1 / 2 ^ 34 ≤ q) (h2 : q + 1 / 2 ^ 33 ≤ n + 1) :
    toInt (roundDouble q) = .done n := by
  have hn' : (n : ℚ) < 2 ^ 19 := by exact_mod_cast hn
  have h0' : (0 : ℚ) ≤ n := by exact_mod_cast h0
  have h := roundDouble_between q n (n + 1 - 1 / 2 ^ 34) (by linarith)
    (by norm_num at hn' ⊢; linarith) h1 (by norm_num at h2 ⊢; linarith)
  exact toInt_floor _ n h0 (by omega) h.1 (by have := h.2; norm_num at this ⊢; linarith)

/-- A bounding box without extent in one direction has size 0 in that direction. -/
theorem gridSize_self (lo : ℚ) : gridSize lo lo = .done 0 := by
  apply gridSize_eq lo lo 0 (by norm_num)
  unfold fsub
  rw [sub_self, roundDouble_zero]
  unfold fmul
  rw [zero_mul, roundDouble_zero]
  unfold fdiv
  rw [zero_div, roundDouble_zero]
  exact toInt_floor 0 0 (le_refl _) (by norm_num) (by norm_num) (by norm_num)

theorem publishedGrid_pointPolygon :
    publishedGrid [pointPolygon] = .done ⟨resolution, 0, 0, [], ⟨1, 1⟩⟩ := by
  have h1 := DBL_MAX_gt
  have h2 := DBL_MIN_lt
  have hb : overallBounds ([pointPolygon].map fun P => P.bbox) = ⟨1, 1, 1, 1⟩ :=
    overallBounds_single ⟨1, 1, 1, 1⟩ (by simp only []; linarith)
      (by simp only []; linarith) (by simp only [gt_iff_lt]; linarith)
      (by simp only [gt_iff_lt]; linarith)
  have ha : allocGrid ⟨1, 1, 1, 1⟩ = .done ⟨resolution, 0, 0, [], ⟨1, 1⟩⟩ := by
    unfold allocGrid
    simp only [gridSize_self, Run.bind]
    rfl
  have hP : pointPolygon.bbox = ⟨1, 1, 1, 1⟩ := rfl
  have hr : rasterize ⟨resolution, 0, 0, [], ⟨1, 1⟩⟩ [pointPolygon] (.done [])
      = .done [] := by
    rw [rasterize_cons, rasterize_nil]
    rw [scanX_stop _ _ _ _ (by rw [hP]; norm_num)]
  unfold publishedGrid
  rw [hb, ha, Run.bind_done]
  simp only []
  rw [hr, Run.bind_done]

/-- One step of the resolution from 0. -/
theorem fadd_zero_resolution : fadd 0 resolution = resolution := by
  rw [fadd_exact 0 resolution 13421773 28 (by norm_num [resolution]) (by norm_num)
    (by norm_num), zero_add]

/-- Two steps of the resolution from 0. -/
theorem fadd_resolution_resolution : fadd resolution resolution = 2 * resolution := by
  rw [fadd_exact resolution resolution 13421773 27 (by norm_num [resolution]) (by norm_num)
    (by norm_num)]
  ring

theorem fsub_resolution_zero : fsub resolution 0 = resolution :=
  fsub_zero resolution 13421773 28 (by norm_num [resolution]) (by norm_num) (by norm_num)

/-- The quotient of a small whole multiple of the resolution by the resolution. -/
theorem fdiv_mul_resolution (k : Nat) (hk : k < 2 ^ 20) :
    fdiv (k * resolution) resolution = k := by
  have hr := resolution_pos
  have e : (k : ℚ) * resolution / resolution = k := by field_simp
  rw [fdiv_exact (k * resolution) resolution k 0 (by rw [e]; norm_num)
    (by
      have : ((k : Int)) < 2 ^ 20 := by exact_mod_cast hk
      rw [abs_of_nonneg (by omega)]
      omega) (by norm_num), e]

/-- The product of a small whole number and the resolution. -/
theorem fmul_natCast_resolution (k : Nat) (hk : k < 2 ^ 20) :
    fmul k resolution = k * resolution := by
  refine fmul_exact k resolution (k * 13421773) 28 (by unfold resolution; push_cast; ring)
    ?_ (by norm_num)
  have : ((k : Int)) < 2 ^ 20 := by exact_mod_cast hk
  rw [abs_of_nonneg (by omega)]
  omega

/-- The sum of two small whole numbers. -/
theorem fadd_natCast (a b : Nat) (ha : a < 2 ^ 40) (hb : b < 2 ^ 40) :
    fadd a b = ((a + b : Nat) : ℚ) := by
  rw [fadd_exact a b (a + b) 0 (by push_cast; ring)
    (by
      have h1 : ((a : Int)) < 2 ^ 40 := by exact_mod_cast ha
      have h2 : ((b : Int)) < 2 ^ 40 := by exact_mod_cast hb
      rw [abs_of_nonneg (by omega)]
      omega) (by norm_num)]
  push_cast
  ring

theorem toInt_natCast (n : Nat) (hn : n < 2 ^ 31) : toInt (n : ℚ) = .done (n : Int) :=
  toInt_floor _ n (by omega) (by exact_mod_cast hn) (by push_cast; exact le_refl _)
    (by push_cast; linarith)

/-- Line 384 for a test point that lies `i` steps right of and `j` steps above the origin
of the grid, both counted in whole steps of the resolution: the index is `i + width*j`. -/
theorem cellIndex_grid (g : OccupancyGrid) (i j : Nat) (hres : g.resolution = resolution)
    (hi : i < 2 ^ 20) (hj : j < 2 ^ 10) (hw : g.width < 2 ^ 10) (x y : ℚ)
    (hx : fsub x g.origin.x = i * resolution) (hy : fsub y g.origin.y = j * resolution) :
    cellIndex g x y = .done ((i + g.width * j : Nat) : Int) := by
  have hwj : g.width * j < 2 ^ 20 := by
    calc g.width * j < 2 ^ 10 * 2 ^ 10 := Nat.mul_lt_mul'' hw hj
      _ = 2 ^ 20 := by norm_num
  unfold cellIndex
  rw [hx, hy, hres, fdiv_mul_resolution i hi]
  have e : fmul (g.width : ℚ) (j * resolution) = ((g.width * j : Nat) : ℚ) * resolution := by
    have := fmul_natCast_resolution (g.width * j) hwj
    unfold fmul at this ⊢
    rw [show (g.width : ℚ) * (j * resolution) = ((g.width * j : Nat) : ℚ) * resolution by
      push_cast; ring]
    exact this
  rw [e, fdiv_mul_resolution _ hwj, fadd_natCast i (g.width * j) (by omega) (by omega)]
  exact toInt_natCast _ (by omega)

/-- The size computed for a bounding box whose exact size `(hi-lo)*margin/resolution` lies
between `n` and `n + 1`, at least `2^(-24)` away from both. -/
theorem gridSize_of_bounds (lo hi : ℚ) (n : Nat) (hn : n < 2 ^ 19)
    (h1 : (n : ℚ) + 1 / 2 ^ 24 ≤ (hi - lo) * margin / resolution)
    (h2 : (hi - lo) * margin / resolution + 1 / 2 ^ 24 ≤ n + 1) :
    gridSize lo hi = .done n := by
  have hn0 : (0 : ℚ) ≤ n := Nat.cast_nonneg n
  rw [div_resolution] at h1 h2
  unfold margin at h1 h2
  norm_num at h1 h2
  have hn' : (n : ℚ) < 524288 := by exact_mod_cast hn
  obtain ⟨ha1, ha2⟩ := roundDouble_between (hi - lo) (hi - lo - 1 / 2 ^ 34)
    (hi - lo + 1 / 2 ^ 34) (by norm_num; linarith) (by norm_num; linarith) (by linarith)
    (by linarith)
  norm_num at ha1 ha2
  obtain ⟨hc1, hc2⟩ := roundDouble_between (roundDouble (hi - lo) * margin)
    (roundDouble (hi - lo) * margin - 1 / 2 ^ 34) (roundDouble (hi - lo) * margin + 1 / 2 ^ 34)
    (by unfold margin; norm_num; linarith)
    (by unfold margin; norm_num; linarith) (by linarith) (by linarith)
  unfold margin at hc1 hc2
  norm_num at hc1 hc2
  apply gridSize_eq lo hi n (by omega)
  unfold fdiv fmul fsub
  refine toInt_roundDouble _ n (by omega) (by exact_mod_cast hn) ?_ ?_
  · rw [div_resolution]
    unfold margin
    norm_num
    linarith
  · rw [div_resolution]
    unfold margin
    norm_num
    linarith

theorem gridSize_one : gridSize 0 1 = .done 23 :=
  gridSize_of_bounds 0 1 23 (by norm_num) (by norm_num [margin, resolution])
    (by norm_num [margin, resolution])

theorem gridSize_lowBox : gridSize 0 (roundDouble (3 / 40)) = .done 1 := by
  obtain ⟨b1, b2⟩ := roundDouble_decimal (3 / 40) (by norm_num) (by norm_num)
  refine gridSize_of_bounds 0 _ 1 (by norm_num) ?_ ?_
  · rw [div_resolution]; unfold margin; norm_num at b1 ⊢; linarith
  · rw [div_resolution]; unfold margin; norm_num at b2 ⊢; linarith

theorem gridSize_far : gridSize 0 (4096 + 1 / 64) = .done 98304 :=
  gridSize_of_bounds 0 (4096 + 1 / 64) 98304 (by norm_num) (by norm_num [margin, resolution])
    (by norm_num [margin, resolution])

theorem gridSize_offset_x : gridSize 0 (roundDouble (13 / 100)) = .done 3 := by
  obtain ⟨b1, b2⟩ := roundDouble_decimal (13 / 100) (by norm_num) (by norm_num)
  refine gridSize_of_bounds 0 _ 3 (by norm_num) ?_ ?_
  · rw [div_resolution]; unfold margin; norm_num at b1 ⊢; linarith
  · rw [div_resolution]; unfold margin; norm_num at b2 ⊢; linarith

theorem gridSize_offset_y : gridSize 0 (roundDouble (12 / 100)) = .done 2 := by
  obtain ⟨b1, b2⟩ := roundDouble_decimal (12 / 100) (by norm_num) (by norm_num)
  refine gridSize_of_bounds 0 _ 2 (by norm_num) ?_ ?_
  · rw [div_resolution]; unfold margin; norm_num at b1 ⊢; linarith
  · rw [div_resolution]; unfold margin; norm_num at b2 ⊢; linarith

theorem gridSize_two : gridSize 0 2 = .done 47 :=
  gridSize_of_bounds 0 2 47 (by norm_num) (by norm_num [margin, resolution])
    (by norm_num [margin, resolution])

theorem gridSize_smallSquare : gridSize 0 (3 / 32) = .done 2 :=
  gridSize_of_bounds 0 (3 / 32) 2 (by norm_num) (by norm_num [margin, resolution])
    (by norm_num [margin, resolution])

theorem allocGrid_squareBox :
    allocGrid squareBox = .done ⟨resolution, 47, 47, List.replicate 2209 0, ⟨0, 0⟩⟩ := by
  unfold allocGrid squareBox
  simp only [gridSize_two, Run.bind_done]
  rfl

theorem allocGrid_smallSquare :
    allocGrid ⟨0, 3 / 32, 0, 3 / 32⟩ = .done ⟨resolution, 2, 2, [0, 0, 0, 0], ⟨0, 0⟩⟩ := by
  unfold allocGrid
  simp only [gridSize_smallSquare, Run.bind]
  rfl

theorem overallBounds_smallSquare :
    overallBounds ([smallSquare].map fun P => P.bbox) = ⟨0, 3 / 32, 0, 3 / 32⟩ := by
  have h1 := DBL_MAX_gt
  have h2 := DBL_MIN_lt
  exact overallBounds_single ⟨0, 3 / 32, 0, 3 / 32⟩ (by simp only []; linarith)
    (by simp only []; linarith) (by simp only [gt_iff_lt]; linarith)
    (by simp only [gt_iff_lt]; linarith)

theorem cellIndex_smallSquare :
    cellIndex ⟨resolution, 2, 2, [0, 0, 0, 0], ⟨0, 0⟩⟩ resolution resolution = .done 3 :=
  cellIndex_grid ⟨resolution, 2, 2, [0, 0, 0, 0], ⟨0, 0⟩⟩ 1 1 rfl (by norm_num)
    (by norm_num) (by norm_num) resolution resolution
    (by rw [fsub_resolution_zero]; norm_num) (by rw [fsub_resolution_zero]; norm_num)

theorem rasterize_smallSquare :
    rasterize ⟨resolution, 2, 2, [0, 0, 0, 0], ⟨0, 0⟩⟩ [smallSquare] (.done [0, 0, 0, 0])
      = .done [0, 0, 0, 100] := by
  have hP : smallSquare.bbox = ⟨0, 3 / 32, 0, 3 / 32⟩ := rfl
  have e1 := fadd_zero_resolution
  have e2 := fadd_resolution_resolution
  have r0 : (0 : ℚ) < resolution := resolution_pos
  have r1 : resolution < 3 / 32 := by unfold resolution; norm_num
  have r2 : ¬ 2 * resolution < 3 / 32 := by unfold resolution; norm_num
  have r3 : resolution < 2 * resolution := by linarith
  rw [rasterize_cons, rasterize_nil]
  simp only [hP]
  rw [scanX_step _ _ _ _ (by simp only [hP]; norm_num) (by simp only [e1]; exact r0)]
  simp only [hP, e1]
  rw [scanY_step _ _ _ _ _ (by simp only [hP]; exact r1) (by simp only [e2]; exact r3)]
  simp only [e2]
  rw [scanY_stop _ _ _ _ _ (by simp only [hP]; exact r2)]
  rw [Run.bind, markCell_outside _ _ _ _ _
    (by simp [smallSquare, boxPolygon, insideBox])]
  rw [scanX_step _ _ _ _ (by simp only [hP]; exact r1) (by simp only [e2]; exact r3)]
  simp only [hP, e1, e2]
  rw [scanY_step _ _ _ _ _ (by simp only [hP]; exact r1) (by simp only [e2]; exact r3)]
  simp only [e2]
  rw [scanY_stop _ _ _ _ _ (by simp only [hP]; exact r2)]
  rw [scanX_stop _ _ _ _ (by simp only [hP]; exact r2)]
  rw [Run.bind, markCell_inside _ _ _ _ _
    (by simp [smallSquare, boxPolygon, insideBox, r0, r1])]
  rw [cellIndex_smallSquare]
  rfl

theorem publishedGrid_smallSquare : publishedGrid [smallSquare] = .done smallGrid := by
  unfold publishedGrid
  rw [overallBounds_smallSquare, allocGrid_smallSquare, Run.bind_done]
  simp only []
  rw [rasterize_smallSquare, Run.bind_done]
  rfl

/-- The `double` nearest to `0.075` lies between one and two steps of the resolution. -/
theorem resolution_lt_lowBox :
    resolution < roundDouble (3 / 40) ∧ ¬ 2 * resolution < roundDouble (3 / 40) := by
  obtain ⟨b1, b2⟩ := roundDouble_decimal (3 / 40) (by norm_num) (by norm_num)
  unfold resolution
  norm_num at b1 b2 ⊢
  constructor <;> linarith

theorem overallBounds_lowBox : overallBounds [lowBox] = lowBox := by
  have h1 := DBL_MAX_gt
  have h2 := DBL_MIN_lt
  have h3 := resolution_lt_lowBox.1
  have h4 := resolution_pos
  exact overallBounds_single lowBox (by simp only [lowBox]; linarith)
    (by simp only [lowBox]; linarith) (by simp only [lowBox, gt_iff_lt]; linarith)
    (by
      simp only [lowBox, gt_iff_lt]
      have : (1 / 1000 : ℚ) < resolution := by unfold resolution; norm_num
      linarith)

theorem allocGrid_lowBox : allocGrid lowBox = .done lowGrid := by
  unfold allocGrid lowBox
  simp only [gridSize_one, gridSize_lowBox, Run.bind_done]
  rfl

theorem cellIndex_lowGrid : cellIndex lowGrid resolution resolution = .done 24 :=
  cellIndex_grid lowGrid 1 1 rfl (by norm_num) (by norm_num) (by norm_num [lowGrid])
    resolution resolution
    (by simp only [lowGrid]; rw [fsub_resolution_zero]; norm_num)
    (by simp only [lowGrid]; rw [fsub_resolution_zero]; norm_num)

theorem writeCell_undefined (d : List Int) (i : Int) (h : (d.length : Int) ≤ i) :
    writeCell d i = .undefined := by
  unfold writeCell
  rw [if_neg]
  omega

theorem toInt_ne_stuck (q : ℚ) : toInt q ≠ .stuck := by
  unfold toInt
  split <;> simp

/-- The test of one point either goes through, leaving the length of the buffer as it is,
or has no defined behaviour. -/
theorem markCell_cases (g : OccupancyGrid) (P : MY_Polygon) (x y : ℚ) (l : List Int) :
    (∃ l1, markCell g P x y l = .done l1 ∧ l1.length = l.length)
      ∨ markCell g P x y l = .undefined := by
  cases h : markCell g P x y l with
  | done l1 =>
    left
    refine ⟨l1, rfl, ?_⟩
    rcases markCell_done h with ⟨_, i, _, _, _, rfl⟩ | ⟨_, rfl⟩
    · rw [List.length_set]
    · rfl
  | undefined => right; rfl
  | stuck =>
    exfalso
    unfold markCell at h
    split at h
    · cases hc : cellIndex g x y with
      | done i =>
        rw [hc, Run.bind_done] at h
        unfold writeCell at h
        split at h <;> cases h
      | undefined => rw [hc] at h; cases h
      | stuck => exact toInt_ne_stuck _ hc
    · cases h

theorem rasterize_lowBox (inP : Point → Bool) (hin : inP ⟨resolution, resolution⟩ = true) :
    rasterize lowGrid [⟨lowBox, inP⟩] (.done lowGrid.data) = .undefined := by
  have hx0 : lowBox.xmin = 0 := rfl
  have hx1 : lowBox.xmax = 1 := rfl
  have hy0 : lowBox.ymin = 0 := rfl
  have hy1 : lowBox.ymax = roundDouble (3 / 40) := rfl
  have hg : lowGrid.resolution = resolution := rfl
  have e1 := fadd_zero_resolution
  have e2 := fadd_resolution_resolution
  have r0 : (0 : ℚ) < resolution := resolution_pos
  have r1 : resolution < roundDouble (3 / 40) := resolution_lt_lowBox.1
  have r2 : ¬ 2 * resolution < roundDouble (3 / 40) := resolution_lt_lowBox.2
  have r3 : resolution < 2 * resolution := by linarith
  have r4 : resolution < 1 := by unfold resolution; norm_num
  rw [rasterize_cons, rasterize_nil]
  simp only [hx0, hx1, hy0, hy1]
  rw [scanX_step _ _ _ _ (by simp only [hx0, hx1]; norm_num) (by simp only [hg, e1]; exact r0)]
  simp only [hx0, hx1, hy0, hy1, hg, e1]
  rw [scanY_step _ _ _ _ _ (by simp only [hy1]; exact r1) (by simp only [hg, e2]; exact r3)]
  simp only [hg, e2]
  rw [scanY_stop _ _ _ _ _ (by simp only [hy1]; exact r2)]
  rw [scanX_step _ _ _ _ (by simp only [hx1]; exact r4) (by simp only [hg, e2]; exact r3)]
  simp only [hx0, hx1, hy0, hy1, hg, e1, e2]
  rw [scanY_step _ _ _ _ _ (by simp only [hy1]; exact r1) (by simp only [hg, e2]; exact r3)]
  simp only [hg, e2]
  rw [scanY_stop _ _ _ _ _ (by simp only [hy1]; exact r2)]
  have hund : ((Run.done lowGrid.data).bind
      (markCell lowGrid ⟨lowBox, inP⟩ 0 resolution)).bind
      (markCell lowGrid ⟨lowBox, inP⟩ resolution resolution) = .undefined := by
    rw [Run.bind_done]
    rcases markCell_cases lowGrid ⟨lowBox, inP⟩ 0 resolution lowGrid.data with
      ⟨l, hl, hlen⟩ | hu
    · rw [hl, Run.bind_done, markCell_inside _ _ _ _ _ hin, cellIndex_lowGrid, Run.bind_done]
      apply writeCell_undefined
      rw [hlen]
      simp [lowGrid]
    · rw [hu]
      rfl
  rw [hund, scanX_undefined]

theorem fadd_far_resolution : fadd 4096 resolution = 4096 + resolution :=
  fadd_exact 4096 resolution 1099525049549 28 (by norm_num [resolution]) (by norm_num)
    (by norm_num)

theorem overallBounds_far :
    overallBounds ([farSquareA, farSquareB].map fun P => P.bbox)
      = ⟨0, 4096 + 1 / 64, 0, 4096 + 1 / 64⟩ := by
  have h1 := DBL_MAX_gt
  have h2 := DBL_MIN_lt
  have a1 : (0 : ℚ) < DBL_MAX := by linarith
  have a2 : (4096 : ℚ) < DBL_MAX := by linarith
  have a3 : (1 / 64 : ℚ) > DBL_MIN := by simp only [gt_iff_lt]; linarith
  have a4 : (4096 + 1 / 64 : ℚ) > DBL_MIN := by simp only [gt_iff_lt]; linarith
  simp only [overallBounds, boundsInit, boundsStep, farSquareA, farSquareB, boxPolygon,
    List.map_cons, List.map_nil, List.foldl_cons, List.foldl_nil, if_pos a1, if_pos a2,
    if_pos a3, if_pos a4]
  norm_num

theorem allocGrid_far : allocGrid ⟨0, 4096 + 1 / 64, 0, 4096 + 1 / 64⟩ = .done farGrid := by
  unfold allocGrid
  simp only [gridSize_far, Run.bind_done]
  have : 98304 * 98304 % 2 ^ 32 = 1073741824 := by norm_num
  rw [this]
  rfl

/-- Neither of the two far squares has a test point: the first value of `y_lo` is not
below `bbox.ymax`. -/
theorem rasterize_far (g : OccupancyGrid) (hg : g.resolution = resolution)
    (d : Run (List Int)) : rasterize g [farSquareA, farSquareB] d = d := by
  have ax0 : farSquareA.bbox.xmin = 0 := rfl
  have ax1 : farSquareA.bbox.xmax = 1 / 64 := rfl
  have ay0 : farSquareA.bbox.ymin = 4096 := rfl
  have ay1 : farSquareA.bbox.ymax = 4096 + 1 / 64 := rfl
  have bx0 : farSquareB.bbox.xmin = 4096 := rfl
  have bx1 : farSquareB.bbox.xmax = 4096 + 1 / 64 := rfl
  have by0 : farSquareB.bbox.ymin = 0 := rfl
  have by1 : farSquareB.bbox.ymax = 1 / 64 := rfl
  have e1 := fadd_zero_resolution
  have e2 := fadd_far_resolution
  have r0 : (0 : ℚ) < resolution := resolution_pos
  have r1 : ¬ resolution < 1 / 64 := by unfold resolution; norm_num
  have r2 : ¬ 4096 + resolution < 4096 + 1 / 64 := by unfold resolution; norm_num
  have r3 : (4096 : ℚ) < 4096 + resolution := by linarith
  rw [rasterize_cons, rasterize_cons, rasterize_nil]
  simp only [ax0, bx0]
  rw [scanX_step _ _ _ _ (by simp only [bx1]; norm_num) (by simp only [hg, e2]; exact r3)]
  simp only [by0, hg, e1, e2]
  rw [scanY_stop _ _ _ _ _ (by simp only [by1]; exact r1)]
  rw [scanX_stop _ _ _ _ (by simp only [bx1]; exact r2)]
  rw [scanX_step _ _ _ _ (by simp only [ax1]; norm_num) (by simp only [hg, e1]; exact r0)]
  simp only [ay0, hg, e1, e2]
  rw [scanY_stop _ _ _ _ _ (by simp only [ay1]; exact r2)]
  rw [scanX_stop _ _ _ _ (by simp only [ax1]; exact r1)]

theorem publishedGrid_far : publishedGrid [farSquareA, farSquareB] = .done farGrid := by
  unfold publishedGrid
  rw [overallBounds_far, allocGrid_far, Run.bind_done, rasterize_far farGrid rfl,
    Run.bind_done]

/-- The `double`s nearest to the decimal coordinates of `sliver` and `offsetBox` lie within
`2^(-34)` of them. -/
theorem offset_coordinates :
    (13 / 100 - 1 / 2 ^ 34 ≤ roundDouble (13 / 100)
        ∧ roundDouble (13 / 100) ≤ 13 / 100 + 1 / 2 ^ 34)
      ∧ (1 / 100 - 1 / 2 ^ 34 ≤ roundDouble (1 / 100)
        ∧ roundDouble (1 / 100) ≤ 1 / 100 + 1 / 2 ^ 34)
      ∧ (1 / 10 - 1 / 2 ^ 34 ≤ roundDouble (1 / 10)
        ∧ roundDouble (1 / 10) ≤ 1 / 10 + 1 / 2 ^ 34)
      ∧ (25 / 1000 - 1 / 2 ^ 34 ≤ roundDouble (25 / 1000)
        ∧ roundDouble (25 / 1000) ≤ 25 / 1000 + 1 / 2 ^ 34)
      ∧ (12 / 100 - 1 / 2 ^ 34 ≤ roundDouble (12 / 100)
        ∧ roundDouble (12 / 100) ≤ 12 / 100 + 1 / 2 ^ 34) :=
  ⟨roundDouble_decimal _ (by norm_num) (by norm_num),
    roundDouble_decimal _ (by norm_num) (by norm_num),
    roundDouble_decimal _ (by norm_num) (by norm_num),
    roundDouble_decimal _ (by norm_num) (by norm_num),
    roundDouble_decimal _ (by norm_num) (by norm_num)⟩

theorem overallBounds_offset :
    overallBounds ([sliver, offsetBox].map fun P => P.bbox)
      = ⟨0, roundDouble (13 / 100), 0, roundDouble (12 / 100)⟩ := by
  obtain ⟨⟨p1, p2⟩, ⟨q1, q2⟩, ⟨s1, s2⟩, ⟨t1, t2⟩, ⟨u1, u2⟩⟩ := offset_coordinates
  norm_num at p1 p2 q1 q2 s1 s2 t1 t2 u1 u2
  have h1 := DBL_MAX_gt
  have h2 := DBL_MIN_lt
  have a1 : (0 : ℚ) < DBL_MAX := by linarith
  have a2 : roundDouble (13 / 100) > DBL_MIN := by simp only [gt_iff_lt]; linarith
  have a3 : roundDouble (1 / 100) > DBL_MIN := by simp only [gt_iff_lt]; linarith
  have a4 : roundDouble (12 / 100) > roundDouble (1 / 100) := by
    simp only [gt_iff_lt]; linarith
  have n1 : ¬ roundDouble (1 / 100) < 0 := by linarith
  have n2 : ¬ roundDouble (1 / 10) > roundDouble (13 / 100) := by
    simp only [gt_iff_lt]; linarith
  have n3 : ¬ roundDouble (25 / 1000) < 0 := by linarith
  simp only [overallBounds, boundsInit, boundsStep, sliver, offsetBox, boxPolygon,
    List.map_cons, List.map_nil, List.foldl_cons, List.foldl_nil, if_pos a1, if_pos a2,
    if_pos a3, if_pos a4, if_neg n1, if_neg n2, if_neg n3]

theorem allocGrid_offset :
    allocGrid ⟨0, roundDouble (13 / 100), 0, roundDouble (12 / 100)⟩ = .done offsetGrid := by
  unfold allocGrid
  simp only [gridSize_offset_x, gridSize_offset_y, Run.bind_done]
  rfl

theorem fadd_two_resolution : fadd (2 * resolution) resolution = 3 * resolution := by
  rw [fadd_exact (2 * resolution) resolution 40265319 28 (by norm_num [resolution])
    (by norm_num) (by norm_num)]
  ring

/-- The value of `x_lo` at the second test point of `offsetBox`: a little more than
`0.06`. -/
theorem testX_offset :
    6 / 100 + 5 / 10 ^ 10 ≤ fadd (roundDouble (1 / 100)) resolution
      ∧ fadd (roundDouble (1 / 100)) resolution ≤ 6 / 100 + 9 / 10 ^ 10 := by
  obtain ⟨_, ⟨q1, q2⟩, _⟩ := offset_coordinates
  norm_num at q1 q2
  exact roundDouble_between (roundDouble (1 / 100) + resolution) _ _ (by norm_num)
    (by norm_num) (by unfold resolution; norm_num; linarith)
    (by unfold resolution; norm_num; linarith)

/-- The value of `y_lo` at the first test point of `offsetBox`: a little more than
`0.075`. -/
theorem testY_offset :
    75 / 1000 + 5 / 10 ^ 10 ≤ fadd (roundDouble (25 / 1000)) resolution
      ∧ fadd (roundDouble (25 / 1000)) resolution ≤ 75 / 1000 + 9 / 10 ^ 10 := by
  obtain ⟨_, _, _, ⟨t1, t2⟩, _⟩ := offset_coordinates
  norm_num at t1 t2
  exact roundDouble_between (roundDouble (25 / 1000) + resolution) _ _ (by norm_num)
    (by norm_num) (by unfold resolution; norm_num; linarith)
    (by unfold resolution; norm_num; linarith)

theorem cellIndex_offset :
    cellIndex offsetGrid (fadd (roundDouble (1 / 100)) resolution)
      (fadd (roundDouble (25 / 1000)) resolution) = .done 5 := by
  obtain ⟨x1, x2⟩ := testX_offset
  obtain ⟨y1, y2⟩ := testY_offset
  have hg : offsetGrid.resolution = resolution := rfl
  have hox : offsetGrid.origin.x = 0 := rfl
  have hoy : offsetGrid.origin.y = 0 := rfl
  have hw : ((offsetGrid.width : Nat) : ℚ) = 3 := by norm_num [offsetGrid]
  unfold cellIndex
  rw [hg, hox, hoy, hw]
  generalize fadd (roundDouble (1 / 100)) resolution = X at x1 x2 ⊢
  generalize fadd (roundDouble (25 / 1000)) resolution = Y at y1 y2 ⊢
  norm_num at x1 x2 y1 y2
  have hfx : fsub X 0 = roundDouble X := by unfold fsub; rw [sub_zero]
  have hfy : fsub Y 0 = roundDouble Y := by unfold fsub; rw [sub_zero]
  rw [hfx, hfy]
  obtain ⟨a1, a2⟩ := roundDouble_between X (59 / 1000) (61 / 1000) (by norm_num)
    (by norm_num) (by norm_num; linarith) (by norm_num; linarith)
  obtain ⟨b1, b2⟩ := roundDouble_between Y (74 / 1000) (76 / 1000) (by norm_num)
    (by norm_num) (by norm_num; linarith) (by norm_num; linarith)
  norm_num at a1 a2 b1 b2
  obtain ⟨c1, c2⟩ := roundDouble_between (roundDouble X / resolution) (115 / 100) (125 / 100)
    (by norm_num) (by norm_num)
    (by rw [div_resolution]; norm_num; linarith)
    (by rw [div_resolution]; norm_num; linarith)
  obtain ⟨d1, d2⟩ := roundDouble_between (3 * roundDouble Y) (22 / 100) (23 / 100)
    (by norm_num) (by norm_num)
    (by norm_num; linarith) (by norm_num; linarith)
  norm_num at c1 c2 d1 d2
  obtain ⟨f1, f2⟩ := roundDouble_between (roundDouble (3 * roundDouble Y) / resolution)
    (43 / 10) (47 / 10) (by norm_num) (by norm_num)
    (by rw [div_resolution]; norm_num; linarith)
    (by rw [div_resolution]; norm_num; linarith)
  norm_num at f1 f2
  obtain ⟨s1, s2⟩ := roundDouble_between
    (roundDouble (roundDouble X / resolution)
      + roundDouble (roundDouble (3 * roundDouble Y) / resolution)) (54 / 10) (6 - 1 / 100)
    (by norm_num) (by norm_num)
    (by norm_num; linarith) (by norm_num; linarith)
  unfold fadd fdiv fmul
  exact toInt_floor _ 5 (by norm_num) (by norm_num)
    (by norm_num at s1 ⊢; linarith) (by norm_num at s2 ⊢; linarith)

theorem rasterize_offset :
    rasterize offsetGrid [sliver, offsetBox] (.done [0, 0, 0, 0, 0, 0])
      = .done [0, 0, 0, 0, 0, 100] := by
  obtain ⟨⟨p1, p2⟩, ⟨q1, q2⟩, ⟨s1, s2⟩, ⟨t1, t2⟩, ⟨u1, u2⟩⟩ := offset_coordinates
  norm_num at p1 p2 q1 q2 s1 s2 t1 t2 u1 u2
  obtain ⟨x1, x2⟩ := testX_offset
  obtain ⟨y1, y2⟩ := testY_offset
  norm_num at x1 x2 y1 y2
  have hg : offsetGrid.resolution = resolution := rfl
  have sx0 : sliver.bbox.xmin = 0 := rfl
  have sx1 : sliver.bbox.xmax = roundDouble (13 / 100) := rfl
  have sy0 : sliver.bbox.ymin = 0 := rfl
  have sy1 : sliver.bbox.ymax = roundDouble (1 / 100) := rfl
  have bx0 : offsetBox.bbox.xmin = roundDouble (1 / 100) := rfl
  have bx1 : offsetBox.bbox.xmax = roundDouble (1 / 10) := rfl
  have by0 : offsetBox.bbox.ymin = roundDouble (25 / 1000) := rfl
  have by1 : offsetBox.bbox.ymax = roundDouble (12 / 100) := rfl
  have e1 := fadd_zero_resolution
  have e2 := fadd_resolution_resolution
  have e3 := fadd_two_resolution
  have r7 : (5 / 100 : ℚ) < resolution := by unfold resolution; norm_num
  have r8 : resolution < 5 / 100 + 1 / 10 ^ 9 := by unfold resolution; norm_num
  norm_num at r7 r8
  have r0 : (0 : ℚ) < resolution := resolution_pos
  have r1 : ¬ resolution < roundDouble (1 / 100) := by linarith
  have r2 : resolution < roundDouble (13 / 100) := by linarith
  have r3 : 2 * resolution < roundDouble (13 / 100) := by linarith
  have r4 : ¬ 3 * resolution < roundDouble (13 / 100) := by linarith
  have r5 : resolution < 2 * resolution := by linarith
  have r6 : 2 * resolution < 3 * resolution := by linarith
  obtain ⟨x3, x4⟩ := roundDouble_between (fadd (roundDouble (1 / 100)) resolution + resolution)
    (109 / 1000) (111 / 1000) (by norm_num) (by norm_num)
    (by norm_num; linarith) (by norm_num; linarith)
  obtain ⟨y3, y4⟩ := roundDouble_between
    (fadd (roundDouble (25 / 1000)) resolution + resolution)
    (124 / 1000) (126 / 1000) (by norm_num) (by norm_num)
    (by norm_num; linarith) (by norm_num; linarith)
  have hx3 : (109 / 1000 : ℚ) ≤ fadd (fadd (roundDouble (1 / 100)) resolution) resolution := x3
  have hy3 : (124 / 1000 : ℚ) ≤ fadd (fadd (roundDouble (25 / 1000)) resolution) resolution :=
    y3
  norm_num at hx3 hy3
  rw [rasterize_cons, rasterize_cons, rasterize_nil]
  simp only [sx0, bx0]
  -- the polygon `offsetBox`
  rw [scanX_step _ _ _ _ (by simp only [bx1]; linarith) (by simp only [hg]; linarith)]
  simp only [by0, hg]
  rw [scanY_step _ _ _ _ _ (by simp only [by1]; linarith) (by simp only [hg]; linarith)]
  simp only [hg]
  rw [scanY_stop _ _ _ _ _ (by simp only [by1]; linarith)]
  rw [scanX_step _ _ _ _ (by simp only [bx1]; linarith) (by simp only [hg]; linarith)]
  simp only [by0, hg]
  rw [scanY_step _ _ _ _ _ (by simp only [by1]; linarith) (by simp only [hg]; linarith)]
  simp only [hg]
  rw [scanY_stop _ _ _ _ _ (by simp only [by1]; linarith)]
  rw [scanX_stop _ _ _ _ (by simp only [bx1]; linarith)]
  -- the polygon `sliver`
  rw [scanX_step _ _ _ _ (by simp only [sx1]; linarith) (by simp only [hg, e1]; exact r0)]
  simp only [sy0, hg, e1]
  rw [scanY_stop _ _ _ _ _ (by simp only [sy1]; exact r1)]
  rw [scanX_step _ _ _ _ (by simp only [sx1]; exact r2) (by simp only [hg, e2]; exact r5)]
  simp only [sy0, hg, e1, e2]
  rw [scanY_stop _ _ _ _ _ (by simp only [sy1]; exact r1)]
  rw [scanX_step _ _ _ _ (by simp only [sx1]; exact r3) (by simp only [hg, e3]; exact r6)]
  simp only [sy0, hg, e1, e3]
  rw [scanY_stop _ _ _ _ _ (by simp only [sy1]; exact r1)]
  rw [scanX_stop _ _ _ _ (by simp only [sx1]; exact r4)]
  -- the two test points of `offsetBox`
  rw [Run.bind_done, markCell_outside _ _ _ _ _
    (by simp [offsetBox, boxPolygon, insideBox])]
  rw [Run.bind_done, markCell_inside _ _ _ _ _
    (by
      simp only [offsetBox, boxPolygon, insideBox, decide_eq_true_eq]
      refine ⟨?_, ?_, ?_, ?_⟩ <;> linarith)]
  rw [cellIndex_offset, Run.bind_done]
  rfl

theorem publishedGrid_offset :
    publishedGrid [sliver, offsetBox]
      = .done ⟨resolution, 3, 2, [0, 0, 0, 0, 0, 100], ⟨0, 0⟩⟩ := by
  unfold publishedGrid
  rw [overallBounds_offset, allocGrid_offset, Run.bind_done]
  have h := rasterize_offset
  simp only [offsetGrid] at h ⊢
  rw [h, Run.bind_done]

/-! ## Grid allocation -/

theorem fdiv_nonneg_of (lo hi : ℚ) (h : lo ≤ hi) :
    0 ≤ fdiv (fmul (fsub hi lo) margin) resolution := by
  have h1 : 0 ≤ fsub hi lo := roundDouble_nonneg _ (by linarith)
  have h2 : 0 ≤ fmul (fsub hi lo) margin :=
    roundDouble_nonneg _ (mul_nonneg h1 (le_of_lt margin_pos))
  exact roundDouble_nonneg _ (div_nonneg h2 (le_of_lt resolution_pos))

/-- The size computed for bounds in the right order that stays below `2^31`: the double
quotient, rounded down. -/
theorem gridSize_floor (lo hi : ℚ) (h : lo ≤ hi)
    (hq : fdiv (fmul (fsub hi lo) margin) resolution < 2 ^ 31) :
    ∃ n : Nat, gridSize lo hi = .done n
      ∧ (n : Int) = ⌊fdiv (fmul (fsub hi lo) margin) resolution⌋ := by
  have h0 := fdiv_nonneg_of lo hi h
  unfold gridSize
  generalize fdiv (fmul (fsub hi lo) margin) resolution = Q at hq h0 ⊢
  have hf0 : 0 ≤ ⌊Q⌋ := Int.floor_nonneg.mpr h0
  have hf1 : ⌊Q⌋ < 2 ^ 31 := by
    rw [Int.floor_lt]
    exact_mod_cast hq
  have ht : toInt Q = .done ⌊Q⌋ := by
    unfold toInt
    rw [truncate_of_nonneg Q h0, if_pos ⟨by omega, hf1⟩]
  refine ⟨⌊Q⌋.toNat, ?_, Int.toNat_of_nonneg hf0⟩
  rw [ht, Run.bind_done]
  congr 1
  unfold toUInt32
  omega

/-- The double quotient computed for bounds less than `2^15` apart lies less than 1 below
the exact value of `(hi-lo)*1.2/0.05`, and not above it unless both are below 1. -/
theorem quotient_near_formula (lo hi : ℚ) (h0 : lo ≤ hi) (h1 : hi - lo < 2 ^ 15) :
    (hi - lo) * (12 / 10) / (5 / 100) - 1 < fdiv (fmul (fsub hi lo) margin) resolution
      ∧ (1 / 100 ≤ hi - lo →
          fdiv (fmul (fsub hi lo) margin) resolution ≤ (hi - lo) * (12 / 10) / (5 / 100))
      ∧ (hi - lo < 1 / 100 → fdiv (fmul (fsub hi lo) margin) resolution < 1)
      ∧ fdiv (fmul (fsub hi lo) margin) resolution < 2 ^ 31 := by
  have hE : (0 : ℚ) ≤ hi - lo := by linarith
  norm_num at h1
  unfold fdiv fmul fsub
  rw [div_resolution]
  obtain ⟨a1, a2⟩ := roundDouble_between (hi - lo) (hi - lo - 1 / 2 ^ 34)
    (hi - lo + 1 / 2 ^ 34) (by norm_num; linarith) (by norm_num; linarith) (by linarith)
    (by linarith)
  norm_num at a1 a2
  obtain ⟨c1, c2⟩ := roundDouble_between (roundDouble (hi - lo) * margin)
    (roundDouble (hi - lo) * margin - 1 / 2 ^ 34) (roundDouble (hi - lo) * margin + 1 / 2 ^ 34)
    (by unfold margin; norm_num; linarith)
    (by unfold margin; norm_num; linarith) (by linarith) (by linarith)
  obtain ⟨q1, q2⟩ := roundDouble_between
    (roundDouble (roundDouble (hi - lo) * margin) * (268435456 / 13421773))
    (roundDouble (roundDouble (hi - lo) * margin) * (268435456 / 13421773) - 1 / 2 ^ 34)
    (roundDouble (roundDouble (hi - lo) * margin) * (268435456 / 13421773) + 1 / 2 ^ 34)
    (by unfold margin at c1 c2 ⊢; norm_num at c1 c2 ⊢; linarith)
    (by unfold margin at c1 c2 ⊢; norm_num at c1 c2 ⊢; linarith) (by linarith) (by linarith)
  generalize roundDouble (roundDouble (roundDouble (hi - lo) * margin) * (268435456 / 13421773))
    = Q at q1 q2 ⊢
  generalize roundDouble (roundDouble (hi - lo) * margin) = c at c1 c2 q1 q2
  generalize roundDouble (hi - lo) = a at a1 a2 c1 c2
  unfold margin at c1 c2
  norm_num at c1 c2 q1 q2
  refine ⟨?_, ?_, ?_, ?_⟩
  · norm_num
    linarith
  · intro h
    norm_num at h ⊢
    linarith
  · intro h
    linarith
  · norm_num
    linarith

/-- The size computed for bounds in the right order less than `2^15` apart is the integer
part of `(hi-lo)*1.2/0.05`, or one less. -/
theorem gridSize_near_formula (lo hi : ℚ) (h0 : lo ≤ hi) (h1 : hi - lo < 2 ^ 15) (n : Nat)
    (hn : (n : Int) = ⌊fdiv (fmul (fsub hi lo) margin) resolution⌋) :
    (n : Int) = ⌊(hi - lo) * (12 / 10) / (5 / 100)⌋
      ∨ (n : Int) + 1 = ⌊(hi - lo) * (12 / 10) / (5 / 100)⌋ := by
  obtain ⟨b1, b2, b3, _⟩ := quotient_near_formula lo hi h0 h1
  have hQ := fdiv_nonneg_of lo hi h0
  generalize fdiv (fmul (fsub hi lo) margin) resolution = Q at hn b1 b2 b3 hQ
  have hE : (0 : ℚ) ≤ (hi - lo) * (12 / 10) / (5 / 100) := by
    have : (0 : ℚ) ≤ hi - lo := by linarith
    positivity
  generalize (hi - lo) * (12 / 10) / (5 / 100) = F at b1 b2 hE
  have hF0 : 0 ≤ ⌊F⌋ := Int.floor_nonneg.mpr hE
  have lower : ⌊F⌋ - 1 ≤ ⌊Q⌋ := by
    rw [Int.le_floor]
    push_cast
    have := Int.floor_le F
    linarith
  have upper : ⌊Q⌋ ≤ ⌊F⌋ := by
    by_cases h : 1 / 100 ≤ hi - lo
    · exact Int.floor_mono (b2 h)
    · have hq1 : ⌊Q⌋ = 0 := by
        rw [Int.floor_eq_iff]
        exact ⟨by simpa using hQ, by simpa using b3 (lt_of_not_le h)⟩
      omega
  omega

theorem quotient_squareBox : fdiv (fmul (fsub 2 0) margin) resolution < 2 ^ 31 :=
  (quotient_near_formula 0 2 (by norm_num) (by norm_num)).2.2.2

/-- C10 (as stated, refuted). For the bounding box of the square `(0,0),(2,0),(2,2),(0,2)`
the allocated grid is 47 cells wide and 47 cells high and has 2209 cells, where the formula
of the claim, `floor((xmax-xmin)*1.2/0.05)`, gives 48.  For the bounding box from `(0,0)` to
`(4096 + 1/64, 4096 + 1/64)` the grid is 98304 cells wide and 98304 cells high and the
cell buffer has `2^30` cells, not `98304 * 98304`. -/
theorem C10_square_counterexample :
    allocGrid squareBox = .done ⟨resolution, 47, 47, List.replicate 2209 0, ⟨0, 0⟩⟩
      ∧ ⌊(squareBox.xmax - squareBox.xmin) * (12 / 10 : ℚ) / (5 / 100)⌋ = 48
      ∧ ⌊(squareBox.ymax - squareBox.ymin) * (12 / 10 : ℚ) / (5 / 100)⌋ = 48
      ∧ allocGrid ⟨0, 4096 + 1 / 64, 0, 4096 + 1 / 64⟩
          = .done ⟨resolution, 98304, 98304, List.replicate 1073741824 0, ⟨0, 0⟩⟩
      ∧ (List.replicate 1073741824 (0 : Int)).length ≠ 98304 * 98304 := by
  refine ⟨allocGrid_squareBox, ?_, ?_, allocGrid_far, ?_⟩
  · simp only [squareBox]
    norm_num
  · simp only [squareBox]
    norm_num
  · rw [List.length_replicate]
    norm_num

/-- C10 (amended). For every overall bounding box with `xmax ≥ xmin` and `ymax ≥ ymin`
whose sizes stay below `2^31`, the grid is allocated with width `floor(Qx)` and height
`floor(Qy)`, where `Qx` is the value that `double` arithmetic gives for
`(xmax-xmin)*1.2/resolution` and `resolution` is the `float` nearest to `0.05`; for an
extent below `2^15` this is `floor((xmax-xmin)*1.2/0.05)` or one less.  The origin is
`(xmin, ymin)`, and the cell buffer has `width*height mod 2^32` cells, all equal to 0. -/
theorem C10_grid_allocated (b : BBox) (hx : b.xmin ≤ b.xmax) (hy : b.ymin ≤ b.ymax)
    (hw : fdiv (fmul (fsub b.xmax b.xmin) margin) resolution < 2 ^ 31)
    (hh : fdiv (fmul (fsub b.ymax b.ymin) margin) resolution < 2 ^ 31) :
    ∃ g, allocGrid b = .done g
      ∧ (g.width : Int) = ⌊fdiv (fmul (fsub b.xmax b.xmin) margin) resolution⌋
      ∧ (g.height : Int) = ⌊fdiv (fmul (fsub b.ymax b.ymin) margin) resolution⌋
      ∧ (b.xmax - b.xmin < 2 ^ 15 →
          (g.width : Int) = ⌊(b.xmax - b.xmin) * (12 / 10) / (5 / 100)⌋
            ∨ (g.width : Int) + 1 = ⌊(b.xmax - b.xmin) * (12 / 10) / (5 / 100)⌋)
      ∧ (b.ymax - b.ymin < 2 ^ 15 →
          (g.height : Int) = ⌊(b.ymax - b.ymin) * (12 / 10) / (5 / 100)⌋
            ∨ (g.height : Int) + 1 = ⌊(b.ymax - b.ymin) * (12 / 10) / (5 / 100)⌋)
      ∧ g.resolution = resolution
      ∧ g.origin = ⟨b.xmin, b.ymin⟩
      ∧ g.data.length = (g.width * g.height) % 2 ^ 32
      ∧ ∀ c, c ∈ g.data → c = 0 := by
  obtain ⟨w, hgw, hwf⟩ := gridSize_floor b.xmin b.xmax hx hw
  obtain ⟨h, hgh, hhf⟩ := gridSize_floor b.ymin b.ymax hy hh
  refine ⟨⟨resolution, w, h, List.replicate ((w * h) % 2 ^ 32) 0, ⟨b.xmin, b.ymin⟩⟩,
    ?_, hwf, hhf, ?_, ?_, rfl, rfl, ?_, ?_⟩
  · unfold allocGrid
    rw [hgw, Run.bind_done, hgh, Run.bind_done]
  · intro hs
    exact gridSize_near_formula b.xmin b.xmax hx hs w hwf
  · intro hs
    exact gridSize_near_formula b.ymin b.ymax hy hs h hhf
  · exact List.length_replicate _ _
  · intro c hc
    exact List.eq_of_mem_replicate hc

/-- C10 (witness). The bounding box of the square `(0,0),(2,0),(2,2),(0,2)`, whose extent
2 is below `2^15`. -/
theorem C10_grid_allocated_witness :
    ∃ g, allocGrid squareBox = .done g
      ∧ (g.width : Int)
          = ⌊fdiv (fmul (fsub squareBox.xmax squareBox.xmin) margin) resolution⌋
      ∧ (g.height : Int)
          = ⌊fdiv (fmul (fsub squareBox.ymax squareBox.ymin) margin) resolution⌋
      ∧ ((g.width : Int) = ⌊(squareBox.xmax - squareBox.xmin) * (12 / 10) / (5 / 100)⌋
          ∨ (g.width : Int) + 1
              = ⌊(squareBox.xmax - squareBox.xmin) * (12 / 10) / (5 / 100)⌋)
      ∧ ((g.height : Int) = ⌊(squareBox.ymax - squareBox.ymin) * (12 / 10) / (5 / 100)⌋
          ∨ (g.height : Int) + 1
              = ⌊(squareBox.ymax - squareBox.ymin) * (12 / 10) / (5 / 100)⌋)
      ∧ g.resolution = resolution
      ∧ g.origin = ⟨squareBox.xmin, squareBox.ymin⟩
      ∧ g.data.length = (g.width * g.height) % 2 ^ 32
      ∧ ∀ c, c ∈ g.data → c = 0 := by
  obtain ⟨g, h1, h2, h3, h4, h5, h6, h7, h8, h9⟩ :=
    C10_grid_allocated squareBox (by simp only [squareBox]; norm_num)
      (by simp only [squareBox]; norm_num) quotient_squareBox quotient_squareBox
  exact ⟨g, h1, h2, h3, h4 (by simp only [squareBox]; norm_num),
    h5 (by simp only [squareBox]; norm_num), h6, h7, h8, h9⟩

theorem overallBounds_pointPolygon :
    overallBounds ([pointPolygon].map fun P => P.bbox) = ⟨1, 1, 1, 1⟩ := by
  have h1 := DBL_MAX_gt
  have h2 := DBL_MIN_lt
  exact overallBounds_single ⟨1, 1, 1, 1⟩ (by simp only []; linarith)
    (by simp only []; linarith) (by simp only [gt_iff_lt]; linarith)
    (by simp only [gt_iff_lt]; linarith)

/-- C11 (as stated, refuted). For a polygon without extent the computed width and height
are 0; no failure is reported: a grid with an empty cell buffer is allocated, the
rasterisation loops run, and the grid is published. -/
theorem C11_zero_extent_counterexample :
    publishedGrid [pointPolygon] = .done ⟨resolution, 0, 0, [], ⟨1, 1⟩⟩
      ∧ allocGrid (overallBounds ([pointPolygon].map fun P => P.bbox))
          = .done ⟨resolution, 0, 0, [], ⟨1, 1⟩⟩ := by
  refine ⟨publishedGrid_pointPolygon, ?_⟩
  rw [overallBounds_pointPolygon]
  unfold allocGrid
  simp only [gridSize_self, Run.bind_done]
  rfl

/-- The size computed for bounds in the right order whose distance is less than
`0.05/1.2` is zero. -/
theorem gridSize_small (lo hi : ℚ) (h0 : lo ≤ hi) (h1 : (hi - lo) * (12 / 10) < 5 / 100) :
    gridSize lo hi = .done 0 := by
  have hs : hi - lo < 2 ^ 15 := by norm_num; linarith
  obtain ⟨_, _, _, hq⟩ := quotient_near_formula lo hi h0 hs
  obtain ⟨n, hn, hf⟩ := gridSize_floor lo hi h0 hq
  have hF : ⌊(hi - lo) * (12 / 10) / (5 / 100)⌋ = 0 := by
    rw [Int.floor_eq_iff]
    have : (0 : ℚ) ≤ hi - lo := by linarith
    constructor
    · norm_num; linarith
    · norm_num at h1 ⊢; linarith
  have := gridSize_near_formula lo hi h0 hs n hf
  rw [hF] at this
  have hn0 : n = 0 := by omega
  rw [hn, hn0]

/-- C11 (amended). Grid allocation has no failure result.  Whenever the width or the
height computed for the overall bounding box `b` of the polygons is zero, the grid is
allocated with a cell buffer of length 0, and what the run comes to is what the
rasterisation loops come to on this empty buffer.  The size computed for bounds in the
right order that are less than `0.05/1.2` apart is zero; so it is for a bounding box with
`xmax = xmin` or `ymax = ymin`. -/
theorem C11_zero_size_allocated (polys : List MY_Polygon) (b : BBox) (w h : Nat)
    (hb : overallBounds (polys.map fun P => P.bbox) = b)
    (hw : gridSize b.xmin b.xmax = .done w) (hh : gridSize b.ymin b.ymax = .done h)
    (hz : w = 0 ∨ h = 0) :
    allocGrid b = .done ⟨resolution, w, h, [], ⟨b.xmin, b.ymin⟩⟩
      ∧ publishedGrid polys
          = (rasterize ⟨resolution, w, h, [], ⟨b.xmin, b.ymin⟩⟩ polys (.done [])).bind
              (fun d => .done ⟨resolution, w, h, d, ⟨b.xmin, b.ymin⟩⟩)
      ∧ (∀ lo hi : ℚ, lo ≤ hi → (hi - lo) * (12 / 10) < 5 / 100 →
          gridSize lo hi = .done 0) := by
  have hn : (w * h) % 2 ^ 32 = 0 := by
    rcases hz with e | e
    · rw [e, zero_mul]; rfl
    · rw [e, mul_zero]; rfl
  have ha : allocGrid b = .done ⟨resolution, w, h, [], ⟨b.xmin, b.ymin⟩⟩ := by
    unfold allocGrid
    rw [hw, Run.bind_done, hh, Run.bind_done, hn]
    rfl
  refine ⟨ha, ?_, gridSize_small⟩
  unfold publishedGrid
  rw [hb, ha, Run.bind_done]

/-- C11 (witness). A polygon without extent. -/
theorem C11_zero_size_allocated_witness :
    allocGrid ⟨1, 1, 1, 1⟩ = .done ⟨resolution, 0, 0, [], ⟨1, 1⟩⟩
      ∧ publishedGrid [pointPolygon]
          = (rasterize ⟨resolution, 0, 0, [], ⟨1, 1⟩⟩ [pointPolygon] (.done [])).bind
              (fun d => .done ⟨resolution, 0, 0, d, ⟨1, 1⟩⟩)
      ∧ gridSize 1 (1 + 1 / 32) = .done 0 :=
  ⟨(C11_zero_size_allocated [pointPolygon] ⟨1, 1, 1, 1⟩ 0 0 overallBounds_pointPolygon
      (gridSize_self 1) (gridSize_self 1) (Or.inl rfl)).1,
    (C11_zero_size_allocated [pointPolygon] ⟨1, 1, 1, 1⟩ 0 0 overallBounds_pointPolygon
      (gridSize_self 1) (gridSize_self 1) (Or.inl rfl)).2.1,
    (C11_zero_size_allocated [pointPolygon] ⟨1, 1, 1, 1⟩ 0 0 overallBounds_pointPolygon
      (gridSize_self 1) (gridSize_self 1) (Or.inl rfl)).2.2 1 (1 + 1 / 32) (by norm_num)
      (by norm_num)⟩

/-! ## The rasterised grid -/

/-- C12 (as stated, refuted). For the square of side `3/32` the grid is 2 cells wide and 2
cells high; the centres of the cells 0, 1 and 2 lie inside the square, and after
rasterisation these cells are 0: only cell 3 is 100. -/
theorem C12_square_counterexample :
    publishedGrid [smallSquare] = .done smallGrid
      ∧ smallGrid.width = 2 ∧ smallGrid.height = 2
      ∧ smallSquare.inPolygon (cellCenter smallGrid 0 0) = true
      ∧ smallSquare.inPolygon (cellCenter smallGrid 1 0) = true
      ∧ smallSquare.inPolygon (cellCenter smallGrid 0 1) = true
      ∧ smallGrid.data[0 + smallGrid.width * 0]? = some 0
      ∧ smallGrid.data[1 + smallGrid.width * 0]? = some 0
      ∧ smallGrid.data[0 + smallGrid.width * 1]? = some 0 := by
  refine ⟨publishedGrid_smallSquare, rfl, rfl, ?_, ?_, ?_, rfl, rfl, rfl⟩
  · simp [smallSquare, boxPolygon, insideBox, cellCenter, smallGrid, resolution]; norm_num
  · simp [smallSquare, boxPolygon, insideBox, cellCenter, smallGrid, resolution]; norm_num
  · simp [smallSquare, boxPolygon, insideBox, cellCenter, smallGrid, resolution]; norm_num

/-- C12 (amended). For every run that publishes a grid, every polygon and every point
that the loops of lines 376-378 test for this polygon (`x_lo` from `bbox.xmin` and `y_lo`
from `bbox.ymin` plus the resolution, each advanced by the resolution as long as it is
below `bbox.xmax` and `bbox.ymax`): if the point lies in the polygon, the index computed
for it at line 384 is an index of the cell array, and the cell with this index is 100 in
the published grid. -/
theorem C12_test_points_marked (polys : List MY_Polygon) (g : OccupancyGrid)
    (P : MY_Polygon) (i j : Nat)
    (hrun : publishedGrid polys = .done g) (hP : P ∈ polys)
    (hx : ∀ n, n ≤ i → testX g P n < P.bbox.xmax)
    (hy : ∀ n, n ≤ j → testY g P n < P.bbox.ymax)
    (hin : P.inPolygon ⟨testX g P i, testY g P j⟩ = true) :
    ∃ k : Nat, cellIndex g (testX g P i) (testY g P j) = .done (k : Int)
      ∧ k < g.data.length ∧ g.data[k]? = some 100 := by
  obtain ⟨g0, d1, _, hr, rfl⟩ := publishedGrid_done hrun
  exact rasterize_marks g0 P i j hx hy hin polys (.done g0.data) d1 hP hr

theorem testX_smallSquare (n : Nat) (hn : n ≤ 1) :
    testX smallGrid smallSquare n < smallSquare.bbox.xmax := by
  have r1 : resolution < 3 / 32 := by unfold resolution; norm_num
  have h0 : testX smallGrid smallSquare 0 = 0 := rfl
  have h1 : testX smallGrid smallSquare 1 = fadd 0 resolution := rfl
  have hb : smallSquare.bbox.xmax = 3 / 32 := rfl
  rw [hb]
  interval_cases n
  · rw [h0]; norm_num
  · rw [h1, fadd_zero_resolution]; exact r1

theorem testY_smallSquare (n : Nat) (hn : n ≤ 0) :
    testY smallGrid smallSquare n < smallSquare.bbox.ymax := by
  have r1 : resolution < 3 / 32 := by unfold resolution; norm_num
  have h0 : testY smallGrid smallSquare 0 = fadd 0 resolution := rfl
  have hb : smallSquare.bbox.ymax = 3 / 32 := rfl
  rw [hb]
  interval_cases n
  rw [h0, fadd_zero_resolution]; exact r1

theorem inPolygon_smallSquare :
    smallSquare.inPolygon ⟨testX smallGrid smallSquare 1, testY smallGrid smallSquare 0⟩
      = true := by
  have r0 : (0 : ℚ) < resolution := resolution_pos
  have r1 : resolution < 3 / 32 := by unfold resolution; norm_num
  have h1 : testX smallGrid smallSquare 1 = fadd 0 resolution := rfl
  have h0 : testY smallGrid smallSquare 0 = fadd 0 resolution := rfl
  rw [h1, h0, fadd_zero_resolution]
  simp [smallSquare, boxPolygon, insideBox, r0, r1]

/-- C12 (witness). The test point `(resolution, resolution)` of the square of side
`3/32`. -/
theorem C12_test_points_marked_witness :
    ∃ k : Nat, cellIndex smallGrid (testX smallGrid smallSquare 1)
        (testY smallGrid smallSquare 0) = .done (k : Int)
      ∧ k < smallGrid.data.length ∧ smallGrid.data[k]? = some 100 :=
  C12_test_points_marked [smallSquare] smallGrid smallSquare 1 0 publishedGrid_smallSquare
    (List.mem_singleton.mpr rfl) testX_smallSquare testY_smallSquare inPolygon_smallSquare

/-- C13 (failing input). For the polygons `sliver` and `offsetBox` the grid has origin
`(0,0)` and is 3 cells wide and 2 cells high.  The second value of `x_lo` and the first
value of `y_lo` for `offsetBox` give a test point a little right of and above
`(0.06, 0.075)`, which lies in `offsetBox`, in column 1 and row 1 of the grid, the cell
with index `1 + 3*1 = 4`; the index computed at line 384 is 5, and after rasterisation
cell 5 is 100 and cell 4 is 0. -/
theorem C13_offset_index_failing_input :
    publishedGrid [sliver, offsetBox]
        = .done ⟨resolution, 3, 2, [0, 0, 0, 0, 0, 100], ⟨0, 0⟩⟩
      ∧ allocGrid (overallBounds ([sliver, offsetBox].map fun P => P.bbox)) = .done offsetGrid
      ∧ testX offsetGrid offsetBox 0 < offsetBox.bbox.xmax
      ∧ testX offsetGrid offsetBox 1 < offsetBox.bbox.xmax
      ∧ testY offsetGrid offsetBox 0 < offsetBox.bbox.ymax
      ∧ 6 / 100 < testX offsetGrid offsetBox 1
      ∧ testX offsetGrid offsetBox 1 < 6 / 100 + 1 / 10 ^ 9
      ∧ 75 / 1000 < testY offsetGrid offsetBox 0
      ∧ testY offsetGrid offsetBox 0 < 75 / 1000 + 1 / 10 ^ 9
      ∧ offsetBox.inPolygon ⟨testX offsetGrid offsetBox 1, testY offsetGrid offsetBox 0⟩
          = true
      ∧ cellIndex offsetGrid (testX offsetGrid offsetBox 1) (testY offsetGrid offsetBox 0)
          = .done 5
      ∧ ⌊(testX offsetGrid offsetBox 1 - offsetGrid.origin.x) / offsetGrid.resolution⌋
          + offsetGrid.width
            * ⌊(testY offsetGrid offsetBox 0 - offsetGrid.origin.y) / offsetGrid.resolution⌋
          = 4 := by
  obtain ⟨⟨p1, p2⟩, ⟨q1, q2⟩, ⟨s1, s2⟩, ⟨t1, t2⟩, ⟨u1, u2⟩⟩ := offset_coordinates
  norm_num at p1 p2 q1 q2 s1 s2 t1 t2 u1 u2
  obtain ⟨x1, x2⟩ := testX_offset
  obtain ⟨y1, y2⟩ := testY_offset
  norm_num at x1 x2 y1 y2
  have hX0 : testX offsetGrid offsetBox 0 = roundDouble (1 / 100) := rfl
  have hX : testX offsetGrid offsetBox 1 = fadd (roundDouble (1 / 100)) resolution := rfl
  have hY : testY offsetGrid offsetBox 0 = fadd (roundDouble (25 / 1000)) resolution := rfl
  have hbx : offsetBox.bbox.xmax = roundDouble (1 / 10) := rfl
  have hby : offsetBox.bbox.ymax = roundDouble (12 / 100) := rfl
  have hg : offsetGrid.resolution = resolution := rfl
  have hox : offsetGrid.origin.x = 0 := rfl
  have hoy : offsetGrid.origin.y = 0 := rfl
  have hw : offsetGrid.width = 3 := rfl
  rw [hX0, hX, hY, hbx, hby, hg, hox, hoy, hw]
  refine ⟨publishedGrid_offset, ?_, by linarith, by linarith, by linarith,
    by norm_num; linarith, by norm_num; linarith, by norm_num; linarith,
    by norm_num; linarith, ?_, cellIndex_offset, ?_⟩
  · rw [overallBounds_offset, allocGrid_offset]
  · simp only [offsetBox, boxPolygon, insideBox, decide_eq_true_eq]
    refine ⟨?_, ?_, ?_, ?_⟩ <;> linarith
  · have f1 : ⌊(fadd (roundDouble (1 / 100)) resolution - 0) / resolution⌋ = 1 := by
      rw [Int.floor_eq_iff, sub_zero, div_resolution]
      norm_num
      constructor <;> linarith
    have f2 : ⌊(fadd (roundDouble (25 / 1000)) resolution - 0) / resolution⌋ = 1 := by
      rw [Int.floor_eq_iff, sub_zero, div_resolution]
      norm_num
      constructor <;> linarith
    rw [f1, f2]
    rfl

/-- C14 (failing input). For the rectangle `(0,0),(1,0),(1,0.075),(0,0.075)` the grid is 23
cells wide and 1 cell high, so the buffer has 23 cells.  The second value of `x_lo` and the
first value of `y_lo` are both the resolution; the index computed for this test point is
24, which is not below 23, and the code writes `data[24]` without any test: the run has no
defined behaviour. -/
theorem C14_low_rectangle_failing_input (inP : Point → Bool)
    (hin : inP ⟨resolution, resolution⟩ = true) :
    publishedGrid [⟨lowBox, inP⟩] = .undefined
      ∧ allocGrid (overallBounds [lowBox]) = .done lowGrid
      ∧ lowGrid.width = 23
      ∧ lowGrid.height = 1
      ∧ lowGrid.data.length = 23
      ∧ testX lowGrid ⟨lowBox, inP⟩ 1 = resolution
      ∧ testY lowGrid ⟨lowBox, inP⟩ 0 = resolution
      ∧ testX lowGrid ⟨lowBox, inP⟩ 0 < lowBox.xmax
      ∧ resolution < lowBox.xmax
      ∧ resolution < lowBox.ymax
      ∧ cellIndex lowGrid resolution resolution = .done 24
      ∧ writeCell lowGrid.data 24 = .undefined := by
  have hX : testX lowGrid ⟨lowBox, inP⟩ 1 = fadd 0 resolution := rfl
  have hY : testY lowGrid ⟨lowBox, inP⟩ 0 = fadd 0 resolution := rfl
  have hX0 : testX lowGrid ⟨lowBox, inP⟩ 0 = 0 := rfl
  have hx1 : lowBox.xmax = 1 := rfl
  have hy1 : lowBox.ymax = roundDouble (3 / 40) := rfl
  rw [hX, hY, hX0, hx1, hy1, fadd_zero_resolution]
  refine ⟨?_, ?_, rfl, rfl, by simp [lowGrid], rfl, rfl, by norm_num,
    by unfold resolution; norm_num, resolution_lt_lowBox.1, cellIndex_lowGrid, ?_⟩
  · unfold publishedGrid
    have hb : overallBounds (([⟨lowBox, inP⟩] : List MY_Polygon).map fun P => P.bbox)
        = lowBox := overallBounds_lowBox
    rw [hb, allocGrid_lowBox, Run.bind_done, rasterize_lowBox inP hin]
    rfl
  · rw [overallBounds_lowBox, allocGrid_lowBox]
  · apply writeCell_undefined
    simp [lowGrid]

/-- C14 (witness). The rectangle with the point test of its interior. -/
theorem C14_low_rectangle_failing_input_witness :
    publishedGrid [boxPolygon lowBox] = .undefined :=
  (C14_low_rectangle_failing_input (insideBox lowBox)
    (by
      have r0 : (0 : ℚ) < resolution := resolution_pos
      have r1 : resolution < roundDouble (3 / 40) := resolution_lt_lowBox.1
      have r4 : resolution < 1 := by unfold resolution; norm_num
      simp [insideBox, lowBox, r0, r1, r4])).1

/-- C15 (as stated, refuted). For the two squares of side `1/64` at `(0, 4096)` and at
`(4096, 0)` the published grid is 98304 cells wide and 98304 cells high, and its cell array
has `2^30` cells, not `98304 * 98304`. -/
theorem C15_far_squares_counterexample :
    publishedGrid [farSquareA, farSquareB] = .done farGrid
      ∧ farGrid.width = 98304
      ∧ farGrid.height = 98304
      ∧ farGrid.data.length = 1073741824
      ∧ farGrid.width * farGrid.height = 9663676416
      ∧ farGrid.data.length ≠ farGrid.width * farGrid.height := by
  have hl : farGrid.data.length = 1073741824 := List.length_replicate _ _
  have hw : farGrid.width = 98304 := rfl
  have hh : farGrid.height = 98304 := rfl
  refine ⟨publishedGrid_far, hw, hh, hl, ?_, ?_⟩
  · rw [hw, hh]
  · rw [hl, hw, hh]
    norm_num

/-- C15 (amended). For every run that publishes a grid, the cell array has length
`width*height mod 2^32` (the product of line 367 is one of unsigned 32-bit integers) and
every cell is 0 or 100; and rasterisation, started on any buffer, keeps the length of the
buffer and leaves every cell either unchanged or set to 100, so that a cell at 100 stays
at 100. -/
theorem C15_cells_zero_or_hundred (polys : List MY_Polygon) (g : OccupancyGrid)
    (h : publishedGrid polys = .done g) :
    g.data.length = (g.width * g.height) % 2 ^ 32
      ∧ (∀ c, c ∈ g.data → c = 0 ∨ c = 100)
      ∧ (∀ (g0 : OccupancyGrid) (ps : List MY_Polygon) (d0 d1 : List Int),
          rasterize g0 ps (.done d0) = .done d1 →
            d1.length = d0.length
              ∧ (∀ k : Nat, d1[k]? = d0[k]? ∨ d1[k]? = some 100)
              ∧ (∀ k : Nat, d0[k]? = some 100 → d1[k]? = some 100)) := by
  obtain ⟨g0, d1, ha, hr, rfl⟩ := publishedGrid_done h
  obtain ⟨w, h', _, _, rfl⟩ := allocGrid_done ha
  obtain ⟨hlen, hcells⟩ := rasterize_cells _ _ _ _ hr
  refine ⟨?_, ?_, ?_⟩
  · simp only [hlen, List.length_replicate]
  · intro c hc
    obtain ⟨k, hk, rfl⟩ := List.getElem_of_mem hc
    rcases hcells k with e | e
    · left
      simp only at e
      rw [List.getElem?_eq_getElem hk, List.getElem?_replicate] at e
      split at e
      · exact Option.some.inj e
      · cases e
    · right
      rw [List.getElem?_eq_getElem hk] at e
      exact Option.some.inj e
  · intro g0 ps e0 e1 hrun
    obtain ⟨hl, hc⟩ := rasterize_cells g0 ps e0 e1 hrun
    refine ⟨hl, hc, ?_⟩
    intro k hk
    rcases hc k with e | e
    · rw [e]; exact hk
    · exact e

/-- C15 (witness). The grid published for the square of side `3/32`. -/
theorem C15_cells_zero_or_hundred_witness :
    smallGrid.data.length = (smallGrid.width * smallGrid.height) % 2 ^ 32
      ∧ (∀ c, c ∈ smallGrid.data → c = 0 ∨ c = 100) :=
  ⟨(C15_cells_zero_or_hundred [smallSquare] smallGrid publishedGrid_smallSquare).1,
    (C15_cells_zero_or_hundred [smallSquare] smallGrid publishedGrid_smallSquare).2.1⟩

/-! ## Degenerate and empty input -/

theorem canon_degenerate (s : Seg) (h : s.a = s.b) : canon s = s := by
  apply canon_of_lexLe
  rw [h]
  right
  exact ⟨rfl, le_refl _⟩

/-- C16 (as stated, refuted). The raw segment `(1,1)-(1,1)`, whose endpoints coincide, is
not dropped: it is the soup handed to the stitching, which returns it as a cycle, and a
polygon of two equal points is built from it. -/
theorem C16_degenerate_counterexample :
    simplify [⟨1, 1, 1, 1⟩] = [⟨1, 1, 1, 1⟩]
      ∧ (⟨1, 1, 1, 1⟩ : Seg).a = (⟨1, 1, 1, 1⟩ : Seg).b
      ∧ assemble 1 [⟨1, 1, 1, 1⟩] = some [[⟨1, 1, 1, 1⟩]]
      ∧ allPoints [[⟨1, 1, 1, 1⟩]] = [[⟨1, 1⟩, ⟨1, 1⟩]] := by
  refine ⟨?_, rfl, ?_, ?_⟩
  · rw [simplify_eq, List.map_singleton, canon_degenerate ⟨1, 1, 1, 1⟩ rfl]
    exact dedupOuter_of_nodup 0 _ (List.nodup_singleton _)
  · simp [assemble, stitchInit, stitchWhile]
  · simp [allPoints, toPoints]

/-- C16 (amended). No segment is dropped before normalisation: a raw segment whose two
endpoints coincide is left unchanged by the normalisation and is an entry of the soup
handed to the stitching. -/
theorem C16_degenerate_kept (raw : List Seg) (s : Seg) (hs : s ∈ raw) (hd : s.a = s.b) :
    canon s = s ∧ s ∈ simplify raw := by
  have hc := canon_degenerate s hd
  refine ⟨hc, ?_⟩
  rw [simplify_eq, mem_dedup, List.mem_map]
  exact ⟨s, hs, hc⟩

/-- C16 (witness). The raw segments `(0,0)-(2,0)` and `(1,1)-(1,1)`. -/
theorem C16_degenerate_kept_witness :
    canon ⟨1, 1, 1, 1⟩ = (⟨1, 1, 1, 1⟩ : Seg)
      ∧ (⟨1, 1, 1, 1⟩ : Seg) ∈ simplify [⟨0, 0, 2, 0⟩, ⟨1, 1, 1, 1⟩] :=
  C16_degenerate_kept [⟨0, 0, 2, 0⟩, ⟨1, 1, 1, 1⟩] ⟨1, 1, 1, 1⟩ (by decide) rfl

theorem simplify_nil : simplify [] = [] := by
  rw [simplify_eq, List.map_nil]
  exact dedupOuter_of_nodup 0 [] List.nodup_nil

/-- C17 (failing input). For the empty list of marker points `All_data` and
`Simplified_data` are empty, and line 265 reads `Simplified_data[0]` past the end of the
list: the stitching has no defined result, for any bound on the number of scans. -/
theorem C17_empty_soup_failing_input :
    collect [] = []
      ∧ markerPoints [] = []
      ∧ simplify [] = []
      ∧ stitchInit (simplify []) = none
      ∧ ∀ fuel, assemble fuel (simplify []) = none := by
  refine ⟨rfl, rfl, simplify_nil, ?_, ?_⟩
  · rw [simplify_nil]; rfl
  · intro fuel
    rw [simplify_nil]
    rfl

end FarGrid
